import Mathlib

/-!
Verification development for the fold-consistency engine of
`src/fold_controller.cpp` / `src/fold_controller.h`.

The per-line state is embedded shallowly: each `AssDialogue` becomes a
`Line` holding the parsed fold extradata entry (`extra`, an
`Option FoldData`, standing for the presence and parsed contents of the
`_aegi_folddata` extradata string) together with the cached `FoldInfo`
record.  The document is a `List Line`; a line's `Row` is its index.
Machine `int` fields are modelled as `Int`.
-/

namespace FoldModel

/-- The parsed contents of a `_aegi_folddata` extradata entry:
`<side>;<collapsed>;<id>` (fold_controller.h, comment block). -/
structure FoldData where
  side : Bool
  collapsed : Bool
  id : Int
deriving DecidableEq, Repr

/-- Mirror of class `FoldInfo` (fold_controller.h), with the C++ pointers
`counterpart`, `parent`, `nextVisible` replaced by row indices. -/
structure FoldInfo where
  extraExists : Bool
  valid : Bool
  id : Int
  collapsed : Bool
  side : Bool
  visible : Bool
  counterpart : Option Nat
  parent : Option Nat
  nextVisible : Option Nat
  invalidCount : Int
  visibleRow : Int
deriving DecidableEq, Repr

/-- Field defaults of `FoldInfo` (fold_controller.h lines 49-81). -/
def FoldInfo.init : FoldInfo :=
  { extraExists := false, valid := false, id := 0, collapsed := false,
    side := false, visible := true, counterpart := none, parent := none,
    nextVisible := none, invalidCount := 0, visibleRow := -1 }

/-- One dialogue line: its fold extradata entry and its cached `FoldInfo`. -/
structure Line where
  extra : Option FoldData
  fold : FoldInfo
deriving DecidableEq, Repr

instance : Inhabited FoldInfo := ⟨FoldInfo.init⟩
instance : Inhabited Line := ⟨⟨none, FoldInfo.init⟩⟩

/-- Read the line at row `i` (C++ iterates the intrusive `Events` list;
rows are list positions). -/
def nth (doc : List Line) (i : Nat) : Line := doc.getD i default

/-- Replace the line at row `i` by `f` applied to it. -/
def modifyLine (doc : List Line) (i : Nat) (f : Line → Line) : List Line :=
  doc.set i (f (nth doc i))

/-- `FoldController::UpdateLineExtradata`: rewrite (or delete) the stored
extradata entry from the cached `FoldInfo` fields. -/
def updateLineExtradata (l : Line) : Line :=
  if l.fold.extraExists then
    { l with extra := some ⟨l.fold.side, l.fold.collapsed, l.fold.id⟩ }
  else
    { l with extra := none }

/-- `FoldController::InvalidateLineFold`: clear `valid`, bump
`invalidCount`, and delete the stored annotation once the count
exceeds 100. -/
def invalidateLineFold (l : Line) : Line :=
  let f := { l.fold with valid := false, invalidCount := l.fold.invalidCount + 1 }
  if f.invalidCount > 100 then
    updateLineExtradata { l with fold := { f with extraExists := false } }
  else
    { l with fold := f }

/-- Per-line part of `FoldController::ReadFromExtradata`: parse the
extradata entry into the cached fields; `valid` is initialised to
`extraExists`.  When the entry is absent (or unparseable, which the
`Option` already accounts for) only `extraExists`/`valid` are cleared and
the remaining cached fields keep their previous values, as in the C++. -/
def readLine (l : Line) : Line :=
  match l.extra with
  | some d =>
      { l with fold := { l.fold with
          extraExists := true, side := d.side,
          collapsed := d.collapsed, id := d.id, valid := true } }
  | none =>
      { l with fold := { l.fold with extraExists := false, valid := false } }

/-- `FoldController::ReadFromExtradata`, document part. -/
def readFromExtradata (doc : List Line) : List Line := doc.map readLine

/-- `max_fold_id` as recomputed by `ReadFromExtradata`: reset to 0, then
`max`-accumulated over every parsed id. -/
def readMaxId (doc : List Line) : Int :=
  doc.foldl (fun m l => match l.extra with | some d => max m d.id | none => m) 0

/-- The iterated `idRemap` application
(`while (idRemap.count(line->Fold.id)) line->Fold.id = idRemap[...]`).
`fuel` bounds the chain length; every chain produced by `FixFolds` maps a
key to a strictly larger fresh value, so `remap.length` applications
always reach the fixed point. -/
def applyRemap (remap : List (Int × Int)) : Nat → Int → Int
  | 0, v => v
  | fuel + 1, v =>
      match List.lookup v remap with
      | none => v
      | some w => applyRemap remap fuel w

/-- Scan state of `FoldController::FixFolds`: the document being
repaired, the controller's `max_fold_id`, and the four loop-local
containers (`foldStack` with its top at the list head, `foldHeads`,
`completedFolds`, `idRemap`). -/
structure FixState where
  doc : List Line
  maxId : Int
  stack : List Nat
  heads : List (Int × Nat)
  completed : List Int
  remap : List (Int × Int)
deriving Repr

/-- One iteration of the `FixFolds` scan loop, at row `i`. -/
def fixStep (s : FixState) (i : Nat) : FixState :=
  let l := nth s.doc i
  if l.fold.extraExists then
    let id1 := applyRemap s.remap s.remap.length l.fold.id
    let u1 : Bool := (List.lookup l.fold.id s.remap).isSome
    let hit : Bool := s.completed.contains id1
    let id2 : Int := if hit then s.maxId + 1 else id1
    let maxId2 : Int := if hit then s.maxId + 1 else s.maxId
    let remap2 := if hit then (id1, s.maxId + 1) :: s.remap else s.remap
    let u2 : Bool := u1 || hit
    let l2 : Line := { l with fold := { l.fold with id := id2 } }
    if l2.fold.side = false then
      if (List.lookup id2 s.heads).isSome then
        -- duplicate opener
        let doc3 := modifyLine s.doc i fun _ => invalidateLineFold l2
        let doc4 := if u2 then modifyLine doc3 i updateLineExtradata else doc3
        { s with doc := doc4, maxId := maxId2, remap := remap2 }
      else
        let doc3 := modifyLine s.doc i fun _ => l2
        let doc4 := if u2 then modifyLine doc3 i updateLineExtradata else doc3
        { doc := doc4, maxId := maxId2, stack := i :: s.stack,
          heads := (id2, i) :: s.heads, completed := s.completed, remap := remap2 }
    else
      if (List.lookup id2 s.heads).isSome = false then
        -- non-matching ender
        let doc3 := modifyLine s.doc i fun _ => invalidateLineFold l2
        let doc4 := if u2 then modifyLine doc3 i updateLineExtradata else doc3
        { s with doc := doc4, maxId := maxId2,
                 completed := id2 :: s.completed, remap := remap2 }
      else
        match s.stack.findIdx? (fun r => (nth s.doc r).fold.id == id2) with
        | some k =>
          -- matched: erase all folds further inward, sync collapsed, pop
          let erased := s.stack.take k
          let doc3 := erased.foldl (fun d r => modifyLine d r invalidateLineFold) s.doc
          let completed3 :=
            (erased.map fun r => (nth s.doc r).fold.id) ++ id2 :: s.completed
          let orow := s.stack.getD k 0
          let ocol := (nth doc3 orow).fold.collapsed
          let u3 : Bool := u2 || (l2.fold.collapsed != ocol)
          let l3 : Line := { l2 with fold := { l2.fold with collapsed := ocol } }
          let doc4 := modifyLine doc3 i fun _ => l3
          let doc5 := if u3 then modifyLine doc4 i updateLineExtradata else doc4
          { doc := doc5, maxId := maxId2, stack := s.stack.drop (k + 1),
                heads := s.heads, completed := completed3, remap := remap2 }
        | none =>
          let doc3 := modifyLine s.doc i fun _ => invalidateLineFold l2
          let doc4 := if u2 then modifyLine doc3 i updateLineExtradata else doc3
          { s with doc := doc4, maxId := maxId2,
                   completed := id2 :: s.completed, remap := remap2 }
  else s

/-- The tail of one `FixFolds` iteration, abstracted over the outcome of
the id-resolution prefix (`idRemap` chasing and the `completedFolds`
check): `id2` is the resolved id, `maxId2`/`remap2` the updated counter
and remap table, and `u2` the `needs_update` flag so far.  `fixStep`
equals this applied to the respective values; the split only serves the
correctness proof. -/
def fixBranch (s : FixState) (i : Nat) (id2 maxId2 : Int)
    (remap2 : List (Int × Int)) (u2 : Bool) : FixState :=
  let l := nth s.doc i
  let l2 : Line := { l with fold := { l.fold with id := id2 } }
  if l2.fold.side = false then
    if (List.lookup id2 s.heads).isSome then
      let doc3 := modifyLine s.doc i fun _ => invalidateLineFold l2
      let doc4 := if u2 then modifyLine doc3 i updateLineExtradata else doc3
      { s with doc := doc4, maxId := maxId2, remap := remap2 }
    else
      let doc3 := modifyLine s.doc i fun _ => l2
      let doc4 := if u2 then modifyLine doc3 i updateLineExtradata else doc3
      { doc := doc4, maxId := maxId2, stack := i :: s.stack,
        heads := (id2, i) :: s.heads, completed := s.completed, remap := remap2 }
  else
    if (List.lookup id2 s.heads).isSome = false then
      let doc3 := modifyLine s.doc i fun _ => invalidateLineFold l2
      let doc4 := if u2 then modifyLine doc3 i updateLineExtradata else doc3
      { s with doc := doc4, maxId := maxId2,
               completed := id2 :: s.completed, remap := remap2 }
    else
      match s.stack.findIdx? (fun r => (nth s.doc r).fold.id == id2) with
      | some k =>
        let erased := s.stack.take k
        let doc3 := erased.foldl (fun d r => modifyLine d r invalidateLineFold) s.doc
        let completed3 :=
          (erased.map fun r => (nth s.doc r).fold.id) ++ id2 :: s.completed
        let orow := s.stack.getD k 0
        let ocol := (nth doc3 orow).fold.collapsed
        let u3 : Bool := u2 || (l2.fold.collapsed != ocol)
        let l3 : Line := { l2 with fold := { l2.fold with collapsed := ocol } }
        let doc4 := modifyLine doc3 i fun _ => l3
        let doc5 := if u3 then modifyLine doc4 i updateLineExtradata else doc4
        { doc := doc5, maxId := maxId2, stack := s.stack.drop (k + 1),
              heads := s.heads, completed := completed3, remap := remap2 }
      | none =>
        let doc3 := modifyLine s.doc i fun _ => invalidateLineFold l2
        let doc4 := if u2 then modifyLine doc3 i updateLineExtradata else doc3
        { s with doc := doc4, maxId := maxId2,
                 completed := id2 :: s.completed, remap := remap2 }

/-- Initial `FixFolds` state. -/
def initFixState (doc : List Line) (maxId : Int) : FixState :=
  ⟨doc, maxId, [], [], [], []⟩

/-- The `FixFolds` scan loop over the whole document. -/
def fixScan (doc : List Line) (maxId : Int) : FixState :=
  (List.range doc.length).foldl fixStep (initFixState doc maxId)

/-- `FoldController::FixFolds`: the scan, then the trailing loop that
invalidates every opener still on the stack (bottom to top). -/
def fixFolds (doc : List Line) (maxId : Int) : List Line × Int :=
  let s := fixScan doc maxId
  (s.stack.reverse.foldl (fun d r => modifyLine d r invalidateLineFold) s.doc, s.maxId)

/-- The Repair pass: `ReadFromExtradata` followed by `FixFolds`
(first two steps of `FoldController::UpdateFoldInfo`). -/
def repairPass (doc : List Line) : List Line × Int :=
  fixFolds (readFromExtradata doc) (readMaxId doc)

/-- Scan state of `FoldController::LinkFolds`.  `emptyPops` counts
executions of the Closer branch with an empty `foldStack`; in the C++
this would read `foldStack.back()` of an empty vector (undefined
behaviour), so the model records the event and skips the accesses. -/
structure LinkState where
  doc : List Line
  stack : List Nat
  lastVisible : Option Nat
  visibleRow : Int
  highestFolded : Int
  maxdepth : Int
  emptyPops : Nat
deriving Repr

/-- The visibility decision of the `LinkFolds` loop body:
`highestFolded > (int) foldStack.size()`, evaluated before any push or
pop of the current row. -/
def linkVis (s : LinkState) : Bool := decide (s.highestFolded > (s.stack.length : Int))

/-- The unconditional per-row writes of the `LinkFolds` loop body:
`parent`, `nextVisible`, `visible` and `visibleRow` of row `i`. -/
def linkWriteLine (s : LinkState) (i : Nat) : List Line :=
  modifyLine s.doc i fun l =>
    { l with fold := { l.fold with
        parent := s.stack.head?, nextVisible := none,
        visible := linkVis s, visibleRow := s.visibleRow } }

/-- The document after the common writes of one `LinkFolds` iteration,
including the `nextVisible` update of the last visible row when row `i`
is visible. -/
def linkDoc2 (s : LinkState) (i : Nat) : List Line :=
  if linkVis s then
    match s.lastVisible with
    | some lv =>
        modifyLine (linkWriteLine s i) lv fun m =>
          { m with fold := { m.fold with nextVisible := some i } }
    | none => linkWriteLine s i
  else linkWriteLine s i

/-- `lastVisible` after one `LinkFolds` iteration. -/
def linkLastV (s : LinkState) (i : Nat) : Option Nat :=
  if linkVis s then some i else s.lastVisible

/-- `visibleRow` after one `LinkFolds` iteration. -/
def linkVRow (s : LinkState) : Int :=
  if linkVis s then s.visibleRow + 1 else s.visibleRow

/-- One iteration of the `LinkFolds` loop, at row `i`. -/
def linkStep (s : LinkState) (i : Nat) : LinkState :=
  let l := nth s.doc i
  if l.fold.valid && !l.fold.side then
    let stack' := i :: s.stack
    let hf :=
      if !l.fold.collapsed && s.highestFolded = (stack'.length : Int) then
        s.highestFolded + 1
      else s.highestFolded
    let md := if (stack'.length : Int) > s.maxdepth then (stack'.length : Int) else s.maxdepth
    ⟨linkDoc2 s i, stack', linkLastV s i, linkVRow s, hf, md, s.emptyPops⟩
  else if l.fold.valid && l.fold.side then
    match s.stack with
    | top :: rest =>
        let doc3 := modifyLine (linkDoc2 s i) i fun m =>
          { m with fold := { m.fold with counterpart := some top } }
        let doc4 := modifyLine doc3 top fun m =>
          { m with fold := { m.fold with counterpart := some i } }
        let hf :=
          if s.highestFolded ≥ (s.stack.length : Int) then (s.stack.length : Int)
          else s.highestFolded
        ⟨doc4, rest, linkLastV s i, linkVRow s, hf, s.maxdepth, s.emptyPops⟩
    | [] => ⟨linkDoc2 s i, [], linkLastV s i, linkVRow s, s.highestFolded, s.maxdepth, s.emptyPops + 1⟩
  else
    ⟨linkDoc2 s i, s.stack, linkLastV s i, linkVRow s, s.highestFolded, s.maxdepth, s.emptyPops⟩

/-- Initial `LinkFolds` state (`maxdepth = 0`, `visibleRow = 0`,
`highestFolded = 1`). -/
def initLinkState (doc : List Line) : LinkState :=
  ⟨doc, [], none, 0, 1, 0, 0⟩

/-- `FoldController::LinkFolds`. -/
def linkFolds (doc : List Line) : LinkState :=
  (List.range doc.length).foldl linkStep (initLinkState doc)

/-- `FoldController::UpdateFoldInfo`: Repair, then Link; also returns the
resulting `max_fold_id`. -/
def updateFoldInfo (doc : List Line) : LinkState × Int :=
  let r := repairPass doc
  (linkFolds r.1, r.2)

/-- Loop body of `FoldController::CanAddFold`. -/
def canAddFoldLoop (doc : List Line) : List Nat → Int → Bool
  | [], depth => depth == 0
  | i :: rest, depth =>
      let l := nth doc i
      let d := if l.fold.valid then (if l.fold.side then depth - 1 else depth + 1) else depth
      if d < 0 then false else canAddFoldLoop doc rest d

/-- `FoldController::CanAddFold` for rows `s`, `e`: refuse when either
endpoint already carries a valid marker, then walk rows `s ≤ i < e`
keeping the running nesting depth, failing if it ever goes negative and
finally requiring it to return to 0. -/
def canAddFold (doc : List Line) (s e : Nat) : Bool :=
  if (nth doc s).fold.valid || (nth doc e).fold.valid then false
  else canAddFoldLoop doc (List.range' s (e - s)) 0

/-- `AssFile::SetExtradataValue` for the folds key: store an entry. -/
def setExtra (doc : List Line) (i : Nat) (d : FoldData) : List Line :=
  modifyLine doc i fun l => { l with extra := some d }

/-- `FoldController::RawAddFold`: mint `++max_fold_id` and write the two
annotations `0;collapsed;id` / `1;collapsed;id`. -/
def rawAddFold (doc : List Line) (maxId : Int) (s e : Nat) (collapsed : Bool) :
    List Line × Int :=
  let id := maxId + 1
  (setExtra (setExtra doc s ⟨false, collapsed, id⟩) e ⟨true, collapsed, id⟩, id)

/-- `FoldController::AddFold`.  The third component counts commits
(`context->ass->Commit(...)` calls).  The source passes the literal
`true` to `RawAddFold`, not its `collapsed` argument
(fold_controller.cpp line 77). -/
def addFold (doc : List Line) (maxId : Int) (s e : Nat) (collapsed : Bool) :
    (List Line × Int) × Nat :=
  if canAddFold doc s e then (rawAddFold doc maxId s e true, 1)
  else ((doc, maxId), 0)

/-- A valid Opener line: `valid` with `side = Open`. -/
def isValidOpener (doc : List Line) (i : Nat) : Prop :=
  (nth doc i).fold.valid = true ∧ (nth doc i).fold.side = false

/-- A valid Closer line: `valid` with `side = Close`. -/
def isValidCloser (doc : List Line) (i : Nat) : Prop :=
  (nth doc i).fold.valid = true ∧ (nth doc i).fold.side = true

/-- A Fold in the sense of the data model: a valid Opener strictly before
a valid Closer, sharing one id. -/
def ValidFold (doc : List Line) (o c : Nat) : Prop :=
  o < c ∧ isValidOpener doc o ∧ isValidCloser doc c ∧
  (nth doc o).fold.id = (nth doc c).fold.id

/-- Ghost record for one repaired fold: opener row, closer row, id and
collapsed value. -/
structure FoldPair where
  o : Nat
  c : Nat
  id : Int
  col : Bool

/-- Two distinct folds: distinct ids and row ranges that are disjoint or
strictly nested. -/
def pairRel (p q : FoldPair) : Prop :=
  p.id ≠ q.id ∧
  (q.c < p.o ∨ p.c < q.o ∨ (p.o < q.o ∧ q.c < p.c) ∨ (q.o < p.o ∧ p.c < q.c))

/-- The document rows of `p` carry exactly the fold described by `p`. -/
def pairMatches (doc : List Line) (p : FoldPair) : Prop :=
  p.o < p.c ∧
  (nth doc p.o).fold.valid = true ∧ (nth doc p.o).fold.side = false ∧
  (nth doc p.o).fold.id = p.id ∧ (nth doc p.o).fold.collapsed = p.col ∧
  (nth doc p.c).fold.valid = true ∧ (nth doc p.c).fold.side = true ∧
  (nth doc p.c).fold.id = p.id ∧ (nth doc p.c).fold.collapsed = p.col

/-- Invariant of the `FixFolds` scan after processing rows `< i` of the
post-`ReadFromExtradata` document `d0`, with ghost pair list `P`. -/
structure ScanInv (d0 : List Line) (i : Nat) (s : FixState) (P : List FoldPair) : Prop where
  hlen : s.doc.length = d0.length
  hun : ∀ r, i ≤ r → nth s.doc r = nth d0 r
  hslt : ∀ r ∈ s.stack, r < i
  hsort : s.stack.Pairwise (· > ·)
  hsv : ∀ r ∈ s.stack, (nth s.doc r).fold.valid = true ∧ (nth s.doc r).fold.side = false
  hsh : ∀ r ∈ s.stack, List.lookup (nth s.doc r).fold.id s.heads = some r
  hsc : ∀ r ∈ s.stack, (nth s.doc r).fold.id ∉ s.completed
  hhs : ∀ v r, List.lookup v s.heads = some r → v ∉ s.completed →
    r ∈ s.stack ∧ (nth s.doc r).fold.id = v
  hplt : ∀ p ∈ P, p.c < i
  hpm : ∀ p ∈ P, pairMatches s.doc p
  hpc : ∀ p ∈ P, p.id ∈ s.completed
  hpw : P.Pairwise pairRel
  hps : ∀ p ∈ P, ∀ r ∈ s.stack, p.id ≠ (nth s.doc r).fold.id ∧ (p.c < r ∨ r < p.o)
  hchar : ∀ r, r < i → (nth s.doc r).fold.valid = true →
    r ∈ s.stack ∨ ∃ p ∈ P, r = p.o ∨ r = p.c
  hmc : ∀ v ∈ s.completed, v ≤ s.maxId
  hmr : ∀ kv ∈ s.remap, kv.2 ≤ s.maxId
  hmd : ∀ r, i ≤ r → (nth d0 r).fold.extraExists = true → (nth d0 r).fold.id ≤ s.maxId
  hms : ∀ r ∈ s.stack, (nth s.doc r).fold.id ≤ s.maxId

/-- `true` when some Fold reachable from row `i` along `parent` pointers
is collapsed; `fuel` bounds the chain length (parents strictly
decrease). -/
def hasCollapsedAncestor (doc : List Line) : Nat → Nat → Bool
  | 0, _ => false
  | fuel + 1, i =>
      match (nth doc i).fold.parent with
      | none => false
      | some p => (nth doc p).fold.collapsed || hasCollapsedAncestor doc fuel p

/-- Number of visible lines strictly before row `i`. -/
def countVisibleBefore (doc : List Line) (i : Nat) : Nat :=
  ((List.range i).filter fun j => (nth doc j).fold.visible).length

/-- The fields of a line that `LinkFolds` never modifies. -/
def sameCore (l l' : Line) : Prop :=
  l.extra = l'.extra ∧ l.fold.valid = l'.fold.valid ∧ l.fold.side = l'.fold.side ∧
  l.fold.collapsed = l'.fold.collapsed ∧ l.fold.id = l'.fold.id ∧
  l.fold.extraExists = l'.fold.extraExists ∧ l.fold.invalidCount = l'.fold.invalidCount

/-- The fold `p` is open at row `r`: its opener is strictly before `r`
and its closer at or after `r`. -/
def openAt (p : FoldPair) (r : Nat) : Prop := p.o < r ∧ r ≤ p.c

/-- Depth (1-based, from the bottom of the stack) of the shallowest
collapsed opener in a bottom-first row list, or `length + 1` when none is
collapsed: the `highestFolded` quantity of `LinkFolds`. -/
def firstCollapsedDepth (doc : List Line) : List Nat → Int
  | [] => 1
  | r :: rest =>
      if (nth doc r).fold.collapsed then 1 else 1 + firstCollapsedDepth doc rest

/-- The conclusion of `repair_structure`: `P` describes the folds of the
repaired document `R` of length `n`. -/
def goodPairs (R : List Line) (n : Nat) (P : List FoldPair) : Prop :=
  (∀ p ∈ P, pairMatches R p ∧ p.c < n) ∧ P.Pairwise pairRel ∧
  (∀ r, (nth R r).fold.valid = true → ∃ p ∈ P, r = p.o ∨ r = p.c)

/-- Invariant of the `LinkFolds` scan over the repaired document `R`
with fold list `P`, after processing rows `< i`. -/
structure LinkInv (R : List Line) (P : List FoldPair) (i : Nat) (s : LinkState) : Prop where
  hlen : s.doc.length = R.length
  hcore : ∀ r, sameCore (nth s.doc r) (nth R r)
  hun : ∀ r, i ≤ r → nth s.doc r = nth R r
  hstk_mem : ∀ r ∈ s.stack, ∃ p ∈ P, p.o = r ∧ openAt p i
  hstk_full : ∀ p ∈ P, openAt p i → p.o ∈ s.stack
  hstk_sort : s.stack.Pairwise (· > ·)
  hhf : s.highestFolded = firstCollapsedDepth R s.stack.reverse
  hvr : s.visibleRow = (countVisibleBefore s.doc i : Int)
  hvis : ∀ r, r < i → ((nth s.doc r).fold.visible = true ↔
    ∀ p ∈ P, openAt p r → p.col = false)
  hpar : ∀ r, r < i →
    ((nth s.doc r).fold.parent = none ∧ ∀ p ∈ P, ¬ openAt p r) ∨
    (∃ p ∈ P, openAt p r ∧ (nth s.doc r).fold.parent = some p.o ∧
      ∀ q ∈ P, openAt q r → q.o ≤ p.o)
  hcp : ∀ p ∈ P, p.c < i →
    (nth s.doc p.o).fold.counterpart = some p.c ∧
    (nth s.doc p.c).fold.counterpart = some p.o
  hcpu : ∀ r, (∀ p ∈ P, r ≠ p.o ∧ r ≠ p.c) →
    (nth s.doc r).fold.counterpart = (nth R r).fold.counterpart
  hvrow : ∀ r, r < i → (nth s.doc r).fold.visibleRow = (countVisibleBefore s.doc r : Int)
  hlast : ∀ r, s.lastVisible = some r → r < i
  hlv : ∀ r, s.lastVisible = some r ↔ (r < i ∧ (nth s.doc r).fold.visible = true ∧
    ∀ u, r < u → u < i → (nth s.doc u).fold.visible = false)
  hnv : ∀ r, r < i →
    ((nth s.doc r).fold.visible = false → (nth s.doc r).fold.nextVisible = none) ∧
    ((nth s.doc r).fold.visible = true →
      ((∀ u, r < u → u < i → (nth s.doc u).fold.visible = false) →
        (nth s.doc r).fold.nextVisible = none) ∧
      (∀ v, r < v → v < i → (nth s.doc v).fold.visible = true →
        (∀ u, r < u → u < v → (nth s.doc u).fold.visible = false) →
        (nth s.doc r).fold.nextVisible = some v))
  hep : s.emptyPops = 0

/-- The stored extradata entry and the cached fields of a line agree:
a present entry is recorded in `extraExists` and, when the marker is
valid, matches the cached `side`/`collapsed`/`id`; a valid marker has a
stored entry; an absent entry means `extraExists = false` and
`valid = false`.  Every line produced by the Repair pipeline satisfies
this. -/
def lineSync (l : Line) : Prop :=
  (∀ d, l.extra = some d → l.fold.extraExists = true ∧
    (l.fold.valid = true → l.fold.side = d.side ∧ l.fold.collapsed = d.collapsed ∧
      l.fold.id = d.id)) ∧
  (l.extra = none → l.fold.extraExists = false ∧ l.fold.valid = false) ∧
  (l.fold.valid = true → l.fold.extraExists = true)

/-- Invariant of a `FixFolds` scan over a document `D` that the scan
never modifies: the stack holds the open folds of the pair list `P`,
`foldHeads` the openers seen so far, `completedFolds` the closed folds,
and no remap or doc write has happened. -/
structure IdScanInv (D : List Line) (P : List FoldPair) (M : Int) (i : Nat)
    (s : FixState) : Prop where
  hdoc : s.doc = D
  hmax : s.maxId = M
  hremap : s.remap = []
  hcomp : ∀ v, v ∈ s.completed ↔ ∃ p ∈ P, p.id = v ∧ p.c < i
  hstk_mem : ∀ r ∈ s.stack, ∃ p ∈ P, p.o = r ∧ openAt p i
  hstk_full : ∀ p ∈ P, openAt p i → p.o ∈ s.stack
  hstk_sort : s.stack.Pairwise (· > ·)
  hheads : ∀ v r, List.lookup v s.heads = some r → ∃ p ∈ P, p.id = v ∧ p.o = r ∧ p.o < i
  hheads_full : ∀ p ∈ P, p.o < i → List.lookup p.id s.heads = some p.o

/-- A concrete six-line test document: a fold (id 1) containing a
collapsed fold (id 2), followed by a disjoint fold (id 7). -/
def docW6 : List Line :=
  [⟨some ⟨false, false, 1⟩, FoldInfo.init⟩, ⟨some ⟨false, true, 2⟩, FoldInfo.init⟩,
   ⟨some ⟨true, true, 2⟩, FoldInfo.init⟩, ⟨some ⟨true, false, 1⟩, FoldInfo.init⟩,
   ⟨some ⟨false, false, 7⟩, FoldInfo.init⟩, ⟨some ⟨true, false, 7⟩, FoldInfo.init⟩]

/-! ### Basic lemmas about the row accessors -/

theorem length_modifyLine (doc : List Line) (i : Nat) (f : Line → Line) :
    (modifyLine doc i f).length = doc.length :=
  List.length_set ..

theorem nth_modifyLine_self {doc : List Line} {i : Nat} (f : Line → Line)
    (h : i < doc.length) : nth (modifyLine doc i f) i = f (nth doc i) := by
  simp [modifyLine, nth, List.getD_eq_getElem?_getD, List.getElem?_set_self h]

theorem nth_modifyLine_ne {doc : List Line} {i j : Nat} (f : Line → Line)
    (h : i ≠ j) : nth (modifyLine doc i f) j = nth doc j := by
  simp [modifyLine, nth, List.getD_eq_getElem?_getD, List.getElem?_set_ne h]

theorem length_foldl_modify (rs : List Nat) (doc : List Line) (f : Line → Line) :
    (rs.foldl (fun d r => modifyLine d r f) doc).length = doc.length := by
  induction rs generalizing doc with
  | nil => rfl
  | cons r rs ih => simp [List.foldl_cons, ih, length_modifyLine]

theorem nth_foldl_modify_not_mem {rs : List Nat} {doc : List Line} {f : Line → Line}
    {j : Nat} (h : j ∉ rs) :
    nth (rs.foldl (fun d r => modifyLine d r f) doc) j = nth doc j := by
  induction rs generalizing doc with
  | nil => rfl
  | cons r rs ih =>
      simp only [List.mem_cons, not_or] at h
      rw [List.foldl_cons, ih h.2, nth_modifyLine_ne _ (Ne.symm h.1)]

theorem nth_foldl_modify_mem {rs : List Nat} {doc : List Line} {f : Line → Line}
    {j : Nat} (hmem : j ∈ rs) (hnd : rs.Nodup) (hlt : j < doc.length) :
    nth (rs.foldl (fun d r => modifyLine d r f) doc) j = f (nth doc j) := by
  induction rs generalizing doc with
  | nil => cases hmem
  | cons r rs ih =>
      rcases List.mem_cons.mp hmem with h | h
      · subst h
        rw [List.foldl_cons,
          nth_foldl_modify_not_mem (List.Nodup.not_mem hnd),
          nth_modifyLine_self _ hlt]
      · rw [List.foldl_cons, ih h (List.Nodup.of_cons hnd) (by rwa [length_modifyLine]),
          nth_modifyLine_ne _ (by rintro rfl; exact List.Nodup.not_mem hnd h)]

/-- Invariant preservation through a `foldl` over `List.range' a n`. -/
theorem foldl_range'_inv {σ : Type _} (f : σ → Nat → σ) (P : Nat → σ → Prop) :
    ∀ (n a : Nat) (s : σ), P a s →
      (∀ i t, a ≤ i → i < a + n → P i t → P (i + 1) (f t i)) →
      P (a + n) ((List.range' a n).foldl f s) := by
  intro n
  induction n with
  | zero => intro a s h _; simpa using h
  | succ n ih =>
      intro a s h hstep
      rw [List.range'_succ, List.foldl_cons]
      have h1 : P (a + 1) (f s a) :=
        hstep a s le_rfl (by omega) h
      have := ih (a + 1) (f s a) h1 (fun i t hi hi2 ht => hstep i t (by omega) (by omega) ht)
      have heq : a + 1 + n = a + (n + 1) := by omega
      rwa [heq] at this

/-! ### Facts about the elementary line operations -/

theorem fold_updateLineExtradata (l : Line) :
    (updateLineExtradata l).fold = l.fold := by
  by_cases hc : l.fold.extraExists <;> simp [updateLineExtradata, hc]

theorem invalidateLineFold_of_low (l : Line) (h : l.fold.invalidCount + 1 ≤ 100) :
    invalidateLineFold l =
      { l with fold := { l.fold with
          valid := false, invalidCount := l.fold.invalidCount + 1 } } := by
  simp only [invalidateLineFold]
  rw [if_neg (by omega)]

theorem invalidateLineFold_of_high (l : Line) (h : l.fold.invalidCount + 1 > 100) :
    invalidateLineFold l =
      { l with extra := none,
               fold := { l.fold with
                 valid := false, extraExists := false,
                 invalidCount := l.fold.invalidCount + 1 } } := by
  simp only [invalidateLineFold]
  rw [if_pos (by omega)]
  simp [updateLineExtradata]

theorem invalidCount_invalidateLineFold (l : Line) :
    (invalidateLineFold l).fold.invalidCount = l.fold.invalidCount + 1 := by
  by_cases hc : l.fold.invalidCount + 1 > 100
  · rw [invalidateLineFold_of_high l hc]
  · rw [invalidateLineFold_of_low l (by omega)]

theorem valid_invalidateLineFold (l : Line) :
    (invalidateLineFold l).fold.valid = false := by
  by_cases hc : l.fold.invalidCount + 1 > 100
  · rw [invalidateLineFold_of_high l hc]
  · rw [invalidateLineFold_of_low l (by omega)]

theorem length_readFromExtradata (doc : List Line) :
    (readFromExtradata doc).length = doc.length := List.length_map ..

theorem nth_readFromExtradata {doc : List Line} {i : Nat} (h : i < doc.length) :
    nth (readFromExtradata doc) i = readLine (nth doc i) := by
  simp [readFromExtradata, nth, List.getD_eq_getElem?_getD, List.getElem?_map,
    List.getElem?_eq_getElem h]

theorem nth_ge_length {doc : List Line} {i : Nat} (h : doc.length ≤ i) :
    nth doc i = default := by
  simp [nth, List.getD_eq_getElem?_getD, List.getElem?_eq_none h]

/-! ### Pointwise preservation through the Repair scan -/

theorem pointwise_modify (Q : Nat → Line → Prop) {doc : List Line} {i : Nat}
    {f : Line → Line} (h : ∀ j, Q j (nth doc j)) (hf : ∀ l, Q i l → Q i (f l)) :
    ∀ j, Q j (nth (modifyLine doc i f) j) := by
  intro j
  by_cases hj : i = j
  · subst hj
    by_cases hlt : i < doc.length
    · rw [nth_modifyLine_self _ hlt]; exact hf _ (h i)
    · rw [modifyLine, List.set_eq_of_length_le (by omega)]; exact h i
  · rw [nth_modifyLine_ne _ hj]; exact h j

theorem pointwise_foldl_modify (Q : Nat → Line → Prop) {rs : List Nat}
    {doc : List Line} {f : Line → Line} (h : ∀ j, Q j (nth doc j))
    (hf : ∀ j l, Q j l → Q j (f l)) :
    ∀ j, Q j (nth (rs.foldl (fun d r => modifyLine d r f) doc) j) := by
  induction rs generalizing doc with
  | nil => exact h
  | cons r rs ih =>
      rw [List.foldl_cons]
      exact ih (pointwise_modify Q h (hf r))

/-- Every document mutation performed by one `FixFolds` iteration is an
invalidation, an extradata rewrite, or an id/collapsed overwrite of the
current line; any per-line property preserved by those operations
survives the whole iteration. -/
theorem fixStep_pointwise (Q : Nat → Line → Prop) (s : FixState) (i : Nat)
    (h : ∀ j, Q j (nth s.doc j))
    (hInv : ∀ j l, Q j l → Q j (invalidateLineFold l))
    (hUpd : ∀ j l, Q j l → Q j (updateLineExtradata l))
    (hMut : ∀ j l v c, Q j l →
      Q j { l with fold := { l.fold with id := v, collapsed := c } }) :
    ∀ j, Q j (nth (fixStep s i).doc j) := by
  have hcIdCol : ∀ (v : Int) (c : Bool),
      Q i { nth s.doc i with fold := { (nth s.doc i).fold with id := v, collapsed := c } } :=
    fun v c => hMut i _ v c (h i)
  have hcId : ∀ (v : Int),
      Q i { nth s.doc i with fold := { (nth s.doc i).fold with id := v } } :=
    fun v => hcIdCol v (nth s.doc i).fold.collapsed
  simp only [fixStep]
  repeat' split
  all_goals
    first
      | exact h
      | exact pointwise_modify Q h (fun l _ => hInv i _ (hcId _))
      | exact pointwise_modify Q (pointwise_modify Q h (fun l _ => hInv i _ (hcId _))) (hUpd i)
      | exact pointwise_modify Q h (fun l _ => hcId _)
      | exact pointwise_modify Q (pointwise_modify Q h (fun l _ => hcId _)) (hUpd i)
      | exact pointwise_modify Q (pointwise_foldl_modify Q h hInv) (fun l _ => hcIdCol _ _)
      | exact pointwise_modify Q
          (pointwise_modify Q (pointwise_foldl_modify Q h hInv) (fun l _ => hcIdCol _ _)) (hUpd i)

theorem length_fixStep (s : FixState) (i : Nat) :
    (fixStep s i).doc.length = s.doc.length := by
  simp only [fixStep]
  repeat' split
  all_goals simp [length_modifyLine, length_foldl_modify]

theorem foldl_fixStep_pointwise (Q : Nat → Line → Prop) (idxs : List Nat)
    (hInv : ∀ j l, Q j l → Q j (invalidateLineFold l))
    (hUpd : ∀ j l, Q j l → Q j (updateLineExtradata l))
    (hMut : ∀ j l v c, Q j l →
      Q j { l with fold := { l.fold with id := v, collapsed := c } }) :
    ∀ s : FixState, (∀ j, Q j (nth s.doc j)) →
      ∀ j, Q j (nth (idxs.foldl fixStep s).doc j) := by
  induction idxs with
  | nil => exact fun s h => h
  | cons a idxs ih =>
      intro s h
      rw [List.foldl_cons]
      exact ih _ (fixStep_pointwise Q s a h hInv hUpd hMut)

/-- Pointwise preservation through the whole Repair pass (`FixFolds`,
including the trailing stack invalidation). -/
theorem fixFolds_pointwise (Q : Nat → Line → Prop) (doc : List Line) (maxId : Int)
    (h : ∀ j, Q j (nth doc j))
    (hInv : ∀ j l, Q j l → Q j (invalidateLineFold l))
    (hUpd : ∀ j l, Q j l → Q j (updateLineExtradata l))
    (hMut : ∀ j l v c, Q j l →
      Q j { l with fold := { l.fold with id := v, collapsed := c } }) :
    ∀ j, Q j (nth (fixFolds doc maxId).1 j) := by
  have hscan := foldl_fixStep_pointwise Q (List.range doc.length) hInv hUpd hMut
    (initFixState doc maxId) h
  exact pointwise_foldl_modify Q hscan hInv

theorem readLine_fold_invalidCount (l : Line) :
    (readLine l).fold.invalidCount = l.fold.invalidCount := by
  cases hl : l.extra <;> simp [readLine, hl]

/-! ### Scan decomposition helpers -/

theorem applyRemap_nil (fuel : Nat) (v : Int) : applyRemap [] fuel v = v := by
  cases fuel <;> simp [applyRemap]

theorem fixStep_nonmarker (s : FixState) (i : Nat)
    (h : (nth s.doc i).fold.extraExists = false) : fixStep s i = s := by
  simp [fixStep, h]

theorem run_gap (s : FixState) (a : Nat) :
    ∀ len : Nat, (∀ i, a ≤ i → i < a + len → (nth s.doc i).fold.extraExists = false) →
      (List.range' a len).foldl fixStep s = s := by
  intro len
  induction len generalizing a with
  | zero => intro _; rfl
  | succ len ih =>
      intro h
      rw [List.range'_succ, List.foldl_cons,
        fixStep_nonmarker s a (h a le_rfl (by omega))]
      exact ih (a + 1) fun i h1 h2 => h i (by omega) (by omega)

theorem range'_split_at (a len p : Nat) (h1 : a ≤ p) (h2 : p < a + len) :
    List.range' a len =
      List.range' a (p - a) ++ p :: List.range' (p + 1) (a + len - (p + 1)) := by
  have hlen : len = (a + len - p) + (p - a) := by omega
  conv_lhs => rw [hlen, ← List.range'_append]
  have hm : a + 1 * (p - a) = p := by omega
  rw [hm]
  have hrest : a + len - p = (a + len - (p + 1)) + 1 := by omega
  rw [hrest, List.range'_succ]

theorem foldl_max_extra_le (doc : List Line) :
    ∀ {m m' : Int}, m ≤ m' →
      doc.foldl (fun m l => match l.extra with | some d => max m d.id | none => m) m ≤
      doc.foldl (fun m l => match l.extra with | some d => max m d.id | none => m) m' := by
  induction doc with
  | nil => intro m m' h; exact h
  | cons x xs ih =>
      intro m m' h
      rw [List.foldl_cons, List.foldl_cons]
      cases x.extra with
      | none => exact ih h
      | some d => exact ih (max_le_max h le_rfl)

theorem le_foldl_max_extra (doc : List Line) (m : Int) :
    m ≤ doc.foldl (fun m l => match l.extra with | some d => max m d.id | none => m) m := by
  induction doc generalizing m with
  | nil => exact le_rfl
  | cons x xs ih =>
      rw [List.foldl_cons]
      cases x.extra with
      | none => exact ih m
      | some d => exact le_trans (le_max_left m d.id) (ih _)

theorem readMaxId_nonneg (doc : List Line) : 0 ≤ readMaxId doc :=
  le_foldl_max_extra doc 0

theorem readMaxId_ge {doc : List Line} {j : Nat} {dd : FoldData}
    (h : (nth doc j).extra = some dd) : dd.id ≤ readMaxId doc := by
  induction doc generalizing j with
  | nil => simp [nth, List.getD] at h
  | cons x xs ih =>
      cases j with
      | zero =>
          have hx : x.extra = some dd := h
          unfold readMaxId
          rw [List.foldl_cons, hx]
          exact le_trans (le_trans (le_max_right 0 dd.id) (le_refl _))
            (le_foldl_max_extra xs _)
      | succ j =>
          have hx : (nth xs j).extra = some dd := h
          have := ih hx
          unfold readMaxId at this ⊢
          rw [List.foldl_cons]
          refine le_trans this (foldl_max_extra_le xs ?_)
          cases x.extra with
          | none => exact le_rfl
          | some d => exact le_max_left 0 d.id

/-! ### Helpers for the FixFolds scan invariant -/

theorem lookup_mem {α β : Type _} [BEq α] [LawfulBEq α] {es : List (α × β)} {a : α} {b : β}
    (h : List.lookup a es = some b) : (a, b) ∈ es := by
  induction es with
  | nil => cases h
  | cons kv es ih =>
      obtain ⟨k, v⟩ := kv
      rw [List.lookup_cons] at h
      by_cases hk : (a == k) = true
      · simp only [hk] at h
        cases h
        simp [eq_of_beq hk]
      · simp only [Bool.not_eq_true] at hk
        simp only [hk] at h
        exact List.mem_cons_of_mem _ (ih h)

theorem applyRemap_le {remap : List (Int × Int)} {m : Int}
    (hr : ∀ kv ∈ remap, kv.2 ≤ m) :
    ∀ (fuel : Nat) (v : Int), v ≤ m → applyRemap remap fuel v ≤ m := by
  intro fuel
  induction fuel with
  | zero => intro v hv; exact hv
  | succ fuel ih =>
      intro v hv
      unfold applyRemap
      cases hlk : List.lookup v remap with
      | none => exact hv
      | some w => exact ih w (hr _ (lookup_mem hlk))

theorem findIdx?_go_spec {α : Type _} (p : α → Bool) (d : α) :
    ∀ (l : List α) (st k : Nat), List.findIdx? p l st = some k →
      st ≤ k ∧ k - st < l.length ∧ p (l.getD (k - st) d) = true ∧
      ∀ j, j < k - st → p (l.getD j d) = false := by
  intro l
  induction l with
  | nil => intro st k h; cases h
  | cons x xs ih =>
      intro st k h
      rw [List.findIdx?_cons] at h
      by_cases hx : p x = true
      · rw [if_pos hx] at h
        cases h
        refine ⟨le_rfl, by simp, by simpa, fun j hj => absurd hj (by omega)⟩
      · rw [if_neg hx] at h
        obtain ⟨h1, h2, h3, h4⟩ := ih (st + 1) k h
        have hks : k - st = (k - (st + 1)) + 1 := by omega
        refine ⟨by omega, by simp; omega, ?_, ?_⟩
        · rw [hks, List.getD_cons_succ]
          exact h3
        · intro j hj
          match j with
          | 0 => simpa using hx
          | j + 1 =>
              rw [List.getD_cons_succ]
              exact h4 j (by omega)

theorem findIdx?_spec {α : Type _} {p : α → Bool} (d : α) {l : List α} {k : Nat}
    (h : List.findIdx? p l = some k) :
    k < l.length ∧ p (l.getD k d) = true ∧ ∀ j, j < k → p (l.getD j d) = false := by
  have := findIdx?_go_spec p d l 0 k h
  simpa using this

theorem findIdx?_go_none {α : Type _} (p : α → Bool) :
    ∀ (l : List α) (st : Nat), List.findIdx? p l st = none →
      ∀ x ∈ l, p x = false := by
  intro l
  induction l with
  | nil => intro st _ x hx; cases hx
  | cons y ys ih =>
      intro st h x hx
      rw [List.findIdx?_cons] at h
      by_cases hy : p y = true
      · rw [if_pos hy] at h; cases h
      · rw [if_neg hy] at h
        rcases List.mem_cons.mp hx with rfl | hx
        · simpa using hy
        · exact ih (st + 1) h x hx

theorem getD_decomp {α : Type _} (d : α) {l : List α} {k : Nat} (h : k < l.length) :
    l = l.take k ++ l.getD k d :: l.drop (k + 1) := by
  conv_lhs => rw [← List.take_append_drop k l]
  rw [List.drop_eq_getElem_cons h]
  simp [List.getD_eq_getElem?_getD, List.getElem?_eq_getElem h]

theorem fold_invalidateLineFold_id (l : Line) :
    (invalidateLineFold l).fold.id = l.fold.id := by
  by_cases hc : l.fold.invalidCount + 1 > 100
  · rw [invalidateLineFold_of_high l hc]
  · rw [invalidateLineFold_of_low l (by omega)]

theorem fold_invalidateLineFold_side (l : Line) :
    (invalidateLineFold l).fold.side = l.fold.side := by
  by_cases hc : l.fold.invalidCount + 1 > 100
  · rw [invalidateLineFold_of_high l hc]
  · rw [invalidateLineFold_of_low l (by omega)]

theorem fold_invalidateLineFold_collapsed (l : Line) :
    (invalidateLineFold l).fold.collapsed = l.fold.collapsed := by
  by_cases hc : l.fold.invalidCount + 1 > 100
  · rw [invalidateLineFold_of_high l hc]
  · rw [invalidateLineFold_of_low l (by omega)]

/-! ### Claims C1, C4, C5 and the counterexample to C2 -/

/-- C1: the claim says `AddFold(start, end, collapsed)` writes Opener and
Closer annotations that both carry the `collapsed` value passed as the
argument (together with a fresh id and one commit).  The source instead
calls `RawAddFold(start, end, true)` (fold_controller.cpp line 77), so the
`collapsed` parameter is dead: with `collapsed = false` on a two-line
document both stored annotations still say `collapsed = true`.  The fresh
id (`max_fold_id + 1 = 1`) and the single commit do match the claim.  This
theorem evaluates the code at that failing input. -/
theorem addFold_stores_true_regardless_of_collapsed_argument :
    let doc : List Line := [⟨none, FoldInfo.init⟩, ⟨none, FoldInfo.init⟩]
    let r := addFold doc 0 0 1 false
    (nth r.1.1 0).extra = some ⟨false, true, 1⟩ ∧
    (nth r.1.1 1).extra = some ⟨true, true, 1⟩ ∧
    r.2 = 1 := by decide

/-- C4: whenever the `CanAddFold` precondition fails (in particular for a
range partially overlapping an existing valid fold), `AddFold` leaves the
whole document - every stored annotation and every cached descriptor -
unchanged, and issues no commit. -/
theorem addFold_noop_when_canAddFold_false (doc : List Line) (maxId : Int)
    (s e : Nat) (collapsed : Bool) (h : canAddFold doc s e = false) :
    addFold doc maxId s e collapsed = ((doc, maxId), 0) := by
  simp [addFold, h]

/-- Witness for C4: the repaired document with one valid fold spanning
rows 0-2; the range `[1,3]` partially overlaps it, `CanAddFold` is false,
and `AddFold` changes nothing and commits nothing. -/
theorem addFold_noop_when_canAddFold_false_witness :
    let doc := (repairPass
      [⟨some ⟨false, false, 1⟩, FoldInfo.init⟩, ⟨none, FoldInfo.init⟩,
       ⟨some ⟨true, false, 1⟩, FoldInfo.init⟩, ⟨none, FoldInfo.init⟩]).1
    canAddFold doc 1 3 = false ∧ addFold doc 5 1 3 true = ((doc, 5), 0) :=
  ⟨by decide, addFold_noop_when_canAddFold_false _ 5 1 3 true (by decide)⟩

/-- Counterexample to C5: the claim asserts that a repair cycle in which a
marker validates successfully resets its `invalidCount`, so that deletion
requires more than 100 *consecutive* invalidations.  In the code the
count is never reset: here an opener with `invalidCount = 100` validates
successfully (forming a fold with its closer), its count stays 100, and
after an external edit removes the closer annotation a *single* further
invalidation deletes the opener annotation - under the claimed reset
semantics it would have survived 100 more cycles. -/
theorem invalidCount_not_reset_by_successful_validation :
    let d0 : List Line :=
      [⟨some ⟨false, false, 5⟩, { FoldInfo.init with invalidCount := 100 }⟩,
       ⟨some ⟨true, false, 5⟩, FoldInfo.init⟩]
    let d1 := (repairPass d0).1
    let d2 := (repairPass (modifyLine d1 1 fun l => { l with extra := none })).1
    ((nth d1 0).fold.valid = true ∧ (nth d1 0).fold.invalidCount = 100) ∧
    (nth d2 0).extra = none := by decide

/-- C5 (amended): an invalidated marker keeps its stored annotation until
its *cumulative* `invalidCount` exceeds 100.  Each invalidation clears
`valid` and increments the count by one, keeping the annotation while the
new count is at most 100 and deleting it as soon as it is larger; a
repair cycle in which a marker validates successfully leaves its count
unchanged (it is never reset), so the threshold counts total, not
consecutive, invalidations. -/
theorem invalidation_threshold_is_cumulative :
    (∀ l : Line,
      (invalidateLineFold l).fold.valid = false ∧
      (invalidateLineFold l).fold.invalidCount = l.fold.invalidCount + 1 ∧
      (l.fold.invalidCount + 1 ≤ 100 →
        (invalidateLineFold l).extra = l.extra ∧
        (invalidateLineFold l).fold.extraExists = l.fold.extraExists) ∧
      (l.fold.invalidCount + 1 > 100 →
        (invalidateLineFold l).extra = none ∧
        (invalidateLineFold l).fold.extraExists = false)) ∧
    (∀ (doc : List Line) (i : Nat),
      (nth (repairPass doc).1 i).fold.valid = true →
      (nth (repairPass doc).1 i).fold.invalidCount = (nth doc i).fold.invalidCount) := by
  constructor
  · intro l
    by_cases hc : l.fold.invalidCount + 1 > 100
    · rw [invalidateLineFold_of_high l hc]
      refine ⟨rfl, rfl, fun h => absurd hc (by omega), fun _ => ⟨rfl, rfl⟩⟩
    · rw [invalidateLineFold_of_low l (by omega)]
      exact ⟨rfl, rfl, fun _ => ⟨rfl, rfl⟩, fun h => absurd h hc⟩
  · intro doc i
    set Q : Nat → Line → Prop := fun j l =>
      l.fold.valid = true → l.fold.invalidCount = (nth doc j).fold.invalidCount with hQ
    have hInv : ∀ j l, Q j l → Q j (invalidateLineFold l) := by
      intro j l _ hv
      rw [valid_invalidateLineFold] at hv
      cases hv
    have hUpd : ∀ j l, Q j l → Q j (updateLineExtradata l) := by
      intro j l hq
      simp only [hQ, fold_updateLineExtradata]
      exact hq
    have hMut : ∀ j l v c, Q j l →
        Q j { l with fold := { l.fold with id := v, collapsed := c } } := by
      intro j l v c hq hv
      exact hq hv
    have h0 : ∀ j, Q j (nth (readFromExtradata doc) j) := by
      intro j
      by_cases hj : j < doc.length
      · rw [nth_readFromExtradata hj]
        intro _
        exact readLine_fold_invalidCount (nth doc j)
      · rw [nth_ge_length (by simpa [length_readFromExtradata] using Nat.le_of_not_lt hj)]
        intro hv
        cases hv
    exact fixFolds_pointwise Q (readFromExtradata doc) (readMaxId doc) h0 hInv hUpd hMut i

/-- Witness for C5 (amended), instantiating both conjuncts: a marker with
`invalidCount = 50` is invalidated (count becomes 51, annotation kept),
and the opener of a successfully validated fold keeps its count through a
repair pass. -/
theorem invalidation_threshold_is_cumulative_witness :
    let l0 : Line := ⟨some ⟨true, false, 2⟩, { FoldInfo.init with
      extraExists := true, invalidCount := 50 }⟩
    let d0 : List Line :=
      [⟨some ⟨false, false, 5⟩, { FoldInfo.init with invalidCount := 7 }⟩,
       ⟨some ⟨true, false, 5⟩, FoldInfo.init⟩]
    ((invalidateLineFold l0).fold.invalidCount = 51 ∧
      (invalidateLineFold l0).extra = l0.extra) ∧
    (nth (repairPass d0).1 0).fold.invalidCount = (nth d0 0).fold.invalidCount := by
  refine ⟨⟨?_, ?_⟩, ?_⟩
  · rw [(invalidation_threshold_is_cumulative.1 _).2.1]; decide
  · exact ((invalidation_threshold_is_cumulative.1 _).2.2.1 (by decide)).1
  · exact invalidation_threshold_is_cumulative.2 _ 0 (by decide)

/-- Counterexample to C2: the Repair+Link cycle is not idempotent on the
descriptor fields.  A lone Closer annotation whose line has
`invalidCount = 99` is invalidated by the first run (count 100, the
annotation and `exists` survive), but the second run invalidates it again,
pushing the count over the threshold: its annotation is deleted and
`exists` flips to false, so the second run's descriptors differ from the
first run's and the second run performs a further invalidation. -/
theorem repair_link_cycle_not_idempotent :
    let d0 : List Line := [⟨some ⟨true, false, 3⟩, { FoldInfo.init with invalidCount := 99 }⟩]
    let d1 := (updateFoldInfo d0).1.doc
    let d2 := (updateFoldInfo d1).1.doc
    (nth d1 0).fold.extraExists = true ∧ (nth d1 0).extra = some ⟨true, false, 3⟩ ∧
    (nth d2 0).fold.extraExists = false ∧ (nth d2 0).extra = none := by decide

theorem scan_through_gap (s : FixState) (a len p : Nat) (h1 : a ≤ p) (h2 : p < a + len)
    (hgap : ∀ i, a ≤ i → i < p → (nth s.doc i).fold.extraExists = false) :
    (List.range' a len).foldl fixStep s =
      (List.range' (p + 1) (a + len - (p + 1))).foldl fixStep (fixStep s p) := by
  rw [range'_split_at a len p h1 h2, List.foldl_append,
    run_gap s a (p - a) (fun i hi1 hi2 => hgap i hi1 (by omega)), List.foldl_cons]

section C6

variable (doc : List Line) (p1 p2 p3 p4 : Nat) (a b : Int) (ca cb ca' cb' : Bool)

/-- C6: crossing pattern. -/
theorem crossing_pattern_repair
    (h12 : p1 < p2) (h23 : p2 < p3) (h34 : p3 < p4) (h4n : p4 < doc.length)
    (hab : a ≠ b)
    (hp1 : (nth doc p1).extra = some ⟨false, ca, a⟩)
    (hp2 : (nth doc p2).extra = some ⟨false, cb, b⟩)
    (hp3 : (nth doc p3).extra = some ⟨true, ca', a⟩)
    (hp4 : (nth doc p4).extra = some ⟨true, cb', b⟩)
    (hgap : ∀ j, j ≠ p1 → j ≠ p2 → j ≠ p3 → j ≠ p4 → (nth doc j).extra = none) :
    ((nth (repairPass doc).1 p1).fold.valid = true ∧
     (nth (repairPass doc).1 p1).fold.side = false ∧
     (nth (repairPass doc).1 p1).fold.id = a ∧
     (nth (repairPass doc).1 p1).fold.collapsed = ca ∧
     (nth (repairPass doc).1 p3).fold.valid = true ∧
     (nth (repairPass doc).1 p3).fold.side = true ∧
     (nth (repairPass doc).1 p3).fold.id = a ∧
     (nth (repairPass doc).1 p3).fold.collapsed = ca) ∧
    (nth (repairPass doc).1 p2).fold.valid = false ∧
    (nth (repairPass doc).1 p4).fold.valid = false := by
  have h1n : p1 < doc.length := by omega
  have h2n : p2 < doc.length := by omega
  have h3n : p3 < doc.length := by omega
  set n := doc.length with hn
  set d := readFromExtradata doc with hd
  set M := readMaxId doc with hM
  have hdlen : d.length = n := length_readFromExtradata doc
  set LA : Line := ⟨some ⟨false, ca, a⟩, { (nth doc p1).fold with
    extraExists := true, side := false, collapsed := ca, id := a, valid := true }⟩ with hLA
  set LB : Line := ⟨some ⟨false, cb, b⟩, { (nth doc p2).fold with
    extraExists := true, side := false, collapsed := cb, id := b, valid := true }⟩ with hLB
  set LA' : Line := ⟨some ⟨true, ca', a⟩, { (nth doc p3).fold with
    extraExists := true, side := true, collapsed := ca', id := a, valid := true }⟩ with hLA'
  set LB' : Line := ⟨some ⟨true, cb', b⟩, { (nth doc p4).fold with
    extraExists := true, side := true, collapsed := cb', id := b, valid := true }⟩ with hLB'
  have e1 : nth d p1 = LA := by
    rw [hd, nth_readFromExtradata h1n]; simp [readLine, hp1, hLA]
  have e2 : nth d p2 = LB := by
    rw [hd, nth_readFromExtradata h2n]; simp [readLine, hp2, hLB]
  have e3 : nth d p3 = LA' := by
    rw [hd, nth_readFromExtradata h3n]; simp [readLine, hp3, hLA']
  have e4 : nth d p4 = LB' := by
    rw [hd, nth_readFromExtradata h4n]; simp [readLine, hp4, hLB']
  have egap : ∀ j, j ≠ p1 → j ≠ p2 → j ≠ p3 → j ≠ p4 →
      (nth d j).fold.extraExists = false := by
    intro j hj1 hj2 hj3 hj4
    by_cases hj : j < n
    · rw [hd, nth_readFromExtradata hj]
      simp [readLine, hgap j hj1 hj2 hj3 hj4]
    · rw [nth_ge_length (by omega : d.length ≤ j)]
      rfl
  -- marker line ids are bounded by the recomputed max_fold_id
  have haM : a ≤ M := readMaxId_ge hp1
  have hbM : b ≤ M := readMaxId_ge hp2
  have hba : b ≠ a := fun h => hab h.symm
  have hMb : (M + 1 : Int) ≠ b := by omega
  have hMa : (M + 1 : Int) ≠ a := by omega
  clear_value LA LB LA' LB'
  -- step at p1: opener a is registered and pushed
  have hS1 : fixStep (initFixState d M) p1 =
      ⟨modifyLine d p1 fun _ => LA, M, [p1], [(a, p1)], [], []⟩ := by
    simp [initFixState, fixStep, e1, hLA, applyRemap_nil]
  set D1 := modifyLine d p1 fun _ => LA with hD1
  clear_value D1
  have hD1len : D1.length = n := by rw [hD1, length_modifyLine, hdlen]
  have hD1ne : ∀ j, j ≠ p1 → nth D1 j = nth d j := fun j hj => by
    rw [hD1, nth_modifyLine_ne _ (Ne.symm hj)]
  have hD1p1 : nth D1 p1 = LA := by
    rw [hD1, nth_modifyLine_self _ (by omega)]
  -- step at p2: opener b is registered and pushed
  have hS2 : fixStep ⟨D1, M, [p1], [(a, p1)], [], []⟩ p2 =
      ⟨modifyLine D1 p2 fun _ => LB, M, [p2, p1], [(b, p2), (a, p1)], [], []⟩ := by
    simp [fixStep, hD1ne p2 (by omega), e2, hLB, applyRemap_nil, hba]
  set D2 := modifyLine D1 p2 fun _ => LB with hD2
  clear_value D2
  have hD2len : D2.length = n := by rw [hD2, length_modifyLine, hD1len]
  have hD2ne : ∀ j, j ≠ p1 → j ≠ p2 → nth D2 j = nth d j := fun j hj1 hj2 => by
    rw [hD2, nth_modifyLine_ne _ (Ne.symm hj2), hD1ne j hj1]
  have hD2p1 : nth D2 p1 = LA := by
    rw [hD2, nth_modifyLine_ne _ (by omega), hD1p1]
  have hD2p2 : nth D2 p2 = LB := by
    rw [hD2, nth_modifyLine_self _ (by omega)]
  have hD2p3 : nth D2 p3 = LA' := by
    rw [hD2ne p3 (by omega) (by omega), e3]
  -- step at p3: closer a matches the opener at p1, erasing the opener at p2
  set L3 : Line := ⟨some ⟨true, ca', a⟩, { (nth doc p3).fold with
    extraExists := true, side := true, collapsed := ca, id := a, valid := true }⟩ with hL3
  clear_value L3
  have hinvp1 : nth (modifyLine D2 p2 invalidateLineFold) p1 = LA := by
    rw [nth_modifyLine_ne _ (by omega), hD2p1]
  set D3 : List Line :=
    if (ca' != ca) = true then
      modifyLine (modifyLine (modifyLine D2 p2 invalidateLineFold) p3 fun _ => L3) p3
        updateLineExtradata
    else modifyLine (modifyLine D2 p2 invalidateLineFold) p3 fun _ => L3 with hD3
  clear_value D3
  have hS3 : fixStep ⟨D2, M, [p2, p1], [(b, p2), (a, p1)], [], []⟩ p3 =
      ⟨D3, M, [], [(b, p2), (a, p1)], [b, a], []⟩ := by
    simp [fixStep, hD2p3, hLA', hL3, hD3, applyRemap_nil, hab, hba, hD2p2, hD2p1,
      hinvp1, hLA, hLB, List.findIdx?]
  have hD3len : D3.length = n := by
    rw [hD3]
    by_cases hc : (ca' != ca) = true <;>
      simp [hc, length_modifyLine, hD2len]
  have hD3ne : ∀ j, j ≠ p1 → j ≠ p2 → j ≠ p3 → nth D3 j = nth d j := by
    intro j hj1 hj2 hj3
    rw [hD3]
    by_cases hc : (ca' != ca) = true
    · rw [if_pos hc, nth_modifyLine_ne _ (Ne.symm hj3), nth_modifyLine_ne _ (Ne.symm hj3),
        nth_modifyLine_ne _ (Ne.symm hj2), hD2ne j hj1 hj2]
    · rw [if_neg hc, nth_modifyLine_ne _ (Ne.symm hj3),
        nth_modifyLine_ne _ (Ne.symm hj2), hD2ne j hj1 hj2]
  have hD3p1 : nth D3 p1 = LA := by
    rw [hD3]
    by_cases hc : (ca' != ca) = true
    · rw [if_pos hc, nth_modifyLine_ne _ (by omega), nth_modifyLine_ne _ (by omega), hinvp1]
    · rw [if_neg hc, nth_modifyLine_ne _ (by omega), hinvp1]
  have hD3p2 : nth D3 p2 = invalidateLineFold LB := by
    have hself : nth (modifyLine D2 p2 invalidateLineFold) p2 = invalidateLineFold LB := by
      rw [nth_modifyLine_self _ (by omega), hD2p2]
    rw [hD3]
    by_cases hc : (ca' != ca) = true
    · rw [if_pos hc, nth_modifyLine_ne _ (by omega), nth_modifyLine_ne _ (by omega), hself]
    · rw [if_neg hc, nth_modifyLine_ne _ (by omega), hself]
  have hD3p3fold : (nth D3 p3).fold = L3.fold := by
    have hlen1 : (modifyLine D2 p2 invalidateLineFold).length = n := by
      rw [length_modifyLine, hD2len]
    have hself : nth (modifyLine (modifyLine D2 p2 invalidateLineFold) p3 fun _ => L3) p3 =
        L3 := by
      rw [nth_modifyLine_self _ (by rw [hlen1]; omega)]
    have hlen2 : (modifyLine (modifyLine D2 p2 invalidateLineFold) p3
        fun _ => L3).length = n := by
      rw [length_modifyLine, hlen1]
    rw [hD3]
    by_cases hc : (ca' != ca) = true
    · rw [if_pos hc, nth_modifyLine_self _ (by rw [hlen2]; omega), hself,
        fold_updateLineExtradata]
    · rw [if_neg hc, hself]
  have hD3p4 : nth D3 p4 = LB' := by
    rw [hD3ne p4 (by omega) (by omega) (by omega), e4]
  -- step at p4: closer b hits completedFolds, is remapped to M+1 and invalidated
  set L2' : Line := ⟨some ⟨true, cb', b⟩, { (nth doc p4).fold with
    extraExists := true, side := true, collapsed := cb', id := M + 1, valid := true }⟩ with hL2'
  clear_value L2'
  set D4 : List Line :=
    modifyLine (modifyLine D3 p4 fun _ => invalidateLineFold L2') p4 updateLineExtradata
    with hD4
  clear_value D4
  have hS4 : fixStep ⟨D3, M, [], [(b, p2), (a, p1)], [b, a], []⟩ p4 =
      ⟨D4, M + 1, [], [(b, p2), (a, p1)], [M + 1, b, a], [(b, M + 1)]⟩ := by
    simp [fixStep, hD3p4, hLB', hL2', hD4, applyRemap_nil, hMb, hMa]
  -- assemble the whole scan
  have hscan : fixScan d M =
      ⟨D4, M + 1, [], [(b, p2), (a, p1)], [M + 1, b, a], [(b, M + 1)]⟩ := by
    unfold fixScan
    rw [hdlen, List.range_eq_range']
    rw [scan_through_gap _ 0 n p1 (by omega) (by omega)
      (fun i hi1 hi2 => egap i (by omega) (by omega) (by omega) (by omega))]
    rw [hS1]
    rw [scan_through_gap _ (p1 + 1) _ p2 (by omega) (by omega)
      (fun i hi1 hi2 => by
        rw [hD1ne i (by omega)]
        exact egap i (by omega) (by omega) (by omega) (by omega))]
    rw [hS2]
    rw [scan_through_gap _ (p2 + 1) _ p3 (by omega) (by omega)
      (fun i hi1 hi2 => by
        rw [hD2ne i (by omega) (by omega)]
        exact egap i (by omega) (by omega) (by omega) (by omega))]
    rw [hS3]
    rw [scan_through_gap _ (p3 + 1) _ p4 (by omega) (by omega)
      (fun i hi1 hi2 => by
        rw [hD3ne i (by omega) (by omega) (by omega)]
        exact egap i (by omega) (by omega) (by omega) (by omega))]
    rw [hS4]
    exact run_gap _ (p4 + 1) _ (fun i hi1 hi2 => by
      rw [hD4, nth_modifyLine_ne _ (by omega), nth_modifyLine_ne _ (by omega),
        hD3ne i (by omega) (by omega) (by omega)]
      exact egap i (by omega) (by omega) (by omega) (by omega))
  have hrepair : (repairPass doc).1 = D4 := by
    have hstep : repairPass doc = fixFolds d M := by rw [hd, hM]; rfl
    rw [hstep]
    show ((fixScan d M).stack.reverse.foldl (fun d r => modifyLine d r invalidateLineFold)
      (fixScan d M).doc) = D4
    rw [hscan]
    rfl
  -- extract the four conclusions
  have hlen3 : (modifyLine D3 p4 fun _ => invalidateLineFold L2').length = n := by
    rw [length_modifyLine, hD3len]
  have hp4self : nth D4 p4 = updateLineExtradata (invalidateLineFold L2') := by
    rw [hD4, nth_modifyLine_self _ (by rw [hlen3]; omega),
      nth_modifyLine_self _ (by rw [hD3len]; omega)]
  have hD4ne : ∀ j, j ≠ p4 → nth D4 j = nth D3 j := fun j hj => by
    rw [hD4, nth_modifyLine_ne _ (Ne.symm hj), nth_modifyLine_ne _ (Ne.symm hj)]
  rw [hrepair]
  rw [hD4ne p1 (by omega), hD4ne p2 (by omega), hD4ne p3 (by omega)]
  rw [hD3p1, hD3p2]
  refine ⟨⟨?_, ?_, ?_, ?_, ?_, ?_, ?_, ?_⟩, ?_, ?_⟩
  · rw [hLA]
  · rw [hLA]
  · rw [hLA]
  · rw [hLA]
  · rw [hD3p3fold, hL3]
  · rw [hD3p3fold, hL3]
  · rw [hD3p3fold, hL3]
  · rw [hD3p3fold, hL3]
  · exact valid_invalidateLineFold LB
  · rw [hp4self, fold_updateLineExtradata]
    exact valid_invalidateLineFold L2'

end C6

section C7

variable (doc : List Line) (p1 p2 p3 p4 : Nat) (x : Int) (c1 c2 : Bool)

/-- C7: two disjoint well-formed pairs sharing one id. -/
theorem duplicate_id_pairs_repair
    (h12 : p1 < p2) (h23 : p2 < p3) (h34 : p3 < p4) (h4n : p4 < doc.length)
    (hp1 : (nth doc p1).extra = some ⟨false, c1, x⟩)
    (hp2 : (nth doc p2).extra = some ⟨true, c1, x⟩)
    (hp3 : (nth doc p3).extra = some ⟨false, c2, x⟩)
    (hp4 : (nth doc p4).extra = some ⟨true, c2, x⟩)
    (hgap : ∀ j, j ≠ p1 → j ≠ p2 → j ≠ p3 → j ≠ p4 → (nth doc j).extra = none) :
    ((nth (repairPass doc).1 p1).fold.valid = true ∧
     (nth (repairPass doc).1 p1).fold.side = false ∧
     (nth (repairPass doc).1 p1).fold.id = x ∧
     (nth (repairPass doc).1 p2).fold.valid = true ∧
     (nth (repairPass doc).1 p2).fold.side = true ∧
     (nth (repairPass doc).1 p2).fold.id = x) ∧
    ((nth (repairPass doc).1 p3).fold.valid = true ∧
     (nth (repairPass doc).1 p3).fold.side = false ∧
     (nth (repairPass doc).1 p3).fold.id = readMaxId doc + 1 ∧
     (nth (repairPass doc).1 p4).fold.valid = true ∧
     (nth (repairPass doc).1 p4).fold.side = true ∧
     (nth (repairPass doc).1 p4).fold.id = readMaxId doc + 1) ∧
    (∀ j dd, (nth doc j).extra = some dd → dd.id < readMaxId doc + 1) := by
  have h1n : p1 < doc.length := by omega
  have h2n : p2 < doc.length := by omega
  have h3n : p3 < doc.length := by omega
  set n := doc.length with hn
  set d := readFromExtradata doc with hd
  set M := readMaxId doc with hM
  have hdlen : d.length = n := length_readFromExtradata doc
  set L1 : Line := ⟨some ⟨false, c1, x⟩, { (nth doc p1).fold with
    extraExists := true, side := false, collapsed := c1, id := x, valid := true }⟩ with hL1
  set L2 : Line := ⟨some ⟨true, c1, x⟩, { (nth doc p2).fold with
    extraExists := true, side := true, collapsed := c1, id := x, valid := true }⟩ with hL2
  set L3 : Line := ⟨some ⟨false, c2, x⟩, { (nth doc p3).fold with
    extraExists := true, side := false, collapsed := c2, id := x, valid := true }⟩ with hL3
  set L4 : Line := ⟨some ⟨true, c2, x⟩, { (nth doc p4).fold with
    extraExists := true, side := true, collapsed := c2, id := x, valid := true }⟩ with hL4
  have e1 : nth d p1 = L1 := by
    rw [hd, nth_readFromExtradata h1n]; simp [readLine, hp1, hL1]
  have e2 : nth d p2 = L2 := by
    rw [hd, nth_readFromExtradata h2n]; simp [readLine, hp2, hL2]
  have e3 : nth d p3 = L3 := by
    rw [hd, nth_readFromExtradata h3n]; simp [readLine, hp3, hL3]
  have e4 : nth d p4 = L4 := by
    rw [hd, nth_readFromExtradata h4n]; simp [readLine, hp4, hL4]
  have egap : ∀ j, j ≠ p1 → j ≠ p2 → j ≠ p3 → j ≠ p4 →
      (nth d j).fold.extraExists = false := by
    intro j hj1 hj2 hj3 hj4
    by_cases hj : j < n
    · rw [hd, nth_readFromExtradata hj]
      simp [readLine, hgap j hj1 hj2 hj3 hj4]
    · rw [nth_ge_length (by omega : d.length ≤ j)]
      rfl
  have hxM : x ≤ M := readMaxId_ge hp1
  have hMx : (M + 1 : Int) ≠ x := by omega
  clear_value L1 L2 L3 L4
  -- step at p1: opener x is registered and pushed
  have hS1 : fixStep (initFixState d M) p1 =
      ⟨modifyLine d p1 fun _ => L1, M, [p1], [(x, p1)], [], []⟩ := by
    simp [initFixState, fixStep, e1, hL1, applyRemap_nil]
  set D1 := modifyLine d p1 fun _ => L1 with hD1
  clear_value D1
  have hD1len : D1.length = n := by rw [hD1, length_modifyLine, hdlen]
  have hD1ne : ∀ j, j ≠ p1 → nth D1 j = nth d j := fun j hj => by
    rw [hD1, nth_modifyLine_ne _ (Ne.symm hj)]
  have hD1p1 : nth D1 p1 = L1 := by
    rw [hD1, nth_modifyLine_self _ (by omega)]
  have hD1p2 : nth D1 p2 = L2 := by rw [hD1ne p2 (by omega), e2]
  -- step at p2: closer x matches the opener at p1 and pops it
  have hS2 : fixStep ⟨D1, M, [p1], [(x, p1)], [], []⟩ p2 =
      ⟨modifyLine D1 p2 fun _ => L2, M, [], [(x, p1)], [x], []⟩ := by
    simp [fixStep, hD1p2, hD1p1, hL1, hL2, applyRemap_nil, List.findIdx?]
  set D2 := modifyLine D1 p2 fun _ => L2 with hD2
  clear_value D2
  have hD2len : D2.length = n := by rw [hD2, length_modifyLine, hD1len]
  have hD2ne : ∀ j, j ≠ p1 → j ≠ p2 → nth D2 j = nth d j := fun j hj1 hj2 => by
    rw [hD2, nth_modifyLine_ne _ (Ne.symm hj2), hD1ne j hj1]
  have hD2p1 : nth D2 p1 = L1 := by
    rw [hD2, nth_modifyLine_ne _ (by omega), hD1p1]
  have hD2p2 : nth D2 p2 = L2 := by
    rw [hD2, nth_modifyLine_self _ (by omega)]
  have hD2p3 : nth D2 p3 = L3 := by
    rw [hD2ne p3 (by omega) (by omega), e3]
  -- step at p3: opener x hits completedFolds and is remapped to M+1
  set L3' : Line := ⟨some ⟨false, c2, x⟩, { (nth doc p3).fold with
    extraExists := true, side := false, collapsed := c2, id := M + 1, valid := true }⟩
    with hL3'
  clear_value L3'
  set D3 : List Line :=
    modifyLine (modifyLine D2 p3 fun _ => L3') p3 updateLineExtradata with hD3
  clear_value D3
  have hS3 : fixStep ⟨D2, M, [], [(x, p1)], [x], []⟩ p3 =
      ⟨D3, M + 1, [p3], [(M + 1, p3), (x, p1)], [x], [(x, M + 1)]⟩ := by
    simp [fixStep, hD2p3, hL3, hL3', hD3, applyRemap_nil, hMx]
  have hD3len : D3.length = n := by
    rw [hD3, length_modifyLine, length_modifyLine, hD2len]
  have hD3ne : ∀ j, j ≠ p1 → j ≠ p2 → j ≠ p3 → nth D3 j = nth d j := by
    intro j hj1 hj2 hj3
    rw [hD3, nth_modifyLine_ne _ (Ne.symm hj3), nth_modifyLine_ne _ (Ne.symm hj3),
      hD2ne j hj1 hj2]
  have hD3p1 : nth D3 p1 = L1 := by
    rw [hD3, nth_modifyLine_ne _ (by omega), nth_modifyLine_ne _ (by omega), hD2p1]
  have hD3p2 : nth D3 p2 = L2 := by
    rw [hD3, nth_modifyLine_ne _ (by omega), nth_modifyLine_ne _ (by omega), hD2p2]
  have hD3p3 : nth D3 p3 = updateLineExtradata L3' := by
    rw [hD3, nth_modifyLine_self _ (by rw [length_modifyLine, hD2len]; omega),
      nth_modifyLine_self _ (by rw [hD2len]; omega)]
  have hD3p4 : nth D3 p4 = L4 := by
    rw [hD3ne p4 (by omega) (by omega) (by omega), e4]
  -- step at p4: closer x is id-remapped to M+1 and matches the opener at p3
  set L4' : Line := ⟨some ⟨true, c2, x⟩, { (nth doc p4).fold with
    extraExists := true, side := true, collapsed := c2, id := M + 1, valid := true }⟩
    with hL4'
  clear_value L4'
  set D4 : List Line :=
    modifyLine (modifyLine D3 p4 fun _ => L4') p4 updateLineExtradata with hD4
  clear_value D4
  have hS4 : fixStep ⟨D3, M + 1, [p3], [(M + 1, p3), (x, p1)], [x], [(x, M + 1)]⟩ p4 =
      ⟨D4, M + 1, [], [(M + 1, p3), (x, p1)], [M + 1, x], [(x, M + 1)]⟩ := by
    simp [fixStep, hD3p4, hD3p3, hL4, hL4', hL3', hD4, applyRemap, List.lookup, hMx,
      fold_updateLineExtradata, List.findIdx?, updateLineExtradata]
  -- assemble the whole scan
  have hscan : fixScan d M =
      ⟨D4, M + 1, [], [(M + 1, p3), (x, p1)], [M + 1, x], [(x, M + 1)]⟩ := by
    unfold fixScan
    rw [hdlen, List.range_eq_range']
    rw [scan_through_gap _ 0 n p1 (by omega) (by omega)
      (fun i hi1 hi2 => egap i (by omega) (by omega) (by omega) (by omega))]
    rw [hS1]
    rw [scan_through_gap _ (p1 + 1) _ p2 (by omega) (by omega)
      (fun i hi1 hi2 => by
        rw [hD1ne i (by omega)]
        exact egap i (by omega) (by omega) (by omega) (by omega))]
    rw [hS2]
    rw [scan_through_gap _ (p2 + 1) _ p3 (by omega) (by omega)
      (fun i hi1 hi2 => by
        rw [hD2ne i (by omega) (by omega)]
        exact egap i (by omega) (by omega) (by omega) (by omega))]
    rw [hS3]
    rw [scan_through_gap _ (p3 + 1) _ p4 (by omega) (by omega)
      (fun i hi1 hi2 => by
        rw [hD3ne i (by omega) (by omega) (by omega)]
        exact egap i (by omega) (by omega) (by omega) (by omega))]
    rw [hS4]
    exact run_gap _ (p4 + 1) _ (fun i hi1 hi2 => by
      rw [hD4, nth_modifyLine_ne _ (by omega), nth_modifyLine_ne _ (by omega),
        hD3ne i (by omega) (by omega) (by omega)]
      exact egap i (by omega) (by omega) (by omega) (by omega))
  have hrepair : (repairPass doc).1 = D4 := by
    have hstep : repairPass doc = fixFolds d M := by rw [hd, hM]; rfl
    rw [hstep]
    show ((fixScan d M).stack.reverse.foldl (fun d r => modifyLine d r invalidateLineFold)
      (fixScan d M).doc) = D4
    rw [hscan]
    rfl
  have hD4ne : ∀ j, j ≠ p4 → nth D4 j = nth D3 j := fun j hj => by
    rw [hD4, nth_modifyLine_ne _ (Ne.symm hj), nth_modifyLine_ne _ (Ne.symm hj)]
  have hD4p4 : nth D4 p4 = updateLineExtradata L4' := by
    rw [hD4, nth_modifyLine_self _ (by rw [length_modifyLine, hD3len]; omega),
      nth_modifyLine_self _ (by rw [hD3len]; omega)]
  rw [hrepair]
  rw [hD4ne p1 (by omega), hD4ne p2 (by omega), hD4ne p3 (by omega)]
  rw [hD3p1, hD3p2, hD3p3, hD4p4, fold_updateLineExtradata, fold_updateLineExtradata]
  refine ⟨⟨?_, ?_, ?_, ?_, ?_, ?_⟩, ⟨?_, ?_, ?_, ?_, ?_, ?_⟩, ?_⟩
  · rw [hL1]
  · rw [hL1]
  · rw [hL1]
  · rw [hL2]
  · rw [hL2]
  · rw [hL2]
  · rw [hL3']
  · rw [hL3']
  · rw [hL3']
  · rw [hL4']
  · rw [hL4']
  · rw [hL4']
  · intro j dd hdd
    have hle := readMaxId_ge hdd
    rw [← hM] at hle
    omega

end C7

/-- Witness for C6 at a concrete six-line document. -/
theorem crossing_pattern_repair_witness :
    let docW : List Line :=
      [⟨some ⟨false, true, 1⟩, FoldInfo.init⟩, ⟨none, FoldInfo.init⟩,
       ⟨some ⟨false, false, 2⟩, FoldInfo.init⟩, ⟨some ⟨true, false, 1⟩, FoldInfo.init⟩,
       ⟨some ⟨true, true, 2⟩, FoldInfo.init⟩, ⟨none, FoldInfo.init⟩]
    (nth (repairPass docW).1 0).fold.valid = true ∧
    (nth (repairPass docW).1 3).fold.id = 1 ∧
    (nth (repairPass docW).1 2).fold.valid = false ∧
    (nth (repairPass docW).1 4).fold.valid = false := by
  intro docW
  have hgapW : ∀ j, j ≠ 0 → j ≠ 2 → j ≠ 3 → j ≠ 4 → (nth docW j).extra = none := by
    intro j h1 h2 h3 h4
    by_cases hj : j < 6
    · interval_cases j <;> first | rfl | omega
    · rw [nth_ge_length (by simp [docW]; omega)]
      rfl
  have h := crossing_pattern_repair docW 0 2 3 4 1 2 true false false true
    (by decide) (by decide) (by decide) (by decide) (by decide)
    (by decide) (by decide) (by decide) (by decide) hgapW
  exact ⟨h.1.1, h.1.2.2.2.2.2.2.1, h.2.1, h.2.2⟩

/-- Witness for C7 at a concrete five-line document. -/
theorem duplicate_id_pairs_repair_witness :
    let docW : List Line :=
      [⟨some ⟨false, true, 5⟩, FoldInfo.init⟩, ⟨some ⟨true, true, 5⟩, FoldInfo.init⟩,
       ⟨none, FoldInfo.init⟩, ⟨some ⟨false, false, 5⟩, FoldInfo.init⟩,
       ⟨some ⟨true, false, 5⟩, FoldInfo.init⟩]
    (nth (repairPass docW).1 0).fold.id = 5 ∧
    (nth (repairPass docW).1 3).fold.valid = true ∧
    (nth (repairPass docW).1 3).fold.id = 6 ∧
    (nth (repairPass docW).1 4).fold.id = 6 := by
  intro docW
  have hgapW : ∀ j, j ≠ 0 → j ≠ 1 → j ≠ 3 → j ≠ 4 → (nth docW j).extra = none := by
    intro j h1 h2 h3 h4
    by_cases hj : j < 5
    · interval_cases j <;> first | rfl | omega
    · rw [nth_ge_length (by simp [docW]; omega)]
      rfl
  have h := duplicate_id_pairs_repair docW 0 1 3 4 5 true false
    (by decide) (by decide) (by decide) (by decide)
    (by decide) (by decide) (by decide) (by decide) hgapW
  have hm : readMaxId docW = 5 := by decide
  refine ⟨h.1.2.2.1, h.2.1.1, ?_, ?_⟩
  · rw [h.2.1.2.2.1, hm]; rfl
  · rw [h.2.1.2.2.2.2.2, hm]; rfl

/-! ### Preservation of the scan invariant -/

theorem ite_update_doc_ne (doc : List Line) (i : Nat) (W : Line) (c : Bool) :
    ∀ r, r ≠ i →
      nth (if c = true then
        modifyLine (modifyLine doc i fun _ => W) i updateLineExtradata
      else modifyLine doc i fun _ => W) r = nth doc r := by
  intro r hr
  by_cases hc : c = true <;>
    simp [hc, nth_modifyLine_ne _ (Ne.symm hr)]

theorem ite_update_doc_len (doc : List Line) (i : Nat) (W : Line) (c : Bool) :
    (if c = true then
      modifyLine (modifyLine doc i fun _ => W) i updateLineExtradata
    else modifyLine doc i fun _ => W).length = doc.length := by
  by_cases hc : c = true <;> simp [hc, length_modifyLine]

theorem ite_update_doc_fold {doc : List Line} {i : Nat} (W : Line) (c : Bool)
    (h : i < doc.length) :
    (nth (if c = true then
      modifyLine (modifyLine doc i fun _ => W) i updateLineExtradata
    else modifyLine doc i fun _ => W) i).fold = W.fold := by
  by_cases hc : c = true
  · rw [if_pos hc, nth_modifyLine_self _ (by rw [length_modifyLine]; omega),
      fold_updateLineExtradata, nth_modifyLine_self _ h]
  · rw [if_neg hc, nth_modifyLine_self _ h]

/-- Re-establishing the invariant for the branches that only invalidate
the current line (duplicate opener, non-matching ender, no stack
match). -/
theorem ScanInv.step_invalidate {d0 : List Line} {i : Nat} {s : FixState}
    {P : List FoldPair} (inv : ScanInv d0 i s P) (D : List Line) (maxId2 : Int)
    (comp2 : List Int) (remap2 : List (Int × Int))
    (hD_ne : ∀ r, r ≠ i → nth D r = nth s.doc r)
    (hD_len : D.length = s.doc.length)
    (hD_valid : (nth D i).fold.valid = false)
    (hsc2 : ∀ r ∈ s.stack, (nth s.doc r).fold.id ∉ comp2)
    (hcomp_sup : ∀ v ∈ s.completed, v ∈ comp2)
    (hmc2 : ∀ v ∈ comp2, v ≤ maxId2)
    (hmr2 : ∀ kv ∈ remap2, kv.2 ≤ maxId2)
    (hmax_le : s.maxId ≤ maxId2) :
    ScanInv d0 (i + 1) ⟨D, maxId2, s.stack, s.heads, comp2, remap2⟩ P := by
  have hne_lt : ∀ r, r < i → nth D r = nth s.doc r := fun r hr => hD_ne r (by omega)
  have hserw : ∀ r ∈ s.stack, nth D r = nth s.doc r := fun r hr =>
    hne_lt r (inv.hslt r hr)
  have hprow : ∀ p ∈ P, p.o < i ∧ p.c < i := fun p hp =>
    ⟨lt_trans (inv.hpm p hp).1 (inv.hplt p hp), inv.hplt p hp⟩
  refine ⟨?_, ?_, ?_, ?_, ?_, ?_, ?_, ?_, ?_, ?_, ?_, ?_, ?_, ?_, ?_, ?_, ?_, ?_⟩
  · rw [hD_len]; exact inv.hlen
  · intro r hr
    rw [hD_ne r (by omega)]
    exact inv.hun r (by omega)
  · intro r hr; exact lt_trans (inv.hslt r hr) (by omega)
  · exact inv.hsort
  · intro r hr; rw [hserw r hr]; exact inv.hsv r hr
  · intro r hr; rw [hserw r hr]; exact inv.hsh r hr
  · intro r hr; rw [hserw r hr]; exact hsc2 r hr
  · intro v r hlk hnc
    have hold := inv.hhs v r hlk (fun hv => hnc (hcomp_sup v hv))
    exact ⟨hold.1, by rw [hserw r hold.1]; exact hold.2⟩
  · intro p hp; exact lt_trans (inv.hplt p hp) (by omega)
  · intro p hp
    have hold := inv.hpm p hp
    have ho := (hprow p hp).1
    have hc := (hprow p hp).2
    refine ⟨hold.1, ?_⟩
    rw [hne_lt p.o ho, hne_lt p.c hc]
    exact hold.2
  · intro p hp; exact hcomp_sup _ (inv.hpc p hp)
  · exact inv.hpw
  · intro p hp r hr
    have hold := inv.hps p hp r hr
    exact ⟨by rw [hserw r hr]; exact hold.1, hold.2⟩
  · intro r hr hv
    rcases Nat.lt_succ_iff_lt_or_eq.mp hr with hr' | rfl
    · rw [hne_lt r hr'] at hv
      rcases inv.hchar r hr' hv with h | h
      · exact Or.inl h
      · exact Or.inr h
    · rw [hD_valid] at hv; cases hv
  · exact hmc2
  · exact hmr2
  · intro r hr hm
    exact le_trans (inv.hmd r (by omega) hm) hmax_le
  · intro r hr
    rw [hserw r hr]
    exact le_trans (inv.hms r hr) hmax_le

/-- Re-establishing the invariant when the current Opener is registered
in `foldHeads` and pushed. -/
theorem ScanInv.step_push {d0 : List Line} {i : Nat} {s : FixState}
    {P : List FoldPair} (inv : ScanInv d0 i s P) (D : List Line)
    (maxId2 id2 : Int) (remap2 : List (Int × Int))
    (hD_ne : ∀ r, r ≠ i → nth D r = nth s.doc r)
    (hD_len : D.length = s.doc.length)
    (hD_valid : (nth D i).fold.valid = true)
    (hD_side : (nth D i).fold.side = false)
    (hD_id : (nth D i).fold.id = id2)
    (hnew : List.lookup id2 s.heads = none)
    (hid2c : id2 ∉ s.completed)
    (hid2m : id2 ≤ maxId2)
    (hmr2 : ∀ kv ∈ remap2, kv.2 ≤ maxId2)
    (hmax_le : s.maxId ≤ maxId2) :
    ScanInv d0 (i + 1) ⟨D, maxId2, i :: s.stack, (id2, i) :: s.heads, s.completed, remap2⟩ P := by
  have hne_lt : ∀ r, r < i → nth D r = nth s.doc r := fun r hr => hD_ne r (by omega)
  have hserw : ∀ r ∈ s.stack, nth D r = nth s.doc r := fun r hr =>
    hne_lt r (inv.hslt r hr)
  have hprow : ∀ p ∈ P, p.o < i ∧ p.c < i := fun p hp =>
    ⟨lt_trans (inv.hpm p hp).1 (inv.hplt p hp), inv.hplt p hp⟩
  have hstackid : ∀ r ∈ s.stack, (nth s.doc r).fold.id ≠ id2 := by
    intro r hr heq
    have h1 := inv.hsh r hr
    rw [heq, hnew] at h1
    cases h1
  refine ⟨?_, ?_, ?_, ?_, ?_, ?_, ?_, ?_, ?_, ?_, ?_, ?_, ?_, ?_, ?_, ?_, ?_, ?_⟩
  · rw [hD_len]; exact inv.hlen
  · intro r hr
    rw [hD_ne r (by omega)]
    exact inv.hun r (by omega)
  · intro r hr
    rcases List.mem_cons.mp hr with rfl | hr
    · omega
    · exact lt_trans (inv.hslt r hr) (by omega)
  · refine List.Pairwise.cons ?_ inv.hsort
    intro r hr
    exact inv.hslt r hr
  · intro r hr
    rcases List.mem_cons.mp hr with rfl | hr
    · exact ⟨hD_valid, hD_side⟩
    · rw [hserw r hr]; exact inv.hsv r hr
  · intro r hr
    rcases List.mem_cons.mp hr with rfl | hr
    · rw [hD_id]
      simp [List.lookup_cons]
    · rw [hserw r hr]
      have hbeq : ((nth s.doc r).fold.id == id2) = false := by
        simpa using hstackid r hr
      rw [List.lookup_cons, hbeq]
      exact inv.hsh r hr
  · intro r hr
    rcases List.mem_cons.mp hr with rfl | hr
    · rw [hD_id]; exact hid2c
    · rw [hserw r hr]; exact inv.hsc r hr
  · intro v r hlk hnc
    rw [List.lookup_cons] at hlk
    by_cases hv : (v == id2) = true
    · simp only [hv] at hlk
      cases hlk
      refine ⟨List.mem_cons_self _ _, ?_⟩
      rw [hD_id]
      exact (eq_of_beq hv).symm
    · simp only [Bool.not_eq_true] at hv
      simp only [hv] at hlk
      have hold := inv.hhs v r hlk hnc
      refine ⟨List.mem_cons_of_mem _ hold.1, ?_⟩
      rw [hserw r hold.1]
      exact hold.2
  · intro p hp; exact lt_trans (inv.hplt p hp) (by omega)
  · intro p hp
    have hold := inv.hpm p hp
    refine ⟨hold.1, ?_⟩
    rw [hne_lt p.o (hprow p hp).1, hne_lt p.c (hprow p hp).2]
    exact hold.2
  · exact inv.hpc
  · exact inv.hpw
  · intro p hp r hr
    rcases List.mem_cons.mp hr with rfl | hr
    · refine ⟨?_, Or.inl (inv.hplt p hp)⟩
      rw [hD_id]
      intro heq
      exact hid2c (heq ▸ inv.hpc p hp)
    · have hold := inv.hps p hp r hr
      exact ⟨by rw [hserw r hr]; exact hold.1, hold.2⟩
  · intro r hr hv
    rcases Nat.lt_succ_iff_lt_or_eq.mp hr with hr' | rfl
    · rw [hne_lt r hr'] at hv
      rcases inv.hchar r hr' hv with h | h
      · exact Or.inl (List.mem_cons_of_mem _ h)
      · exact Or.inr h
    · exact Or.inl (List.mem_cons_self _ _)
  · intro v hv; exact le_trans (inv.hmc v hv) hmax_le
  · exact hmr2
  · intro r hr hm
    exact le_trans (inv.hmd r (by omega) hm) hmax_le
  · intro r hr
    rcases List.mem_cons.mp hr with rfl | hr
    · rw [hD_id]; exact hid2m
    · rw [hserw r hr]
      exact le_trans (inv.hms r hr) hmax_le

/-- Re-establishing the invariant when the current Closer matches the
stack entry at depth `k`: the entries above it are erased, the matched
opener is popped, and the pair is recorded. -/
theorem ScanInv.step_match {d0 : List Line} {i : Nat} {s : FixState}
    {P : List FoldPair} (inv : ScanInv d0 i s P) (D : List Line)
    (maxId2 id2 : Int) (remap2 : List (Int × Int)) (k orow : Nat)
    (hk : k < s.stack.length)
    (horow : s.stack.getD k 0 = orow)
    (hTid : ∀ e ∈ s.stack.take k, (nth s.doc e).fold.id ≠ id2)
    (hoid : (nth s.doc orow).fold.id = id2)
    (hD_ne : ∀ r, r ≠ i → r ∉ s.stack.take k → nth D r = nth s.doc r)
    (hD_len : D.length = s.doc.length)
    (hD_valid : (nth D i).fold.valid = true)
    (hD_side : (nth D i).fold.side = true)
    (hD_id : (nth D i).fold.id = id2)
    (hD_col : (nth D i).fold.collapsed = (nth s.doc orow).fold.collapsed)
    (hD_T : ∀ e ∈ s.stack.take k, (nth D e).fold.valid = false)
    (hid2c : id2 ∉ s.completed)
    (hid2m : id2 ≤ maxId2)
    (hmr2 : ∀ kv ∈ remap2, kv.2 ≤ maxId2)
    (hmax_le : s.maxId ≤ maxId2) :
    ScanInv d0 (i + 1)
      ⟨D, maxId2, s.stack.drop (k + 1), s.heads,
        ((s.stack.take k).map fun e => (nth s.doc e).fold.id) ++ id2 :: s.completed,
        remap2⟩
      (⟨orow, i, id2, (nth s.doc orow).fold.collapsed⟩ :: P) := by
  have hdec : s.stack = s.stack.take k ++ orow :: s.stack.drop (k + 1) := by
    have := getD_decomp 0 hk
    rwa [horow] at this
  obtain ⟨hTsort, hOBsort, hTgt⟩ :
      (s.stack.take k).Pairwise (· > ·) ∧
      (orow :: s.stack.drop (k + 1)).Pairwise (· > ·) ∧
      ∀ a ∈ s.stack.take k, ∀ b ∈ orow :: s.stack.drop (k + 1), a > b := by
    have h := inv.hsort
    rw [hdec] at h
    exact List.pairwise_append.mp h
  have hBsort : (s.stack.drop (k + 1)).Pairwise (· > ·) :=
    (List.pairwise_cons.mp hOBsort).2
  have horowB : ∀ r ∈ s.stack.drop (k + 1), orow > r :=
    (List.pairwise_cons.mp hOBsort).1
  have horow_mem : orow ∈ s.stack := by
    rw [hdec]; exact List.mem_append_right _ (List.mem_cons_self _ _)
  have hT_sub : ∀ e ∈ s.stack.take k, e ∈ s.stack := fun e he =>
    List.mem_of_mem_take he
  have hB_sub : ∀ r ∈ s.stack.drop (k + 1), r ∈ s.stack := fun r hr =>
    List.mem_of_mem_drop hr
  have horow_notT : orow ∉ s.stack.take k := fun hmem =>
    absurd (hTgt orow hmem orow (List.mem_cons_self _ _)) (lt_irrefl orow)
  have hB_notT : ∀ r ∈ s.stack.drop (k + 1), r ∉ s.stack.take k := fun r hr hmem =>
    absurd (hTgt r hmem r (List.mem_cons_of_mem _ hr)) (lt_irrefl r)
  have horow_notB : orow ∉ s.stack.drop (k + 1) := fun hmem =>
    absurd (horowB orow hmem) (lt_irrefl orow)
  have hid_inj : ∀ r1 ∈ s.stack, ∀ r2 ∈ s.stack,
      (nth s.doc r1).fold.id = (nth s.doc r2).fold.id → r1 = r2 := by
    intro r1 h1 r2 h2 heq
    have e1 := inv.hsh r1 h1
    have e2 := inv.hsh r2 h2
    rw [heq] at e1
    rw [e1] at e2
    exact (Option.some.injEq _ _).mp e2
  have hBid : ∀ r ∈ s.stack.drop (k + 1), (nth s.doc r).fold.id ≠ id2 := by
    intro r hr heq
    have : r = orow := hid_inj r (hB_sub r hr) orow horow_mem (by rw [heq, hoid])
    exact horow_notB (this ▸ hr)
  have hne_lt : ∀ r, r < i → r ∉ s.stack.take k → nth D r = nth s.doc r :=
    fun r hr hnt => hD_ne r (by omega) hnt
  have hBrw : ∀ r ∈ s.stack.drop (k + 1), nth D r = nth s.doc r := fun r hr =>
    hne_lt r (inv.hslt r (hB_sub r hr)) (hB_notT r hr)
  have horowrw : nth D orow = nth s.doc orow :=
    hne_lt orow (inv.hslt orow horow_mem) horow_notT
  have hprow : ∀ p ∈ P, p.o < i ∧ p.c < i := fun p hp =>
    ⟨lt_trans (inv.hpm p hp).1 (inv.hplt p hp), inv.hplt p hp⟩
  have hp_notT : ∀ p ∈ P, p.o ∉ s.stack.take k ∧ p.c ∉ s.stack.take k := by
    intro p hp
    have h1 := (inv.hpm p hp).1
    constructor <;> intro hmem
    · rcases (inv.hps p hp _ (hT_sub _ hmem)).2 with h | h <;> omega
    · rcases (inv.hps p hp _ (hT_sub _ hmem)).2 with h | h <;> omega
  have hcomp2 : ∀ v, v ∈ ((s.stack.take k).map fun e => (nth s.doc e).fold.id) ++
      id2 :: s.completed ↔
      ((∃ e ∈ s.stack.take k, (nth s.doc e).fold.id = v) ∨ v = id2 ∨ v ∈ s.completed) := by
    intro v
    simp only [List.mem_append, List.mem_map, List.mem_cons]
  refine ⟨?_, ?_, ?_, ?_, ?_, ?_, ?_, ?_, ?_, ?_, ?_, ?_, ?_, ?_, ?_, ?_, ?_, ?_⟩
  · rw [hD_len]; exact inv.hlen
  · intro r hr
    have hrT : r ∉ s.stack.take k := fun hmem =>
      absurd (inv.hslt r (hT_sub r hmem)) (by omega)
    rw [hD_ne r (by omega) hrT]
    exact inv.hun r (by omega)
  · intro r hr; exact lt_trans (inv.hslt r (hB_sub r hr)) (by omega)
  · exact hBsort
  · intro r hr; rw [hBrw r hr]; exact inv.hsv r (hB_sub r hr)
  · intro r hr; rw [hBrw r hr]; exact inv.hsh r (hB_sub r hr)
  · intro r hr
    rw [hBrw r hr, hcomp2]
    push_neg
    refine ⟨?_, hBid r hr, inv.hsc r (hB_sub r hr)⟩
    intro e he heq
    have hee : e = r := hid_inj e (hT_sub e he) r (hB_sub r hr) heq
    rw [hee] at he
    exact hB_notT r hr he
  · intro v r hlk hnc
    rw [hcomp2] at hnc
    push_neg at hnc
    have hold := inv.hhs v r hlk hnc.2.2
    have hrT : r ∉ s.stack.take k := fun hmem =>
      hnc.1 r hmem hold.2
    have hrB : r ∈ s.stack.drop (k + 1) := by
      have := hold.1
      rw [hdec] at this
      rcases List.mem_append.mp this with h | h
      · exact absurd h hrT
      · rcases List.mem_cons.mp h with h2 | h
        · exfalso
          apply hnc.2.1
          rw [← hold.2, h2, hoid]
        · exact h
    exact ⟨hrB, by rw [hBrw r hrB]; exact hold.2⟩
  · intro p hp
    rcases List.mem_cons.mp hp with rfl | hp
    · exact Nat.lt_succ_self i
    · exact lt_trans (inv.hplt p hp) (by omega)
  · intro p hp
    rcases List.mem_cons.mp hp with rfl | hp
    · refine ⟨inv.hslt orow horow_mem, ?_⟩
      rw [horowrw]
      have hov := inv.hsv orow horow_mem
      exact ⟨hov.1, hov.2, hoid, rfl, hD_valid, hD_side, hD_id, hD_col⟩
    · have hold := inv.hpm p hp
      refine ⟨hold.1, ?_⟩
      rw [hne_lt p.o (hprow p hp).1 (hp_notT p hp).1,
        hne_lt p.c (hprow p hp).2 (hp_notT p hp).2]
      exact hold.2
  · intro p hp
    rcases List.mem_cons.mp hp with rfl | hp
    · rw [hcomp2]; exact Or.inr (Or.inl rfl)
    · rw [hcomp2]; exact Or.inr (Or.inr (inv.hpc p hp))
  · refine List.Pairwise.cons ?_ inv.hpw
    intro p hp
    refine ⟨fun heq => ?_, ?_⟩
    · have h2 : id2 = p.id := heq
      exact hid2c (by rw [h2]; exact inv.hpc p hp)
    rcases (inv.hps p hp orow horow_mem).2 with h | h
    · exact Or.inl h
    · exact Or.inr (Or.inr (Or.inl ⟨h, inv.hplt p hp⟩))
  · intro p hp r hr
    rcases List.mem_cons.mp hp with rfl | hp
    · refine ⟨?_, Or.inr (horowB r hr)⟩
      rw [hBrw r hr]
      exact fun heq => (hBid r hr) heq.symm
    · have hold := inv.hps p hp r (hB_sub r hr)
      exact ⟨by rw [hBrw r hr]; exact hold.1, hold.2⟩
  · intro r hr hv
    rcases Nat.lt_succ_iff_lt_or_eq.mp hr with hr' | rfl
    · by_cases hrT : r ∈ s.stack.take k
      · rw [hD_T r hrT] at hv; cases hv
      · rw [hne_lt r hr' hrT] at hv
        rcases inv.hchar r hr' hv with h | h
        · rw [hdec] at h
          rcases List.mem_append.mp h with h | h
          · exact absurd h hrT
          · rcases List.mem_cons.mp h with rfl | h
            · exact Or.inr ⟨_, List.mem_cons_self _ _, Or.inl rfl⟩
            · exact Or.inl h
        · obtain ⟨p, hp, hpo⟩ := h
          exact Or.inr ⟨p, List.mem_cons_of_mem _ hp, hpo⟩
    · exact Or.inr ⟨_, List.mem_cons_self _ _, Or.inr rfl⟩
  · intro v hv
    rw [hcomp2] at hv
    rcases hv with ⟨e, he, rfl⟩ | rfl | hv
    · exact le_trans (inv.hms e (hT_sub e he)) hmax_le
    · exact hid2m
    · exact le_trans (inv.hmc v hv) hmax_le
  · exact hmr2
  · intro r hr hm
    exact le_trans (inv.hmd r (by omega) hm) hmax_le
  · intro r hr
    rw [hBrw r hr]
    exact le_trans (inv.hms r (hB_sub r hr)) hmax_le

theorem fixStep_eq_fixBranch (s : FixState) (i : Nat)
    (hmark : (nth s.doc i).fold.extraExists = true) :
    fixStep s i =
      fixBranch s i
        (if s.completed.contains (applyRemap s.remap s.remap.length (nth s.doc i).fold.id)
          then s.maxId + 1
          else applyRemap s.remap s.remap.length (nth s.doc i).fold.id)
        (if s.completed.contains (applyRemap s.remap s.remap.length (nth s.doc i).fold.id)
          then s.maxId + 1 else s.maxId)
        (if s.completed.contains (applyRemap s.remap s.remap.length (nth s.doc i).fold.id)
          then (applyRemap s.remap s.remap.length (nth s.doc i).fold.id, s.maxId + 1)
            :: s.remap
          else s.remap)
        ((List.lookup (nth s.doc i).fold.id s.remap).isSome ||
          s.completed.contains (applyRemap s.remap s.remap.length (nth s.doc i).fold.id)) := by
  simp only [fixStep, fixBranch, hmark, if_true]

theorem contains_false_not_mem {l : List Int} {a : Int}
    (h : ¬ l.contains a = true) : a ∉ l := by
  intro hmem
  exact h (List.elem_eq_true_of_mem hmem)

theorem mem_take_idx {α : Type _} (d : α) {l : List α} {k : Nat} {e : α}
    (h : e ∈ l.take k) : ∃ j, j < k ∧ j < l.length ∧ l.getD j d = e := by
  obtain ⟨j, hj, hget⟩ := List.mem_iff_getElem.mp h
  have hjk : j < k := by
    have := hj
    rw [List.length_take] at this
    omega
  have hjl : j < l.length := by
    have := hj
    rw [List.length_take] at this
    omega
  refine ⟨j, hjk, hjl, ?_⟩
  rw [List.getD_eq_getElem?_getD, List.getElem?_eq_getElem hjl]
  rw [List.getElem_take] at hget
  simpa using hget

/-- The invariant passes over rows without fold extradata unchanged. -/
theorem ScanInv.skip {d0 : List Line} {i : Nat} {s : FixState} {P : List FoldPair}
    (inv : ScanInv d0 i s P)
    (hd0 : ∀ r, (nth d0 r).fold.valid = (nth d0 r).fold.extraExists)
    (hmark : (nth s.doc i).fold.extraExists = false) :
    ScanInv d0 (i + 1) s P := by
  refine ⟨inv.hlen, ?_, ?_, inv.hsort, inv.hsv, inv.hsh, inv.hsc, inv.hhs, ?_,
    inv.hpm, inv.hpc, inv.hpw, inv.hps, ?_, inv.hmc, inv.hmr, ?_, inv.hms⟩
  · intro r hr; exact inv.hun r (by omega)
  · intro r hr; exact lt_trans (inv.hslt r hr) (by omega)
  · intro p hp; exact lt_trans (inv.hplt p hp) (by omega)
  · intro r hr hv
    rcases Nat.lt_succ_iff_lt_or_eq.mp hr with hr' | rfl
    · exact inv.hchar r hr' hv
    · rw [inv.hun r le_rfl, hd0 r, ← inv.hun r le_rfl, hmark] at hv
      cases hv
  · intro r hr hm; exact inv.hmd r (by omega) hm

/-- One `FixFolds` iteration preserves the scan invariant. -/
theorem ScanInv.step {d0 : List Line}
    (hd0 : ∀ r, (nth d0 r).fold.valid = (nth d0 r).fold.extraExists)
    {i : Nat} {s : FixState} {P : List FoldPair} (inv : ScanInv d0 i s P) :
    ∃ P', ScanInv d0 (i + 1) (fixStep s i) P' := by
  by_cases hmark : (nth s.doc i).fold.extraExists = true
  swap
  · rw [fixStep_nonmarker s i (by simpa using hmark)]
    exact ⟨P, inv.skip hd0 (by simpa using hmark)⟩
  have hvi : (nth s.doc i).fold.valid = true := by
    rw [inv.hun i le_rfl] at hmark ⊢
    rw [hd0 i]
    exact hmark
  have hi_d0 : i < d0.length := by
    by_contra hcon
    have h1 := inv.hun i le_rfl
    rw [nth_ge_length (Nat.le_of_not_lt hcon)] at h1
    rw [h1] at hmark
    exact absurd hmark (by decide)
  have hi_doc : i < s.doc.length := by rw [inv.hlen]; exact hi_d0
  have hraw_le : (nth s.doc i).fold.id ≤ s.maxId := by
    have h1 := inv.hmd i le_rfl (by rw [← inv.hun i le_rfl]; exact hmark)
    rw [← inv.hun i le_rfl] at h1
    exact h1
  have hid1_le : applyRemap s.remap s.remap.length (nth s.doc i).fold.id ≤ s.maxId :=
    applyRemap_le inv.hmr _ _ hraw_le
  rw [fixStep_eq_fixBranch s i hmark]
  suffices H : ∀ id2 maxId2 remap2 u2, id2 ∉ s.completed → id2 ≤ maxId2 →
      s.maxId ≤ maxId2 → (∀ kv ∈ remap2, kv.2 ≤ maxId2) →
      ∃ P', ScanInv d0 (i + 1) (fixBranch s i id2 maxId2 remap2 u2) P' by
    by_cases hhit : s.completed.contains
        (applyRemap s.remap s.remap.length (nth s.doc i).fold.id) = true
    · simp only [hhit, if_true, Bool.or_true]
      refine H _ _ _ _ ?_ le_rfl (by omega) ?_
      · intro hm
        have := inv.hmc _ hm
        omega
      · intro kv hkv
        rcases List.mem_cons.mp hkv with rfl | hkv
        · exact le_rfl
        · exact le_trans (inv.hmr kv hkv) (by omega)
    · have hfalse : s.completed.contains
          (applyRemap s.remap s.remap.length (nth s.doc i).fold.id) = false := by
        simpa using hhit
      simp only [hfalse, if_false, Bool.or_false]
      exact H _ _ _ _ (contains_false_not_mem hhit) hid1_le le_rfl inv.hmr
  intro id2 maxId2 remap2 u2 hid2c hid2m hmaxle hmr2
  by_cases hside : (nth s.doc i).fold.side = false
  · -- opener
    by_cases hdup : (List.lookup id2 s.heads).isSome = true
    · -- duplicate opener: invalidate
      have hstate : fixBranch s i id2 maxId2 remap2 u2 =
          ⟨(if u2 = true then
              modifyLine (modifyLine s.doc i fun _ =>
                invalidateLineFold
                  { nth s.doc i with fold := { (nth s.doc i).fold with id := id2 } }) i
                updateLineExtradata
            else modifyLine s.doc i fun _ =>
              invalidateLineFold
                { nth s.doc i with fold := { (nth s.doc i).fold with id := id2 } }),
            maxId2, s.stack, s.heads, s.completed, remap2⟩ := by
        simp only [fixBranch, hside, hdup, if_true]
      rw [hstate]
      refine ⟨P, inv.step_invalidate _ _ _ _
        (ite_update_doc_ne _ _ _ _) (ite_update_doc_len _ _ _ _) ?_
        inv.hsc (fun v hv => hv) (fun v hv => le_trans (inv.hmc v hv) hmaxle)
        hmr2 hmaxle⟩
      rw [ite_update_doc_fold _ _ hi_doc]
      exact valid_invalidateLineFold _
    · -- fresh opener: push
      have hnone : List.lookup id2 s.heads = none := by
        rcases hlk : List.lookup id2 s.heads with _ | r
        · rfl
        · rw [hlk] at hdup
          exact absurd rfl hdup
      have hstate : fixBranch s i id2 maxId2 remap2 u2 =
          ⟨(if u2 = true then
              modifyLine (modifyLine s.doc i fun _ =>
                { nth s.doc i with fold := { (nth s.doc i).fold with id := id2 } }) i
                updateLineExtradata
            else modifyLine s.doc i fun _ =>
              { nth s.doc i with fold := { (nth s.doc i).fold with id := id2 } }),
            maxId2, i :: s.stack, (id2, i) :: s.heads, s.completed, remap2⟩ := by
        simp only [fixBranch, hside, hdup, if_true, if_false, Bool.false_eq_true]
      rw [hstate]
      have hfold := @ite_update_doc_fold s.doc i
        { nth s.doc i with fold := { (nth s.doc i).fold with id := id2 } } u2 hi_doc
      exact ⟨P, inv.step_push _ _ _ _
        (ite_update_doc_ne _ _ _ _) (ite_update_doc_len _ _ _ _)
        (by rw [hfold]; exact hvi) (by rw [hfold]; exact hside) (by rw [hfold])
        hnone hid2c hid2m hmr2 hmaxle⟩
  · -- closer
    have hside' : (nth s.doc i).fold.side = true := by
      simpa using hside
    by_cases hhead : (List.lookup id2 s.heads).isSome = false
    · -- non-matching ender
      have hstate : fixBranch s i id2 maxId2 remap2 u2 =
          ⟨(if u2 = true then
              modifyLine (modifyLine s.doc i fun _ =>
                invalidateLineFold
                  { nth s.doc i with fold := { (nth s.doc i).fold with id := id2 } }) i
                updateLineExtradata
            else modifyLine s.doc i fun _ =>
              invalidateLineFold
                { nth s.doc i with fold := { (nth s.doc i).fold with id := id2 } }),
            maxId2, s.stack, s.heads, id2 :: s.completed, remap2⟩ := by
        simp only [fixBranch, hside', if_false, Bool.true_eq_false, hhead, if_true]
      rw [hstate]
      have hstackne : ∀ r ∈ s.stack, (nth s.doc r).fold.id ≠ id2 := by
        intro r hr heq
        have h1 := inv.hsh r hr
        rw [heq] at h1
        rw [h1] at hhead
        simp at hhead
      refine ⟨P, inv.step_invalidate _ _ _ _
        (ite_update_doc_ne _ _ _ _) (ite_update_doc_len _ _ _ _) ?_ ?_
        (fun v hv => List.mem_cons_of_mem _ hv) ?_ hmr2 hmaxle⟩
      · rw [ite_update_doc_fold _ _ hi_doc]
        exact valid_invalidateLineFold _
      · intro r hr hmem
        rcases List.mem_cons.mp hmem with heq | hmem
        · exact hstackne r hr heq
        · exact inv.hsc r hr hmem
      · intro v hv
        rcases List.mem_cons.mp hv with rfl | hv
        · exact hid2m
        · exact le_trans (inv.hmc v hv) hmaxle
    · -- ender with a registered head
      rcases hfind : s.stack.findIdx? (fun r => (nth s.doc r).fold.id == id2) with _ | k
      · -- no stack match (unreachable, but the invariant still holds)
        have hstate : fixBranch s i id2 maxId2 remap2 u2 =
            ⟨(if u2 = true then
                modifyLine (modifyLine s.doc i fun _ =>
                  invalidateLineFold
                    { nth s.doc i with fold := { (nth s.doc i).fold with id := id2 } }) i
                  updateLineExtradata
              else modifyLine s.doc i fun _ =>
                invalidateLineFold
                  { nth s.doc i with fold := { (nth s.doc i).fold with id := id2 } }),
              maxId2, s.stack, s.heads, id2 :: s.completed, remap2⟩ := by
          simp only [fixBranch, hside', hhead, hfind]
          simp [hside', hhead]
        rw [hstate]
        have hstackne : ∀ r ∈ s.stack, (nth s.doc r).fold.id ≠ id2 := by
          intro r hr heq
          have := findIdx?_go_none _ _ _ hfind r hr
          rw [heq] at this
          simp at this
        refine ⟨P, inv.step_invalidate _ _ _ _
          (ite_update_doc_ne _ _ _ _) (ite_update_doc_len _ _ _ _) ?_ ?_
          (fun v hv => List.mem_cons_of_mem _ hv) ?_ hmr2 hmaxle⟩
        · rw [ite_update_doc_fold _ _ hi_doc]
          exact valid_invalidateLineFold _
        · intro r hr hmem
          rcases List.mem_cons.mp hmem with heq | hmem
          · exact hstackne r hr heq
          · exact inv.hsc r hr hmem
        · intro v hv
          rcases List.mem_cons.mp hv with rfl | hv
          · exact hid2m
          · exact le_trans (inv.hmc v hv) hmaxle
      · -- matched: erase inward, sync, pop, record the pair
        obtain ⟨hk, hpk, hpj⟩ := findIdx?_spec 0 hfind
        have hoid : (nth s.doc (s.stack.getD k 0)).fold.id = id2 := eq_of_beq hpk
        have hTid : ∀ e ∈ s.stack.take k, (nth s.doc e).fold.id ≠ id2 := by
          intro e he heq
          obtain ⟨j, hjk, hjl, hge⟩ := mem_take_idx 0 he
          have := hpj j hjk
          rw [hge, heq] at this
          simp at this
        have hTnodup : (s.stack.take k).Nodup := by
          have h1 : (s.stack.take k).Pairwise (· > ·) :=
        (List.pairwise_append.mp (by rw [← getD_decomp 0 hk]; exact inv.hsort)).1
          exact h1.imp Nat.ne_of_gt
        have hT_sub : ∀ e ∈ s.stack.take k, e ∈ s.stack := fun e he =>
          List.mem_of_mem_take he
        have horow_notT : s.stack.getD k 0 ∉ s.stack.take k := fun hmem =>
          hTid _ hmem hoid
        have hi_notT : i ∉ s.stack.take k := fun hmem =>
          absurd (inv.hslt i (hT_sub i hmem)) (lt_irrefl i)
        have hdoc3ne : ∀ r, r ∉ s.stack.take k →
            nth ((s.stack.take k).foldl (fun d r => modifyLine d r invalidateLineFold)
              s.doc) r = nth s.doc r := fun r hr => nth_foldl_modify_not_mem hr
        have hdoc3len : ((s.stack.take k).foldl
            (fun d r => modifyLine d r invalidateLineFold) s.doc).length =
            s.doc.length := length_foldl_modify _ _ _
        have hocol : (nth ((s.stack.take k).foldl
            (fun d r => modifyLine d r invalidateLineFold) s.doc)
            (s.stack.getD k 0)).fold.collapsed =
            (nth s.doc (s.stack.getD k 0)).fold.collapsed := by
          rw [hdoc3ne _ horow_notT]
        have hstate : fixBranch s i id2 maxId2 remap2 u2 =
            ⟨(if (u2 || ((nth s.doc i).fold.collapsed !=
                  (nth ((s.stack.take k).foldl
                    (fun d r => modifyLine d r invalidateLineFold) s.doc)
                    (s.stack.getD k 0)).fold.collapsed)) = true then
                modifyLine (modifyLine ((s.stack.take k).foldl
                  (fun d r => modifyLine d r invalidateLineFold) s.doc) i fun _ =>
                  { nth s.doc i with fold := { (nth s.doc i).fold with
                      id := id2,
                      collapsed := (nth ((s.stack.take k).foldl
                        (fun d r => modifyLine d r invalidateLineFold) s.doc)
                        (s.stack.getD k 0)).fold.collapsed } }) i
                  updateLineExtradata
              else
                modifyLine ((s.stack.take k).foldl
                  (fun d r => modifyLine d r invalidateLineFold) s.doc) i fun _ =>
                  { nth s.doc i with fold := { (nth s.doc i).fold with
                      id := id2,
                      collapsed := (nth ((s.stack.take k).foldl
                        (fun d r => modifyLine d r invalidateLineFold) s.doc)
                        (s.stack.getD k 0)).fold.collapsed } }),
              maxId2, s.stack.drop (k + 1), s.heads,
              ((s.stack.take k).map fun e => (nth s.doc e).fold.id) ++
                id2 :: s.completed, remap2⟩ := by
          simp only [fixBranch, hside', hhead, hfind]
          simp [hside', hhead]
        rw [hstate]
        have hfold := @ite_update_doc_fold
          ((s.stack.take k).foldl (fun d r => modifyLine d r invalidateLineFold)
            s.doc) i
          { nth s.doc i with fold := { (nth s.doc i).fold with
              id := id2,
              collapsed := (nth ((s.stack.take k).foldl
                (fun d r => modifyLine d r invalidateLineFold) s.doc)
                (s.stack.getD k 0)).fold.collapsed } }
          (u2 || ((nth s.doc i).fold.collapsed !=
            (nth ((s.stack.take k).foldl (fun d r => modifyLine d r invalidateLineFold)
              s.doc) (s.stack.getD k 0)).fold.collapsed))
          (by rw [hdoc3len]; exact hi_doc)
        refine ⟨_, inv.step_match _ _ _ _ k _ hk rfl hTid hoid ?_ ?_ ?_ ?_ ?_ ?_ ?_
          hid2c hid2m hmr2 hmaxle⟩
        · intro r hri hrT
          rw [ite_update_doc_ne _ _ _ _ r hri, hdoc3ne r hrT]
        · rw [ite_update_doc_len, hdoc3len]
        · rw [hfold]; exact hvi
        · rw [hfold]; exact hside'
        · rw [hfold]
        · rw [hfold]
          exact hocol
        · intro e he
          have hei : e ≠ i := fun heq =>
            absurd (inv.hslt i (hT_sub i (heq ▸ he))) (lt_irrefl i)
          rw [ite_update_doc_ne _ _ _ _ e hei,
            nth_foldl_modify_mem he hTnodup
              (lt_of_lt_of_le (inv.hslt e (hT_sub e he)) (le_of_lt hi_doc))]
          exact valid_invalidateLineFold _

theorem readLine_valid_eq_extraExists (l : Line) :
    (readLine l).fold.valid = (readLine l).fold.extraExists := by
  cases hl : l.extra <;> simp [readLine, hl]

theorem read_valid_eq_extraExists (doc : List Line) :
    ∀ r, (nth (readFromExtradata doc) r).fold.valid =
      (nth (readFromExtradata doc) r).fold.extraExists := by
  intro r
  by_cases hr : r < doc.length
  · rw [nth_readFromExtradata hr]
    exact readLine_valid_eq_extraExists _
  · rw [nth_ge_length (by rw [length_readFromExtradata]; omega)]
    rfl

theorem read_marker_id_le (doc : List Line) :
    ∀ r, (nth (readFromExtradata doc) r).fold.extraExists = true →
      (nth (readFromExtradata doc) r).fold.id ≤ readMaxId doc := by
  intro r hm
  by_cases hr : r < doc.length
  · rw [nth_readFromExtradata hr] at hm ⊢
    cases hx : (nth doc r).extra with
    | none => rw [readLine, hx] at hm; cases hm
    | some dd =>
        rw [readLine, hx]
        exact readMaxId_ge hx
  · rw [nth_ge_length (by rw [length_readFromExtradata]; omega)] at hm
    cases hm

/-- The scan invariant holds initially. -/
theorem ScanInv.init (doc : List Line) :
    ScanInv (readFromExtradata doc) 0
      (initFixState (readFromExtradata doc) (readMaxId doc)) [] := by
  refine ⟨rfl, fun r _ => rfl, ?_, ?_, ?_, ?_, ?_, ?_, ?_, ?_, ?_, ?_, ?_, ?_, ?_,
    ?_, ?_, ?_⟩
  · intro r hr; cases hr
  · exact List.Pairwise.nil
  · intro r hr; cases hr
  · intro r hr; cases hr
  · intro r hr; cases hr
  · intro v r hlk; cases hlk
  · intro p hp; cases hp
  · intro p hp; cases hp
  · intro p hp; cases hp
  · exact List.Pairwise.nil
  · intro p hp; cases hp
  · intro r hr; omega
  · intro v hv; cases hv
  · intro kv hkv; cases hkv
  · intro r _ hm; exact read_marker_id_le doc r hm
  · intro r hr; cases hr

/-- The scan invariant holds after the whole `FixFolds` loop. -/
theorem scanInv_final (doc : List Line) :
    ∃ P, ScanInv (readFromExtradata doc) (readFromExtradata doc).length
      (fixScan (readFromExtradata doc) (readMaxId doc)) P := by
  unfold fixScan
  rw [List.range_eq_range']
  have := foldl_range'_inv fixStep
    (fun i s => ∃ P, ScanInv (readFromExtradata doc) i s P)
    (readFromExtradata doc).length 0
    (initFixState (readFromExtradata doc) (readMaxId doc))
    ⟨[], ScanInv.init doc⟩
    (fun i t _ _ ht => by
      obtain ⟨P, hP⟩ := ht
      exact hP.step (read_valid_eq_extraExists doc))
  simpa using this

/-- Structure of the Repair output: a ghost list of pairwise disjoint-or-
nested folds with distinct ids that carries exactly the valid markers. -/
theorem repair_structure (doc : List Line) :
    ∃ P : List FoldPair,
      (∀ p ∈ P, pairMatches (repairPass doc).1 p ∧ p.c < doc.length) ∧
      P.Pairwise pairRel ∧
      (∀ r, (nth (repairPass doc).1 r).fold.valid = true →
        ∃ p ∈ P, r = p.o ∨ r = p.c) := by
  obtain ⟨P, inv⟩ := scanInv_final doc
  set d0 := readFromExtradata doc with hd0
  set sf := fixScan d0 (readMaxId doc) with hsf
  have hlen0 : d0.length = doc.length := length_readFromExtradata doc
  have hnodup : sf.stack.Nodup := inv.hsort.imp Nat.ne_of_gt
  have hRdef : (repairPass doc).1 =
      sf.stack.reverse.foldl (fun d r => modifyLine d r invalidateLineFold) sf.doc := by
    show (fixFolds d0 (readMaxId doc)).1 = _
    rw [fixFolds, ← hsf]
  have hmemrev : ∀ r, r ∈ sf.stack.reverse ↔ r ∈ sf.stack := fun r =>
    List.mem_reverse
  have hnoduprev : sf.stack.reverse.Nodup := by
    rw [List.nodup_reverse]
    exact hnodup
  have hp_not_stack : ∀ p ∈ P, p.o ∉ sf.stack ∧ p.c ∉ sf.stack := by
    intro p hp
    have h1 := (inv.hpm p hp).1
    constructor <;> intro hmem
    · rcases (inv.hps p hp _ hmem).2 with h | h <;> omega
    · rcases (inv.hps p hp _ hmem).2 with h | h <;> omega
  have hRne : ∀ r, r ∉ sf.stack → nth (repairPass doc).1 r = nth sf.doc r := by
    intro r hr
    rw [hRdef]
    exact nth_foldl_modify_not_mem (by rw [hmemrev]; exact hr)
  refine ⟨P, ?_, inv.hpw, ?_⟩
  · intro p hp
    have hnost := hp_not_stack p hp
    have hm := inv.hpm p hp
    refine ⟨?_, ?_⟩
    · refine ⟨hm.1, ?_⟩
      rw [hRne p.o hnost.1, hRne p.c hnost.2]
      exact hm.2
    · have := inv.hplt p hp
      omega
  · intro r hv
    by_cases hr : r ∈ sf.stack
    · exfalso
      have hrl : r < sf.doc.length := by
        rw [inv.hlen, hlen0]
        have := inv.hslt r hr
        omega
      rw [hRdef, nth_foldl_modify_mem (by rw [hmemrev]; exact hr) hnoduprev hrl,
        valid_invalidateLineFold] at hv
      cases hv
    · rw [hRne r hr] at hv
      by_cases hrn : r < d0.length
      · rcases inv.hchar r hrn hv with h | h
        · exact absurd h hr
        · exact h
      · rw [inv.hun r (by omega), nth_ge_length (by omega)] at hv
        cases hv

theorem pairRel_symm : ∀ {p q : FoldPair}, pairRel p q → pairRel q p := by
  intro p q h
  obtain ⟨h1, h2⟩ := h
  exact ⟨fun e => h1 e.symm, by tauto⟩

/-- Within a pairwise disjoint-or-nested pair list, equal ids force the
same pair. -/
theorem repair_pairs_unique {P : List FoldPair}
    (hP : P.Pairwise pairRel) {p q : FoldPair} (hp : p ∈ P) (hq : q ∈ P)
    (hid : p.id = q.id) : p = q := by
  by_contra hne
  exact (hP.forall (fun p q h => pairRel_symm h) hp hq hne).1 hid

theorem valid_row_to_pair {doc : List Line} {P : List FoldPair}
    (hPm : ∀ p ∈ P, pairMatches (repairPass doc).1 p ∧ p.c < doc.length)
    (hchar : ∀ r, (nth (repairPass doc).1 r).fold.valid = true →
      ∃ p ∈ P, r = p.o ∨ r = p.c) :
    (∀ o, isValidOpener (repairPass doc).1 o → ∃ p ∈ P, o = p.o) ∧
    (∀ c, isValidCloser (repairPass doc).1 c → ∃ p ∈ P, c = p.c) := by
  constructor
  · intro o ho
    obtain ⟨hov, hos⟩ := ho
    obtain ⟨p, hp, hop⟩ := hchar o hov
    rcases hop with rfl | rfl
    · exact ⟨p, hp, rfl⟩
    · have hsc := (hPm p hp).1.2.2.2.2.2.2.1
      rw [hos] at hsc
      cases hsc
  · intro c hc
    obtain ⟨hcv, hcs⟩ := hc
    obtain ⟨p, hp, hcp⟩ := hchar c hcv
    rcases hcp with rfl | rfl
    · have hso := (hPm p hp).1.2.2.1
      rw [hcs] at hso
      cases hso
    · exact ⟨p, hp, rfl⟩

/-- C3: well-nestedness of the Repair output. -/
theorem repair_output_well_nested (doc : List Line) :
    (∀ o, isValidOpener (repairPass doc).1 o →
      ∃ c, ValidFold (repairPass doc).1 o c ∧
        ∀ c', isValidCloser (repairPass doc).1 c' →
          (nth (repairPass doc).1 c').fold.id = (nth (repairPass doc).1 o).fold.id →
          c' = c) ∧
    (∀ c, isValidCloser (repairPass doc).1 c → ∃ o, ValidFold (repairPass doc).1 o c) ∧
    (∀ o c o' c', ValidFold (repairPass doc).1 o c → ValidFold (repairPass doc).1 o' c' →
      o ≠ o' → (c < o' ∨ c' < o ∨ (o < o' ∧ c' < c) ∨ (o' < o ∧ c < c'))) ∧
    (∀ o c o' c', ValidFold (repairPass doc).1 o c → ValidFold (repairPass doc).1 o' c' →
      (o = o' ↔ c = c')) := by
  obtain ⟨P, hPm, hPw, hchar⟩ := repair_structure doc
  have hchar' : ∀ r, (nth (repairPass doc).1 r).fold.valid = true →
      ∃ p ∈ P, r = p.o ∨ r = p.c := hchar
  obtain ⟨hop, hcl⟩ := valid_row_to_pair hPm hchar'
  set R := (repairPass doc).1 with hR
  have hfold_pair : ∀ o c, ValidFold R o c → ∃ p ∈ P, o = p.o ∧ c = p.c := by
    intro o c hf
    obtain ⟨p, hp, rfl⟩ := hop o hf.2.1
    obtain ⟨q, hq, rfl⟩ := hcl c hf.2.2.1
    have hpq : p = q := by
      refine repair_pairs_unique hPw hp hq ?_
      have h1 := (hPm p hp).1.2.2.2.1
      have h2 := (hPm q hq).1.2.2.2.2.2.2.2.1
      rw [← h1, ← h2]
      exact hf.2.2.2
    exact ⟨p, hp, rfl, by rw [hpq]⟩
  have hpair_fold : ∀ p ∈ P, ValidFold R p.o p.c := by
    intro p hp
    have h := (hPm p hp).1
    exact ⟨h.1, ⟨h.2.1, h.2.2.1⟩, ⟨h.2.2.2.2.2.1, h.2.2.2.2.2.2.1⟩,
      by rw [h.2.2.2.1, h.2.2.2.2.2.2.2.1]⟩
  refine ⟨?_, ?_, ?_, ?_⟩
  · intro o ho
    obtain ⟨p, hp, rfl⟩ := hop o ho
    refine ⟨p.c, hpair_fold p hp, ?_⟩
    intro c' hc' hid
    obtain ⟨q, hq, rfl⟩ := hcl c' hc'
    have hpq : q = p := by
      refine repair_pairs_unique hPw hq hp ?_
      have h1 := (hPm q hq).1.2.2.2.2.2.2.2.1
      have h2 := (hPm p hp).1.2.2.2.1
      rw [← h1, ← h2]
      exact hid
    rw [hpq]
  · intro c hc
    obtain ⟨p, hp, rfl⟩ := hcl c hc
    exact ⟨p.o, hpair_fold p hp⟩
  · intro o c o' c' hf hf' hne
    obtain ⟨p, hp, rfl, rfl⟩ := hfold_pair o c hf
    obtain ⟨q, hq, rfl, rfl⟩ := hfold_pair o' c' hf'
    have hpq : p ≠ q := fun he => hne (by rw [he])
    have hrel := hPw.forall (fun p q h => pairRel_symm h) hp hq hpq
    rcases hrel.2 with h | h | h | h <;> omega
  · intro o c o' c' hf hf'
    obtain ⟨p, hp, rfl, rfl⟩ := hfold_pair o c hf
    obtain ⟨q, hq, rfl, rfl⟩ := hfold_pair o' c' hf'
    constructor
    · intro he
      by_cases hpq : p = q
      · rw [hpq]
      · have hrel := hPw.forall (fun p q h => pairRel_symm h) hp hq hpq
        have h1 := (hPm p hp).1.1
        have h2 := (hPm q hq).1.1
        rcases hrel.2 with h | h | h | h <;> omega
    · intro he
      by_cases hpq : p = q
      · rw [hpq]
      · have hrel := hPw.forall (fun p q h => pairRel_symm h) hp hq hpq
        have h1 := (hPm p hp).1.1
        have h2 := (hPm q hq).1.1
        rcases hrel.2 with h | h | h | h <;> omega

/-- Witness for C3 on a concrete document with one nested and one
disjoint fold. -/
theorem repair_output_well_nested_witness :
    let docW : List Line :=
      [⟨some ⟨false, false, 1⟩, FoldInfo.init⟩, ⟨some ⟨false, true, 2⟩, FoldInfo.init⟩,
       ⟨some ⟨true, true, 2⟩, FoldInfo.init⟩, ⟨some ⟨true, false, 1⟩, FoldInfo.init⟩,
       ⟨some ⟨false, false, 7⟩, FoldInfo.init⟩, ⟨some ⟨true, false, 7⟩, FoldInfo.init⟩]
    ∃ c, ValidFold (repairPass docW).1 0 c ∧
      (∀ o' c', ValidFold (repairPass docW).1 o' c' → o' ≠ 0 →
        (c < o' ∨ c' < 0 ∨ (0 < o' ∧ c' < c) ∨ (o' < 0 ∧ c < c'))) := by
  intro docW
  obtain ⟨h1, h2, h3, h4⟩ := repair_output_well_nested docW
  obtain ⟨c, hc, huniq⟩ := h1 0 (by constructor <;> decide)
  refine ⟨c, hc, ?_⟩
  intro o' c' hf' hne
  exact h3 0 c o' c' hc hf' (fun he => hne he.symm)

/-! ### The Link pass over a repaired document -/

theorem firstCollapsedDepth_le (doc : List Line) :
    ∀ B : List Nat, firstCollapsedDepth doc B ≤ B.length + 1 := by
  intro B
  induction B with
  | nil => simp [firstCollapsedDepth]
  | cons r rest ih =>
      rw [firstCollapsedDepth]
      by_cases hc : (nth doc r).fold.collapsed = true
      · rw [if_pos hc]
        simp
        omega
      · rw [if_neg hc]
        simp only [List.length_cons]
        push_cast
        omega

theorem firstCollapsedDepth_pos (doc : List Line) :
    ∀ B : List Nat, 1 ≤ firstCollapsedDepth doc B := by
  intro B
  induction B with
  | nil => simp [firstCollapsedDepth]
  | cons r rest ih =>
      rw [firstCollapsedDepth]
      by_cases hc : (nth doc r).fold.collapsed = true
      · rw [if_pos hc]
      · rw [if_neg hc]; omega

theorem firstCollapsedDepth_eq_iff (doc : List Line) :
    ∀ B : List Nat, (firstCollapsedDepth doc B = B.length + 1 ↔
      ∀ r ∈ B, (nth doc r).fold.collapsed = false) := by
  intro B
  induction B with
  | nil => simp [firstCollapsedDepth]
  | cons r rest ih =>
      rw [firstCollapsedDepth]
      by_cases hc : (nth doc r).fold.collapsed = true
      · rw [if_pos hc]
        simp only [List.length_cons]
        constructor
        · intro h; exfalso; push_cast at h; omega
        · intro h
          exact absurd hc (by rw [h r (List.mem_cons_self _ _)]; decide)
      · rw [if_neg hc]
        simp only [List.length_cons]
        constructor
        · intro h
          intro x hx
          rcases List.mem_cons.mp hx with rfl | hx
          · simpa using hc
          · refine (ih.mp ?_) x hx
            push_cast at h ⊢
            omega
        · intro h
          have := ih.mpr (fun x hx => h x (List.mem_cons_of_mem _ hx))
          push_cast
          omega

theorem firstCollapsedDepth_append (doc : List Line) (r : Nat) :
    ∀ B : List Nat, firstCollapsedDepth doc (B ++ [r]) =
      if firstCollapsedDepth doc B = B.length + 1 then
        (if (nth doc r).fold.collapsed then (B.length + 1 : Int) else B.length + 2)
      else firstCollapsedDepth doc B := by
  intro B
  induction B with
  | nil =>
      by_cases hc : (nth doc r).fold.collapsed = true <;>
        simp [firstCollapsedDepth, hc]
  | cons x B ih =>
      simp only [List.cons_append, List.length_cons]
      rw [firstCollapsedDepth, firstCollapsedDepth]
      have hle := firstCollapsedDepth_le doc B
      by_cases hx : (nth doc x).fold.collapsed = true
      · simp only [if_pos hx]
        have hcond : ¬((1 : Int) = ((B.length + 1 : Nat) : Int) + 1) := by
          push_cast
          omega
        rw [if_neg hcond]
      · simp only [if_neg hx, ih]
        by_cases hB : firstCollapsedDepth doc B = (B.length : Int) + 1
        · simp only [if_pos hB]
          have hcond : 1 + firstCollapsedDepth doc B = ((B.length + 1 : Nat) : Int) + 1 := by
            rw [hB]
            push_cast
            ring
          rw [if_pos hcond]
          by_cases hc : (nth doc r).fold.collapsed = true
          · simp only [if_pos hc]
            push_cast
            ring
          · simp only [if_neg hc]
            push_cast
            ring
        · have hcond : ¬(1 + firstCollapsedDepth doc B = ((B.length + 1 : Nat) : Int) + 1) := by
            intro h
            apply hB
            push_cast at h
            omega
          rw [if_neg hcond, if_neg hB]


/-! ### Basic lemmas for the Link pass -/

theorem nth_modifyLine (d : List Line) (i : Nat) (f : Line → Line) (j : Nat) :
    nth (modifyLine d i f) j = nth d j ∨
      (j = i ∧ nth (modifyLine d i f) j = f (nth d j)) := by
  by_cases hij : j = i
  · subst hij
    by_cases h : j < d.length
    · exact Or.inr ⟨rfl, nth_modifyLine_self f h⟩
    · left
      rw [nth_ge_length (by simp only [length_modifyLine]; omega), nth_ge_length (by omega)]
  · exact Or.inl (nth_modifyLine_ne f fun h => hij h.symm)

theorem sameCore_refl (l : Line) : sameCore l l := by
  simp [sameCore]

theorem sameCore_trans {a b c : Line} (h1 : sameCore a b) (h2 : sameCore b c) :
    sameCore a c := by
  obtain ⟨e1, v1, s1, c1, i1, x1, n1⟩ := h1
  obtain ⟨e2, v2, s2, c2, i2, x2, n2⟩ := h2
  exact ⟨e1.trans e2, v1.trans v2, s1.trans s2, c1.trans c2, i1.trans i2,
    x1.trans x2, n1.trans n2⟩

theorem length_linkDoc2 (s : LinkState) (i : Nat) :
    (linkDoc2 s i).length = s.doc.length := by
  unfold linkDoc2
  split
  · split
    · simp [length_modifyLine, linkWriteLine]
    · simp [length_modifyLine, linkWriteLine]
  · simp [length_modifyLine, linkWriteLine]

theorem linkDoc2_untouched (s : LinkState) (i : Nat) {r : Nat} (hri : r ≠ i)
    (hlv : ∀ lv, s.lastVisible = some lv → r ≠ lv) :
    nth (linkDoc2 s i) r = nth s.doc r := by
  unfold linkDoc2
  split
  · cases hl : s.lastVisible with
    | some lv =>
        rw [nth_modifyLine_ne _ fun h => hlv lv hl h.symm,
          linkWriteLine, nth_modifyLine_ne _ fun h => hri h.symm]
    | none =>
        rw [linkWriteLine, nth_modifyLine_ne _ fun h => hri h.symm]
  · rw [linkWriteLine, nth_modifyLine_ne _ fun h => hri h.symm]

theorem linkWriteLine_core (s : LinkState) (i r : Nat) :
    sameCore (nth (linkWriteLine s i) r) (nth s.doc r) ∧
    (nth (linkWriteLine s i) r).fold.counterpart = (nth s.doc r).fold.counterpart := by
  rcases nth_modifyLine s.doc i _ r with h | ⟨rfl, h⟩ <;>
    simp [linkWriteLine] at h ⊢ <;> rw [h] <;> simp [sameCore_refl, sameCore]

theorem linkDoc2_core (s : LinkState) (i r : Nat) :
    sameCore (nth (linkDoc2 s i) r) (nth s.doc r) ∧
    (nth (linkDoc2 s i) r).fold.counterpart = (nth s.doc r).fold.counterpart := by
  have hw := linkWriteLine_core s i r
  unfold linkDoc2
  split
  · cases hl : s.lastVisible with
    | some lv =>
        rcases nth_modifyLine (linkWriteLine s i) lv
            (fun m => { m with fold := { m.fold with nextVisible := some i } }) r with
          h | ⟨rfl, h⟩
        · rw [h]; exact hw
        · rw [h]
          refine ⟨sameCore_trans ?_ hw.1, ?_⟩
          · simp [sameCore]
          · simp [hw.2]
    | none => exact hw
  · exact hw

theorem linkDoc2_preserved (s : LinkState) (i : Nat) {r : Nat} (hri : r ≠ i) :
    (nth (linkDoc2 s i) r).fold.visible = (nth s.doc r).fold.visible ∧
    (nth (linkDoc2 s i) r).fold.parent = (nth s.doc r).fold.parent ∧
    (nth (linkDoc2 s i) r).fold.visibleRow = (nth s.doc r).fold.visibleRow := by
  have hw : nth (linkWriteLine s i) r = nth s.doc r :=
    nth_modifyLine_ne _ fun h => hri h.symm
  unfold linkDoc2
  split
  · cases hl : s.lastVisible with
    | some lv =>
        rcases nth_modifyLine (linkWriteLine s i) lv
            (fun m => { m with fold := { m.fold with nextVisible := some i } }) r with
          h | ⟨rfl, h⟩
        · rw [h, hw]
          exact ⟨rfl, rfl, rfl⟩
        · rw [h, hw]
          exact ⟨rfl, rfl, rfl⟩
    | none =>
        rw [hw]
        exact ⟨rfl, rfl, rfl⟩
  · rw [hw]
    exact ⟨rfl, rfl, rfl⟩

theorem linkDoc2_self (s : LinkState) (i : Nat) (h : i < s.doc.length) :
    (nth (linkDoc2 s i) i).fold.visible = linkVis s ∧
    (nth (linkDoc2 s i) i).fold.parent = s.stack.head? ∧
    (nth (linkDoc2 s i) i).fold.visibleRow = s.visibleRow := by
  have hw : nth (linkWriteLine s i) i =
      { nth s.doc i with fold := { (nth s.doc i).fold with
          parent := s.stack.head?, nextVisible := none,
          visible := linkVis s, visibleRow := s.visibleRow } } :=
    nth_modifyLine_self _ h
  unfold linkDoc2
  split
  · cases hl : s.lastVisible with
    | some lv =>
        rcases nth_modifyLine (linkWriteLine s i) lv
            (fun m => { m with fold := { m.fold with nextVisible := some i } }) i with
          h2 | ⟨_, h2⟩
        · rw [h2, hw]
          exact ⟨rfl, rfl, rfl⟩
        · rw [h2, hw]
          exact ⟨rfl, rfl, rfl⟩
    | none =>
        rw [hw]
        exact ⟨rfl, rfl, rfl⟩
  · rw [hw]
    exact ⟨rfl, rfl, rfl⟩

theorem countVisibleBefore_congr {d d' : List Line} {i : Nat}
    (h : ∀ j, j < i → (nth d j).fold.visible = (nth d' j).fold.visible) :
    countVisibleBefore d i = countVisibleBefore d' i := by
  unfold countVisibleBefore
  rw [List.filter_congr]
  intro j hj
  rw [h j (List.mem_range.mp hj)]

theorem countVisibleBefore_succ (d : List Line) (i : Nat) :
    countVisibleBefore d (i + 1) =
      countVisibleBefore d i + (if (nth d i).fold.visible then 1 else 0) := by
  unfold countVisibleBefore
  rw [List.range_succ, List.filter_append]
  by_cases h : (nth d i).fold.visible = true <;> simp [h]

theorem pairs_same_o {P : List FoldPair} (hPw : P.Pairwise pairRel)
    (hoc : ∀ p ∈ P, p.o < p.c) {p q : FoldPair} (hp : p ∈ P) (hq : q ∈ P)
    (ho : p.o = q.o) : p = q := by
  by_contra hne
  have hrel := hPw.forall (fun p q h => pairRel_symm h) hp hq hne
  have h1 := hoc p hp
  have h2 := hoc q hq
  rcases hrel.2 with h | h | h | h <;> omega

theorem pairs_same_c {P : List FoldPair} (hPw : P.Pairwise pairRel)
    (hoc : ∀ p ∈ P, p.o < p.c) {p q : FoldPair} (hp : p ∈ P) (hq : q ∈ P)
    (hc : p.c = q.c) : p = q := by
  by_contra hne
  have hrel := hPw.forall (fun p q h => pairRel_symm h) hp hq hne
  have h1 := hoc p hp
  have h2 := hoc q hq
  rcases hrel.2 with h | h | h | h <;> omega

theorem openAt_succ {p : FoldPair} (hoc : p.o < p.c) (i : Nat) :
    openAt p (i + 1) ↔ p.o = i ∨ (openAt p i ∧ p.c ≠ i) := by
  unfold openAt
  omega

theorem head_max_of_sorted {l : List Nat} (h : l.Pairwise (· > ·)) {t : Nat}
    (ht : l.head? = some t) : ∀ r ∈ l, r ≤ t := by
  cases l with
  | nil => cases ht
  | cons a l =>
      have hat : a = t := by simpa using ht
      subst hat
      intro r hr
      rcases List.mem_cons.mp hr with rfl | hr
      · exact le_refl r
      · exact le_of_lt ((List.pairwise_cons.mp h).1 r hr)

theorem nth_cpWrite_nv (d : List Line) (j : Nat) (v : Option Nat) (r : Nat) :
    (nth (modifyLine d j fun m =>
      { m with fold := { m.fold with counterpart := v } }) r).fold.nextVisible =
      (nth d r).fold.nextVisible := by
  rcases nth_modifyLine d j
      (fun m => { m with fold := { m.fold with counterpart := v } }) r with h | ⟨rfl, h⟩ <;>
    rw [h]

theorem linkDoc2_nv_self (s : LinkState) (i : Nat) (h : i < s.doc.length)
    (hlast : ∀ lv, s.lastVisible = some lv → lv ≠ i) :
    (nth (linkDoc2 s i) i).fold.nextVisible = none := by
  unfold linkDoc2
  split
  · cases hl : s.lastVisible with
    | some lv =>
        rw [nth_modifyLine_ne _ (hlast lv hl),
          linkWriteLine, nth_modifyLine_self _ h]
    | none =>
        rw [linkWriteLine, nth_modifyLine_self _ h]
  · rw [linkWriteLine, nth_modifyLine_self _ h]

theorem linkDoc2_nv_lv (s : LinkState) (i : Nat) (hv : linkVis s = true)
    {lv : Nat} (hl : s.lastVisible = some lv) (hlb : lv < s.doc.length) :
    (nth (linkDoc2 s i) lv).fold.nextVisible = some i := by
  unfold linkDoc2
  rw [if_pos hv]
  cases hl2 : s.lastVisible with
  | some lv2 =>
      have he : lv2 = lv := by
        rw [hl] at hl2
        injection hl2 with h2
        exact h2.symm
      subst he
      rw [nth_modifyLine_self _ (by rw [linkWriteLine, length_modifyLine]; exact hlb)]
  | none =>
      rw [hl] at hl2
      cases hl2

theorem linkDoc2_nv_pres (s : LinkState) (i : Nat) {r : Nat} (hri : r ≠ i)
    (hlv : linkVis s = true → ∀ lv, s.lastVisible = some lv → r ≠ lv) :
    (nth (linkDoc2 s i) r).fold.nextVisible = (nth s.doc r).fold.nextVisible := by
  unfold linkDoc2
  split
  · rename_i hv
    cases hl : s.lastVisible with
    | some lv =>
        rw [nth_modifyLine_ne _ (fun e => hlv hv lv hl e.symm),
          linkWriteLine, nth_modifyLine_ne _ (fun e => hri e.symm)]
    | none =>
        rw [linkWriteLine, nth_modifyLine_ne _ (fun e => hri e.symm)]
  · rw [linkWriteLine, nth_modifyLine_ne _ (fun e => hri e.symm)]

theorem exists_greatest_visible {d : List Line} {i u : Nat} (hu : u < i)
    (hv : (nth d u).fold.visible = true) :
    ∃ g, g < i ∧ (nth d g).fold.visible = true ∧
      ∀ w, g < w → w < i → (nth d w).fold.visible = false := by
  refine ⟨Nat.findGreatest (fun k => (nth d k).fold.visible = true) (i - 1), ?_, ?_, ?_⟩
  · have h1 : Nat.findGreatest (fun k => (nth d k).fold.visible = true) (i - 1) ≤
        i - 1 := Nat.findGreatest_le (i - 1)
    omega
  · exact @Nat.findGreatest_spec u (fun k => (nth d k).fold.visible = true)
      (fun k => inferInstance) (i - 1) (by omega) hv
  · intro w hw1 hw2
    have hnp : ¬ (nth d w).fold.visible = true :=
      Nat.findGreatest_is_greatest hw1 (by omega)
    cases h2 : (nth d w).fold.visible with
    | false => rfl
    | true => exact absurd h2 hnp

theorem linkVis_iff {R : List Line} {P : List FoldPair} {i : Nat} {s : LinkState}
    (hm : ∀ p ∈ P, pairMatches R p) (hinv : LinkInv R P i s) :
    (linkVis s = true ↔ ∀ p ∈ P, openAt p i → p.col = false) := by
  unfold linkVis
  simp only [decide_eq_true_eq]
  rw [hinv.hhf]
  have hlen : s.stack.reverse.length = s.stack.length := List.length_reverse _
  have hle := firstCollapsedDepth_le R s.stack.reverse
  constructor
  · intro h p hp hopen
    have heq : firstCollapsedDepth R s.stack.reverse = (s.stack.reverse.length : Int) + 1 := by
      rw [hlen]
      rw [hlen] at hle
      omega
    have hall := (firstCollapsedDepth_eq_iff R s.stack.reverse).mp heq
    have hmem : p.o ∈ s.stack := hinv.hstk_full p hp hopen
    have hcol := hall p.o (List.mem_reverse.mpr hmem)
    have hmc := (hm p hp).2.2.2.2.1
    rw [hmc] at hcol
    exact hcol
  · intro h
    have hall : ∀ r ∈ s.stack.reverse, (nth R r).fold.collapsed = false := by
      intro r hr
      obtain ⟨p, hp, hpo, hopen⟩ := hinv.hstk_mem r (List.mem_reverse.mp hr)
      have hcol := h p hp hopen
      have hmc := (hm p hp).2.2.2.2.1
      rw [hpo] at hmc
      rw [hmc, hcol]
    have heq := (firstCollapsedDepth_eq_iff R s.stack.reverse).mpr hall
    rw [hlen] at heq
    omega

theorem link_doc_clauses {R : List Line} {P : List FoldPair} {i : Nat} {s : LinkState}
    (hm : ∀ p ∈ P, pairMatches R p) (hinv : LinkInv R P i s) (hi : i < R.length)
    {d' : List Line}
    (hlen' : d'.length = s.doc.length)
    (hpres : ∀ r, r ≠ i →
      (nth d' r).fold.visible = (nth s.doc r).fold.visible ∧
      (nth d' r).fold.parent = (nth s.doc r).fold.parent ∧
      (nth d' r).fold.visibleRow = (nth s.doc r).fold.visibleRow)
    (hcore' : ∀ r, sameCore (nth d' r) (nth s.doc r))
    (hself : (nth d' i).fold.visible = linkVis s ∧
      (nth d' i).fold.parent = s.stack.head? ∧
      (nth d' i).fold.visibleRow = s.visibleRow)
    (hun' : ∀ r, i + 1 ≤ r → nth d' r = nth s.doc r)
    (hnvpres : ∀ r, r ≠ i →
      (linkVis s = true → ∀ lv, s.lastVisible = some lv → r ≠ lv) →
      (nth d' r).fold.nextVisible = (nth s.doc r).fold.nextVisible)
    (hnvself : (nth d' i).fold.nextVisible = none)
    (hnvlv : linkVis s = true → ∀ lv, s.lastVisible = some lv →
      (nth d' lv).fold.nextVisible = some i) :
    d'.length = R.length ∧
    (∀ r, sameCore (nth d' r) (nth R r)) ∧
    (∀ r, i + 1 ≤ r → nth d' r = nth R r) ∧
    (linkVRow s = (countVisibleBefore d' (i + 1) : Int)) ∧
    (∀ r, r < i + 1 → ((nth d' r).fold.visible = true ↔
      ∀ p ∈ P, openAt p r → p.col = false)) ∧
    (∀ r, r < i + 1 →
      ((nth d' r).fold.parent = none ∧ ∀ p ∈ P, ¬ openAt p r) ∨
      (∃ p ∈ P, openAt p r ∧ (nth d' r).fold.parent = some p.o ∧
        ∀ q ∈ P, openAt q r → q.o ≤ p.o)) ∧
    (∀ r, r < i + 1 → (nth d' r).fold.visibleRow = (countVisibleBefore d' r : Int)) ∧
    (∀ r, linkLastV s i = some r → r < i + 1) ∧
    (∀ r, linkLastV s i = some r ↔ (r < i + 1 ∧ (nth d' r).fold.visible = true ∧
      ∀ u, r < u → u < i + 1 → (nth d' u).fold.visible = false)) ∧
    (∀ r, r < i + 1 →
      ((nth d' r).fold.visible = false → (nth d' r).fold.nextVisible = none) ∧
      ((nth d' r).fold.visible = true →
        ((∀ u, r < u → u < i + 1 → (nth d' u).fold.visible = false) →
          (nth d' r).fold.nextVisible = none) ∧
        (∀ v, r < v → v < i + 1 → (nth d' v).fold.visible = true →
          (∀ u, r < u → u < v → (nth d' u).fold.visible = false) →
          (nth d' r).fold.nextVisible = some v))) := by
  have hviff := linkVis_iff hm hinv
  have hcvb : ∀ r, r ≤ i → countVisibleBefore d' r = countVisibleBefore s.doc r := by
    intro r hr
    exact countVisibleBefore_congr fun j hj => (hpres j (by omega)).1
  have hVr : ∀ r, r ≠ i → (nth d' r).fold.visible = (nth s.doc r).fold.visible :=
    fun r hr => (hpres r hr).1
  have hVi : (nth d' i).fold.visible = linkVis s := hself.1
  refine ⟨?_, ?_, ?_, ?_, ?_, ?_, ?_, ?_, ?_, ?_⟩
  · rw [hlen', hinv.hlen]
  · intro r
    exact sameCore_trans (hcore' r) (hinv.hcore r)
  · intro r hr
    rw [hun' r hr]
    exact hinv.hun r (by omega)
  · rw [countVisibleBefore_succ, hcvb i le_rfl, hself.1]
    unfold linkVRow
    have hv := hinv.hvr
    by_cases h : linkVis s = true <;> simp [h] <;> push_cast <;> omega
  · intro r hr
    by_cases hri : r = i
    · subst hri
      rw [hself.1]
      exact hviff
    · rw [(hpres r hri).1]
      exact hinv.hvis r (by omega)
  · intro r hr
    by_cases hri : r = i
    · subst hri
      rw [hself.2.1]
      cases hstk : s.stack with
      | nil =>
          left
          refine ⟨rfl, fun p hp hopen => ?_⟩
          have := hinv.hstk_full p hp hopen
          rw [hstk] at this
          cases this
      | cons top rest =>
          right
          have htop : top ∈ s.stack := by rw [hstk]; exact List.mem_cons_self _ _
          obtain ⟨p, hp, hpo, hopen⟩ := hinv.hstk_mem top htop
          refine ⟨p, hp, hopen, by rw [hpo]; rfl, ?_⟩
          intro q hq hqopen
          have hqmem := hinv.hstk_full q hq hqopen
          have hmax := head_max_of_sorted hinv.hstk_sort (by rw [hstk]; rfl) q.o hqmem
          omega
    · rcases hinv.hpar r (by omega) with ⟨hn, hno⟩ | ⟨p, hp, hopen, hpar, hmax⟩
      · left
        exact ⟨by rw [(hpres r hri).2.1]; exact hn, hno⟩
      · right
        exact ⟨p, hp, hopen, by rw [(hpres r hri).2.1]; exact hpar, hmax⟩
  · intro r hr
    by_cases hri : r = i
    · subst hri
      rw [hself.2.2, hcvb r le_rfl]
      exact hinv.hvr
    · rw [(hpres r hri).2.2, hcvb r (by omega)]
      exact hinv.hvrow r (by omega)
  · intro r hlr
    unfold linkLastV at hlr
    by_cases h : linkVis s = true
    · rw [if_pos h] at hlr
      cases hlr
      omega
    · rw [if_neg h] at hlr
      have := hinv.hlast r hlr
      omega
  · unfold linkLastV
    by_cases hv : linkVis s = true
    · rw [if_pos hv]
      intro r
      constructor
      · intro he
        have hri : i = r := by injection he
        subst hri
        refine ⟨by omega, by rw [hVi]; exact hv, ?_⟩
        intro u h1 h2
        omega
      · rintro ⟨hr1, hr2, hr3⟩
        by_cases hri : r = i
        · rw [hri]
        · exfalso
          have h4 := hr3 i (by omega) (by omega)
          rw [hVi] at h4
          rw [h4] at hv
          cases hv
    · rw [if_neg hv]
      intro r
      rw [hinv.hlv r]
      constructor
      · rintro ⟨h1, h2, h3⟩
        refine ⟨by omega, ?_, ?_⟩
        · rw [hVr r (by omega)]
          exact h2
        · intro u hu1 hu2
          by_cases hui : u = i
          · subst hui
            rw [hVi]
            revert hv
            cases linkVis s <;> simp
          · rw [hVr u hui]
            exact h3 u hu1 (by omega)
      · rintro ⟨h1, h2, h3⟩
        have hri : r ≠ i := by
          intro he
          subst he
          rw [hVi] at h2
          exact hv h2
        refine ⟨by omega, ?_, ?_⟩
        · rw [← hVr r hri]
          exact h2
        · intro u hu1 hu2
          have h4 := h3 u hu1 (by omega)
          rw [hVr u (by omega)] at h4
          exact h4
  · intro r hr
    by_cases hri : r = i
    · subst hri
      refine ⟨fun _ => hnvself, fun _ => ⟨fun _ => hnvself, ?_⟩⟩
      intro v h1 h2 _ _
      omega
    · have hrlt : r < i := by omega
      have hold := hinv.hnv r hrlt
      by_cases hv : linkVis s = true
      · cases hlast2 : s.lastVisible with
        | none =>
            have hpr := hnvpres r hri (fun _ lv hlv3 => by
              rw [hlast2] at hlv3
              cases hlv3)
            have hnovis : ∀ u, u < i → (nth s.doc u).fold.visible = false := by
              intro u hu
              by_contra hvv
              have hvv2 : (nth s.doc u).fold.visible = true := by
                revert hvv
                cases (nth s.doc u).fold.visible <;> simp
              obtain ⟨g, hg1, hg2, hg3⟩ := exists_greatest_visible hu hvv2
              have h5 := (hinv.hlv g).mpr ⟨hg1, hg2, hg3⟩
              rw [hlast2] at h5
              cases h5
            have hrhid : (nth s.doc r).fold.visible = false := hnovis r hrlt
            refine ⟨?_, ?_⟩
            · intro _
              rw [hpr]
              exact hold.1 hrhid
            · intro hvis
              exfalso
              rw [hVr r hri, hrhid] at hvis
              cases hvis
        | some lv =>
            have hlv2 := (hinv.hlv lv).mp hlast2
            by_cases hrlv : r = lv
            · subst hrlv
              have hsome := hnvlv hv r hlast2
              refine ⟨?_, ?_⟩
              · intro hhid
                exfalso
                rw [hVr r hri, hlv2.2.1] at hhid
                cases hhid
              · intro _
                refine ⟨?_, ?_⟩
                · intro hall
                  exfalso
                  have h4 := hall i (by omega) (by omega)
                  rw [hVi] at h4
                  rw [h4] at hv
                  cases hv
                · intro v h1 h2 h3 h4
                  by_cases hvi2 : v = i
                  · rw [hsome, hvi2]
                  · exfalso
                    have hvlt : v < i := by omega
                    have h5 := hlv2.2.2 v h1 hvlt
                    rw [hVr v (by omega)] at h3
                    rw [h3] at h5
                    cases h5
            · have hpr := hnvpres r hri (fun _ lv2 hlv3 => by
                rw [hlast2] at hlv3
                injection hlv3 with h6
                rw [← h6]
                exact hrlv)
              refine ⟨?_, ?_⟩
              · intro hhid
                rw [hVr r hri] at hhid
                rw [hpr]
                exact hold.1 hhid
              · intro hvis
                rw [hVr r hri] at hvis
                have hrllv : r < lv := by
                  rcases Nat.lt_trichotomy r lv with h6 | h6 | h6
                  · exact h6
                  · exact absurd h6 hrlv
                  · exfalso
                    have h7 := hlv2.2.2 r h6 hrlt
                    rw [h7] at hvis
                    cases hvis
                refine ⟨?_, ?_⟩
                · intro hall
                  exfalso
                  have h8 := hall lv hrllv (by omega)
                  rw [hVr lv (by omega), hlv2.2.1] at h8
                  cases h8
                · intro v h1 h2 h3 h4
                  rw [hpr]
                  have hvlt : v < i := by
                    by_cases h6 : v = i
                    · exfalso
                      have h8 := h4 lv hrllv (by omega)
                      rw [hVr lv (by omega), hlv2.2.1] at h8
                      cases h8
                    · omega
                  refine (hold.2 hvis).2 v h1 hvlt ?_ ?_
                  · rw [← hVr v (by omega)]
                    exact h3
                  · intro u hu1 hu2
                    have h9 := h4 u hu1 hu2
                    rw [hVr u (by omega)] at h9
                    exact h9
      · have hpr := hnvpres r hri (fun hv2 => absurd hv2 hv)
        refine ⟨?_, ?_⟩
        · intro hhid
          rw [hVr r hri] at hhid
          rw [hpr]
          exact hold.1 hhid
        · intro hvis
          rw [hVr r hri] at hvis
          refine ⟨?_, ?_⟩
          · intro hall
            rw [hpr]
            refine (hold.2 hvis).1 ?_
            intro u hu1 hu2
            have h9 := hall u hu1 (by omega)
            rw [hVr u (by omega)] at h9
            exact h9
          · intro v h1 h2 h3 h4
            have hvlt : v < i := by
              by_cases h6 : v = i
              · exfalso
                rw [h6, hVi] at h3
                exact hv h3
              · omega
            rw [hpr]
            refine (hold.2 hvis).2 v h1 hvlt ?_ ?_
            · rw [← hVr v (by omega)]
              exact h3
            · intro u hu1 hu2
              have h9 := h4 u hu1 hu2
              rw [hVr u (by omega)] at h9
              exact h9

theorem LinkInv.step_other {R : List Line} {P : List FoldPair} {i : Nat} {s : LinkState}
    (hm : ∀ p ∈ P, pairMatches R p) (hinv : LinkInv R P i s) (hi : i < R.length)
    (hval : (nth R i).fold.valid = false) :
    LinkInv R P (i + 1) (linkStep s i) := by
  have hli : nth s.doc i = nth R i := hinv.hun i le_rfl
  have hi' : i < s.doc.length := by rw [hinv.hlen]; exact hi
  have hnoo : ∀ p ∈ P, p.o ≠ i ∧ p.c ≠ i := by
    intro p hp
    constructor <;> intro he
    · have h := (hm p hp).2.1
      rw [he] at h
      simp [hval] at h
    · have h := (hm p hp).2.2.2.2.2.1
      rw [he] at h
      simp [hval] at h
  have hopen_iff : ∀ p ∈ P, (openAt p (i + 1) ↔ openAt p i) := by
    intro p hp
    have h := hnoo p hp
    unfold openAt
    omega
  obtain ⟨c1, c2, c3, c4, c5, c6, c7, c8, c9, c10⟩ := link_doc_clauses hm hinv hi
      (length_linkDoc2 s i)
      (fun r hri => linkDoc2_preserved s i hri)
      (fun r => (linkDoc2_core s i r).1)
      (linkDoc2_self s i hi')
      (fun r hr => linkDoc2_untouched s i (by omega)
        (fun lv hlv => by have := hinv.hlast lv hlv; omega))
      (fun r hri hlv2 => linkDoc2_nv_pres s i hri hlv2)
      (linkDoc2_nv_self s i hi' (fun lv hl => by have := hinv.hlast lv hl; omega))
      (fun hv lv hl => linkDoc2_nv_lv s i hv hl
        (by have := hinv.hlast lv hl; omega))
  simp only [linkStep, hli, hval, Bool.false_and, Bool.false_eq_true, if_false]
  refine ⟨c1, c2, c3, ?_, ?_, hinv.hstk_sort, hinv.hhf, c4, c5, c6, ?_, ?_, c7, c8,
    c9, c10, hinv.hep⟩
  · intro r hr
    obtain ⟨p, hp, hpo, ho⟩ := hinv.hstk_mem r hr
    exact ⟨p, hp, hpo, (hopen_iff p hp).mpr ho⟩
  · intro p hp ho
    exact hinv.hstk_full p hp ((hopen_iff p hp).mp ho)
  · intro p hp hpc
    have hne := hnoo p hp
    have hlt : p.c < i := by omega
    have h := hinv.hcp p hp hlt
    rw [(linkDoc2_core s i p.o).2, (linkDoc2_core s i p.c).2]
    exact h
  · intro r hro
    rw [(linkDoc2_core s i r).2]
    exact hinv.hcpu r hro

theorem LinkInv.step_open {R : List Line} {P : List FoldPair} {i : Nat} {s : LinkState}
    (hm : ∀ p ∈ P, pairMatches R p) (hPw : P.Pairwise pairRel)
    (hGchar : ∀ r, (nth R r).fold.valid = true → ∃ p ∈ P, r = p.o ∨ r = p.c)
    (hinv : LinkInv R P i s) (hi : i < R.length)
    (hval : (nth R i).fold.valid = true) (hside : (nth R i).fold.side = false) :
    LinkInv R P (i + 1) (linkStep s i) := by
  have hoc : ∀ p ∈ P, p.o < p.c := fun p hp => (hm p hp).1
  have hli : nth s.doc i = nth R i := hinv.hun i le_rfl
  have hi' : i < s.doc.length := by rw [hinv.hlen]; exact hi
  obtain ⟨p0, hp0, hp0e⟩ := hGchar i hval
  have hp0o : i = p0.o := by
    rcases hp0e with h | h
    · exact h
    · exfalso
      have hs := (hm p0 hp0).2.2.2.2.2.2.1
      rw [← h] at hs
      simp [hside] at hs
  have hopen_new : ∀ p ∈ P, (openAt p (i + 1) ↔ p = p0 ∨ openAt p i) := by
    intro p hp
    rw [openAt_succ (hoc p hp)]
    constructor
    · rintro (h | ⟨ho, _⟩)
      · exact Or.inl (pairs_same_o hPw hoc hp hp0 (by rw [h, hp0o]))
      · exact Or.inr ho
    · rintro (rfl | ho)
      · exact Or.inl hp0o.symm
      · refine Or.inr ⟨ho, ?_⟩
        intro hpc
        have hs := (hm p hp).2.2.2.2.2.2.1
        rw [hpc] at hs
        simp [hside] at hs
  obtain ⟨c1, c2, c3, c4, c5, c6, c7, c8, c9, c10⟩ := link_doc_clauses hm hinv hi
      (length_linkDoc2 s i)
      (fun r hri => linkDoc2_preserved s i hri)
      (fun r => (linkDoc2_core s i r).1)
      (linkDoc2_self s i hi')
      (fun r hr => linkDoc2_untouched s i (by omega)
        (fun lv hlv => by have := hinv.hlast lv hlv; omega))
      (fun r hri hlv2 => linkDoc2_nv_pres s i hri hlv2)
      (linkDoc2_nv_self s i hi' (fun lv hl => by have := hinv.hlast lv hl; omega))
      (fun hv lv hl => linkDoc2_nv_lv s i hv hl
        (by have := hinv.hlast lv hl; omega))
  simp only [linkStep, hli]
  rw [if_pos (show ((nth R i).fold.valid && !(nth R i).fold.side) = true by
    simp [hval, hside])]
  refine ⟨c1, c2, c3, ?_, ?_, ?_, ?_, c4, c5, c6, ?_, ?_, c7, c8, c9, c10, hinv.hep⟩
  · intro r hr
    rcases List.mem_cons.mp hr with rfl | hr
    · exact ⟨p0, hp0, hp0o.symm, (hopen_new p0 hp0).mpr (Or.inl rfl)⟩
    · obtain ⟨p, hp, hpo, ho⟩ := hinv.hstk_mem r hr
      exact ⟨p, hp, hpo, (hopen_new p hp).mpr (Or.inr ho)⟩
  · intro p hp hopen
    rcases (hopen_new p hp).mp hopen with rfl | ho
    · rw [← hp0o]
      exact List.mem_cons_self _ _
    · exact List.mem_cons_of_mem _ (hinv.hstk_full p hp ho)
  · refine List.pairwise_cons.mpr ⟨?_, hinv.hstk_sort⟩
    intro r hr
    obtain ⟨p, hp, hpo, ho⟩ := hinv.hstk_mem r hr
    have := ho.1
    omega
  · have hhf0 := hinv.hhf
    have hlenr : s.stack.reverse.length = s.stack.length := List.length_reverse _
    rw [List.reverse_cons, firstCollapsedDepth_append]
    by_cases hcol : (nth R i).fold.collapsed = true
    · simp only [hcol, Bool.not_true, Bool.false_and, Bool.false_eq_true, if_false,
        eq_self_iff_true, if_true]
      by_cases hB : firstCollapsedDepth R s.stack.reverse =
          (s.stack.reverse.length : Int) + 1
      · rw [if_pos hB, hhf0, hB]
      · rw [if_neg hB]
        exact hhf0
    · have hcolf : (nth R i).fold.collapsed = false := by
        revert hcol
        cases (nth R i).fold.collapsed <;> simp
      simp only [hcolf, Bool.not_false, Bool.true_and, List.length_cons,
        decide_eq_true_eq, Bool.false_eq_true, if_false]
      by_cases hB : firstCollapsedDepth R s.stack.reverse =
          (s.stack.reverse.length : Int) + 1
      · have hcond : s.highestFolded = ((s.stack.length + 1 : Nat) : Int) := by
          rw [hhf0, hB, hlenr]
          push_cast
          ring
        rw [if_pos hcond, if_pos hB, hhf0, hB, hlenr]
        push_cast
        ring
      · have hcond : ¬ s.highestFolded = ((s.stack.length + 1 : Nat) : Int) := by
          rw [hhf0]
          intro h
          apply hB
          rw [hlenr]
          push_cast at h ⊢
          omega
        rw [if_neg hcond, if_neg hB]
        exact hhf0
  · intro p hp hpc
    have hcne : p.c ≠ i := by
      intro h
      have hs := (hm p hp).2.2.2.2.2.2.1
      rw [h] at hs
      simp [hside] at hs
    have h := hinv.hcp p hp (by omega)
    rw [(linkDoc2_core s i p.o).2, (linkDoc2_core s i p.c).2]
    exact h
  · intro r hro
    rw [(linkDoc2_core s i r).2]
    exact hinv.hcpu r hro

theorem nth_cpWrite (d : List Line) (j : Nat) (v : Option Nat) (r : Nat) :
    sameCore (nth (modifyLine d j fun m =>
      { m with fold := { m.fold with counterpart := v } }) r) (nth d r) ∧
    (nth (modifyLine d j fun m =>
      { m with fold := { m.fold with counterpart := v } }) r).fold.visible =
      (nth d r).fold.visible ∧
    (nth (modifyLine d j fun m =>
      { m with fold := { m.fold with counterpart := v } }) r).fold.parent =
      (nth d r).fold.parent ∧
    (nth (modifyLine d j fun m =>
      { m with fold := { m.fold with counterpart := v } }) r).fold.visibleRow =
      (nth d r).fold.visibleRow := by
  rcases nth_modifyLine d j
      (fun m => { m with fold := { m.fold with counterpart := v } }) r with h | ⟨rfl, h⟩ <;>
    rw [h] <;> simp [sameCore]

theorem LinkInv.step_close {R : List Line} {P : List FoldPair} {i : Nat} {s : LinkState}
    (hm : ∀ p ∈ P, pairMatches R p) (hPw : P.Pairwise pairRel)
    (hGchar : ∀ r, (nth R r).fold.valid = true → ∃ p ∈ P, r = p.o ∨ r = p.c)
    (hinv : LinkInv R P i s) (hi : i < R.length)
    (hval : (nth R i).fold.valid = true) (hside : (nth R i).fold.side = true) :
    LinkInv R P (i + 1) (linkStep s i) := by
  have hoc : ∀ p ∈ P, p.o < p.c := fun p hp => (hm p hp).1
  have hli : nth s.doc i = nth R i := hinv.hun i le_rfl
  have hi' : i < s.doc.length := by rw [hinv.hlen]; exact hi
  obtain ⟨p0, hp0, hp0e⟩ := hGchar i hval
  have hp0c : i = p0.c := by
    rcases hp0e with h | h
    · exfalso
      have hs := (hm p0 hp0).2.2.1
      rw [← h] at hs
      simp [hside] at hs
    · exact h
  have hp0lt := hoc p0 hp0
  have hp0open : openAt p0 i := by
    unfold openAt
    omega
  have hp0mem : p0.o ∈ s.stack := hinv.hstk_full p0 hp0 hp0open
  obtain ⟨top, rest, hstk⟩ : ∃ top rest, s.stack = top :: rest := by
    cases hs : s.stack with
    | nil =>
        rw [hs] at hp0mem
        cases hp0mem
    | cons a l => exact ⟨a, l, rfl⟩
  have htop : top = p0.o := by
    by_contra hne
    obtain ⟨q, hq, hqo, hqopen⟩ := hinv.hstk_mem top
      (by rw [hstk]; exact List.mem_cons_self _ _)
    have hqne : q ≠ p0 := fun he => hne (by rw [← hqo, he])
    have hrel := hPw.forall (fun a b h => pairRel_symm h) hq hp0 hqne
    have hmax := head_max_of_sorted hinv.hstk_sort (by rw [hstk]; rfl) p0.o hp0mem
    have h1 := hqopen.1
    have h2 := hqopen.2
    have h3 := hoc q hq
    rcases hrel.2 with h | h | h | h <;> omega
  have htopi : top < i := by
    have := hp0open.1
    omega
  have hclose_unique : ∀ p ∈ P, p.c = i → p = p0 := fun p hp hpc =>
    pairs_same_c hPw hoc hp hp0 (by rw [hpc, hp0c])
  have hopen_new : ∀ p ∈ P, (openAt p (i + 1) ↔ (openAt p i ∧ p ≠ p0)) := by
    intro p hp
    rw [openAt_succ (hoc p hp)]
    constructor
    · rintro (h | ⟨ho, hcne⟩)
      · exfalso
        have hs := (hm p hp).2.2.1
        rw [h] at hs
        simp [hside] at hs
      · refine ⟨ho, ?_⟩
        rintro rfl
        exact hcne hp0c.symm
    · rintro ⟨ho, hne⟩
      exact Or.inr ⟨ho, fun hpc => hne (hclose_unique p hp hpc)⟩
  have htop_ne : top ≠ i := by omega
  have hstep : linkStep s i = ⟨modifyLine (modifyLine (linkDoc2 s i) i
      (fun m => { m with fold := { m.fold with counterpart := some top } })) top
      (fun m => { m with fold := { m.fold with counterpart := some i } }), rest,
      linkLastV s i, linkVRow s,
      (if s.highestFolded ≥ ((top :: rest).length : Int) then ((top :: rest).length : Int)
        else s.highestFolded), s.maxdepth, s.emptyPops⟩ := by
    simp only [linkStep, hli, hstk]
    rw [if_neg (show ¬ ((nth R i).fold.valid && !(nth R i).fold.side) = true by
      simp [hval, hside]),
      if_pos (show ((nth R i).fold.valid && (nth R i).fold.side) = true by
      simp [hval, hside])]
  rw [hstep]
  have hlenD2 : (linkDoc2 s i).length = s.doc.length := length_linkDoc2 s i
  have hiD2 : i < (linkDoc2 s i).length := by omega
  have hlenD3 : (modifyLine (linkDoc2 s i) i
      (fun m => { m with fold := { m.fold with counterpart := some top } })).length =
      s.doc.length := by
    rw [length_modifyLine, hlenD2]
  have htopD3 : top < (modifyLine (linkDoc2 s i) i
      (fun m => { m with fold := { m.fold with counterpart := some top } })).length := by
    omega
  obtain ⟨c1, c2, c3, c4, c5, c6, c7, c8, c9, c10⟩ := @link_doc_clauses R P i s hm hinv hi
      (modifyLine (modifyLine (linkDoc2 s i) i
        (fun m => { m with fold := { m.fold with counterpart := some top } })) top
        (fun m => { m with fold := { m.fold with counterpart := some i } }))
      (by simp only [length_modifyLine]; exact hlenD2)
      (fun r hri => by
        have h4 := (nth_cpWrite (modifyLine (linkDoc2 s i) i
          (fun m => { m with fold := { m.fold with counterpart := some top } })) top
          (some i) r).2
        have h3 := (nth_cpWrite (linkDoc2 s i) i (some top) r).2
        have h2 := linkDoc2_preserved s i hri
        exact ⟨h4.1.trans (h3.1.trans h2.1), h4.2.1.trans (h3.2.1.trans h2.2.1),
          h4.2.2.trans (h3.2.2.trans h2.2.2)⟩)
      (fun r => by
        have h4 := (nth_cpWrite (modifyLine (linkDoc2 s i) i
          (fun m => { m with fold := { m.fold with counterpart := some top } })) top
          (some i) r).1
        have h3 := (nth_cpWrite (linkDoc2 s i) i (some top) r).1
        exact sameCore_trans h4 (sameCore_trans h3 (linkDoc2_core s i r).1))
      (by
        have h4 := (nth_cpWrite (modifyLine (linkDoc2 s i) i
          (fun m => { m with fold := { m.fold with counterpart := some top } })) top
          (some i) i).2
        have h3 := (nth_cpWrite (linkDoc2 s i) i (some top) i).2
        have h2 := linkDoc2_self s i hi'
        exact ⟨h4.1.trans (h3.1.trans h2.1), h4.2.1.trans (h3.2.1.trans h2.2.1),
          h4.2.2.trans (h3.2.2.trans h2.2.2)⟩)
      (fun r hr => by
        rw [nth_modifyLine_ne _ (show top ≠ r by omega),
          nth_modifyLine_ne _ (show i ≠ r by omega)]
        exact linkDoc2_untouched s i (by omega)
          (fun lv hlv => by have := hinv.hlast lv hlv; omega))
      (fun r hri hlv2 => by
        rw [nth_cpWrite_nv, nth_cpWrite_nv]
        exact linkDoc2_nv_pres s i hri hlv2)
      (by
        rw [nth_cpWrite_nv, nth_cpWrite_nv]
        exact linkDoc2_nv_self s i hi' (fun lv hl => by have := hinv.hlast lv hl; omega))
      (fun hv lv hl => by
        rw [nth_cpWrite_nv, nth_cpWrite_nv]
        exact linkDoc2_nv_lv s i hv hl (by have := hinv.hlast lv hl; omega))
  refine ⟨c1, c2, c3, ?_, ?_, ?_, ?_, c4, c5, c6, ?_, ?_, c7, c8, c9, c10, hinv.hep⟩
  · intro r hr
    have hrs : r ∈ s.stack := by
      rw [hstk]
      exact List.mem_cons_of_mem _ hr
    obtain ⟨p, hp, hpo, ho⟩ := hinv.hstk_mem r hrs
    refine ⟨p, hp, hpo, (hopen_new p hp).mpr ⟨ho, ?_⟩⟩
    rintro rfl
    have htr : top > r := by
      have hps := hinv.hstk_sort
      rw [hstk] at hps
      exact (List.pairwise_cons.mp hps).1 r hr
    omega
  · intro q hq hopen
    obtain ⟨ho, hne⟩ := (hopen_new q hq).mp hopen
    have hqs := hinv.hstk_full q hq ho
    rw [hstk] at hqs
    rcases List.mem_cons.mp hqs with he | h
    · exfalso
      exact hne (pairs_same_o hPw hoc hq hp0 (by rw [he, htop]))
    · exact h
  · have hps := hinv.hstk_sort
    rw [hstk] at hps
    exact (List.pairwise_cons.mp hps).2
  · have hhf0 := hinv.hhf
    rw [hstk, List.reverse_cons, firstCollapsedDepth_append] at hhf0
    have hlenr : rest.reverse.length = rest.length := List.length_reverse _
    have hle := firstCollapsedDepth_le R rest.reverse
    simp only [List.length_cons]
    by_cases hB : firstCollapsedDepth R rest.reverse = (rest.reverse.length : Int) + 1
    · rw [if_pos hB] at hhf0
      have hc2 : s.highestFolded ≥ ((rest.length + 1 : Nat) : Int) := by
        by_cases hcol : (nth R top).fold.collapsed = true
        · rw [if_pos hcol] at hhf0
          rw [hhf0, hlenr]
          push_cast
          omega
        · rw [if_neg hcol] at hhf0
          rw [hhf0, hlenr]
          push_cast
          omega
      rw [if_pos hc2, hB, hlenr]
      push_cast
      ring
    · rw [if_neg hB] at hhf0
      have hc2 : ¬ s.highestFolded ≥ ((rest.length + 1 : Nat) : Int) := by
        rw [hhf0]
        intro h
        apply hB
        rw [hlenr] at *
        push_cast at h ⊢
        omega
      rw [if_neg hc2]
      exact hhf0
  · intro p hp hpc
    by_cases hpe : p = p0
    · subst hpe
      constructor
      · rw [← htop, nth_modifyLine_self _ htopD3]
        simp [← hp0c]
      · rw [← hp0c, nth_modifyLine_ne _ htop_ne, nth_modifyLine_self _ hiD2]
        simp [htop]
    · have hclt : p.c < i := by
        rcases Nat.lt_succ_iff_lt_or_eq.mp hpc with h | h
        · exact h
        · exact absurd (hclose_unique p hp h) hpe
      have holt : p.o < i := by
        have := hoc p hp
        omega
      have hone : p.o ≠ top := by
        intro he
        exact hpe (pairs_same_o hPw hoc hp hp0 (by rw [he, htop]))
      have hcne : p.c ≠ top := by
        intro he
        have hs1 := (hm p hp).2.2.2.2.2.2.1
        have hs2 := (hm p0 hp0).2.2.1
        rw [he, htop, hs2] at hs1
        cases hs1
      have h := hinv.hcp p hp hclt
      rw [nth_modifyLine_ne _ (fun e => hone e.symm),
        nth_modifyLine_ne _ (fun e => (show p.o ≠ i by omega) e.symm),
        nth_modifyLine_ne _ (fun e => hcne e.symm),
        nth_modifyLine_ne _ (fun e => (show p.c ≠ i by omega) e.symm),
        (linkDoc2_core s i p.o).2, (linkDoc2_core s i p.c).2]
      exact h
  · intro r hro
    have h1 := (hro p0 hp0).1
    have h2 := (hro p0 hp0).2
    rw [nth_modifyLine_ne _ (fun e => (show r ≠ top by rw [htop]; exact h1) e.symm),
      nth_modifyLine_ne _ (fun e => (show r ≠ i by rw [hp0c]; exact h2) e.symm),
      (linkDoc2_core s i r).2]
    exact hinv.hcpu r hro

theorem LinkInv.advanceRow {R : List Line} {P : List FoldPair} {i : Nat} {s : LinkState}
    (hm : ∀ p ∈ P, pairMatches R p) (hPw : P.Pairwise pairRel)
    (hGchar : ∀ r, (nth R r).fold.valid = true → ∃ p ∈ P, r = p.o ∨ r = p.c)
    (hinv : LinkInv R P i s) (hi : i < R.length) :
    LinkInv R P (i + 1) (linkStep s i) := by
  by_cases hval : (nth R i).fold.valid = true
  · by_cases hside : (nth R i).fold.side = true
    · exact hinv.step_close hm hPw hGchar hi hval hside
    · have hsf : (nth R i).fold.side = false := by
        revert hside
        cases (nth R i).fold.side <;> simp
      exact hinv.step_open hm hPw hGchar hi hval hsf
  · have hvf : (nth R i).fold.valid = false := by
      revert hval
      cases (nth R i).fold.valid <;> simp
    exact hinv.step_other hm hi hvf

/-- The Link invariant holds initially, for any pair list. -/
theorem LinkInv.start (R : List Line) (P : List FoldPair) :
    LinkInv R P 0 (initLinkState R) := by
  refine ⟨rfl, fun r => sameCore_refl _, fun r _ => rfl, ?_, ?_, List.Pairwise.nil,
    rfl, ?_, ?_, ?_, ?_, fun r _ => rfl, ?_, ?_, ?_, ?_, rfl⟩
  · intro r hr
    cases hr
  · intro p hp h
    exact absurd h.1 (Nat.not_lt_zero _)
  · simp [initLinkState, countVisibleBefore]
  · intro r hr
    omega
  · intro r hr
    omega
  · intro p hp h
    omega
  · intro r hr
    omega
  · intro r hr
    cases hr
  · intro r
    constructor
    · intro h
      cases h
    · rintro ⟨h1, _, _⟩
      omega
  · intro r hr
    omega

/-- The Link invariant holds after the whole `LinkFolds` loop. -/
theorem linkInv_final {R : List Line} {P : List FoldPair}
    (hm : ∀ p ∈ P, pairMatches R p) (hPw : P.Pairwise pairRel)
    (hGchar : ∀ r, (nth R r).fold.valid = true → ∃ p ∈ P, r = p.o ∨ r = p.c) :
    LinkInv R P R.length (linkFolds R) := by
  unfold linkFolds
  rw [List.range_eq_range']
  have := foldl_range'_inv linkStep (fun i s => LinkInv R P i s) R.length 0
    (initLinkState R) (LinkInv.start R P)
    (fun i t _ h2 ht => ht.advanceRow hm hPw hGchar (by omega))
  simpa using this

theorem length_repairPass (doc : List Line) :
    (repairPass doc).1.length = doc.length := by
  obtain ⟨P, inv⟩ := scanInv_final doc
  show (fixFolds (readFromExtradata doc) (readMaxId doc)).1.length = doc.length
  rw [fixFolds]
  rw [length_foldl_modify, inv.hlen, length_readFromExtradata]

/-- The Link invariant at the end of `LinkFolds` run on the Repair
output, together with the ghost pair structure of that output. -/
theorem link_repaired (doc : List Line) :
    ∃ P : List FoldPair,
      (∀ p ∈ P, pairMatches (repairPass doc).1 p ∧ p.c < doc.length) ∧
      P.Pairwise pairRel ∧
      (∀ r, (nth (repairPass doc).1 r).fold.valid = true →
        ∃ p ∈ P, r = p.o ∨ r = p.c) ∧
      LinkInv (repairPass doc).1 P (repairPass doc).1.length
        (linkFolds (repairPass doc).1) := by
  obtain ⟨P, hPm, hPw, hchar⟩ := repair_structure doc
  exact ⟨P, hPm, hPw, hchar, linkInv_final (fun p hp => (hPm p hp).1) hPw hchar⟩

theorem countVisibleBefore_mono (d : List Line) {r r' : Nat} (h : r ≤ r') :
    countVisibleBefore d r ≤ countVisibleBefore d r' := by
  induction r' with
  | zero =>
      have hr : r = 0 := by omega
      rw [hr]
  | succ n ih =>
      by_cases hr : r ≤ n
      · refine le_trans (ih hr) ?_
        rw [countVisibleBefore_succ]
        omega
      · have hr2 : r = n + 1 := by omega
        rw [hr2]

theorem countVisibleBefore_const_of_hidden (d : List Line) {r v : Nat} (hrv : r ≤ v)
    (h : ∀ u, r ≤ u → u < v → (nth d u).fold.visible = false) :
    countVisibleBefore d v = countVisibleBefore d r := by
  induction v with
  | zero =>
      have hr : r = 0 := by omega
      rw [hr]
  | succ n ih =>
      by_cases hr : r ≤ n
      · rw [countVisibleBefore_succ, ih hr (fun u h1 h2 => h u h1 (by omega)),
          h n hr (by omega)]
        simp
      · have hr2 : r = n + 1 := by omega
        rw [hr2]

/-- Characterisation of `hasCollapsedAncestor` on a document whose
`parent` pointers follow the innermost-enclosing-fold structure of a
well-nested pair list `P`. -/
theorem hasCollapsedAncestor_iff {D : List Line} {P : List FoldPair}
    (hoc : ∀ p ∈ P, p.o < p.c) (hPw : P.Pairwise pairRel)
    (hcolm : ∀ p ∈ P, (nth D p.o).fold.collapsed = p.col)
    (hpar : ∀ r : Nat,
      ((nth D r).fold.parent = none ∧ ∀ p ∈ P, ¬ openAt p r) ∨
      (∃ p ∈ P, openAt p r ∧ (nth D r).fold.parent = some p.o ∧
        ∀ q ∈ P, openAt q r → q.o ≤ p.o)) :
    ∀ fuel r, r ≤ fuel → (hasCollapsedAncestor D fuel r = true ↔
      ∃ p ∈ P, openAt p r ∧ p.col = true) := by
  intro fuel
  induction fuel with
  | zero =>
      intro r hr
      have hr0 : r = 0 := by omega
      subst hr0
      show false = true ↔ _
      simp only [Bool.false_eq_true, false_iff]
      rintro ⟨p, hp, hopen, _⟩
      exact absurd hopen.1 (Nat.not_lt_zero _)
  | succ fuel ih =>
      intro r hr
      rw [hasCollapsedAncestor]
      rcases hpar r with ⟨hn, hno⟩ | ⟨p, hp, hopen, hpp, hmax⟩
      · rw [hn]
        show false = true ↔ _
        simp only [Bool.false_eq_true, false_iff]
        rintro ⟨q, hq, hqopen, _⟩
        exact hno q hq hqopen
      · rw [hpp]
        show ((nth D p.o).fold.collapsed || hasCollapsedAncestor D fuel p.o) = true ↔ _
        rw [Bool.or_eq_true, hcolm p hp]
        have hpo_lt : p.o < r := hopen.1
        rw [ih p.o (by omega)]
        constructor
        · rintro (hc | ⟨q, hq, hqo, hqc⟩)
          · exact ⟨p, hp, hopen, hc⟩
          · refine ⟨q, hq, ?_, hqc⟩
            by_cases hpq : p = q
            · subst hpq
              exact absurd hqo.1 (lt_irrefl _)
            · have hrel := hPw.forall (fun a b h => pairRel_symm h) hp hq hpq
              have h1 := hqo.1
              have h2 := hqo.2
              have h3 := hopen.1
              have h4 := hopen.2
              have h5 := hoc p hp
              have h6 := hoc q hq
              unfold openAt
              rcases hrel.2 with h | h | h | h <;> omega
        · rintro ⟨q, hq, hqopen, hqc⟩
          by_cases hpq : q = p
          · subst hpq
            exact Or.inl hqc
          · right
            refine ⟨q, hq, ?_, hqc⟩
            have hqop : q.o ≤ p.o := hmax q hq hqopen
            have hne : q.o ≠ p.o := fun he => hpq (pairs_same_o hPw hoc hq hp he)
            have h1 := hqopen.1
            have h2 := hqopen.2
            have h3 := hopen.1
            have h4 := hopen.2
            unfold openAt
            omega

/-- C9: on the output of the Repair pass, the Link pass never reads the
open-fold stack while it is empty (the model counts such events in
`emptyPops`), pops precisely at matching closers so that the pass ends
with an empty stack, and links every valid Fold's two rows to each other
through `counterpart`. -/
theorem link_pass_stack_safe (doc : List Line) :
    (linkFolds (repairPass doc).1).emptyPops = 0 ∧
    (linkFolds (repairPass doc).1).stack = [] ∧
    (∀ o c, ValidFold (repairPass doc).1 o c →
      (nth (linkFolds (repairPass doc).1).doc o).fold.counterpart = some c ∧
      (nth (linkFolds (repairPass doc).1).doc c).fold.counterpart = some o) := by
  obtain ⟨P, hPm, hPw, hchar, inv⟩ := link_repaired doc
  have hlenR := length_repairPass doc
  refine ⟨inv.hep, ?_, ?_⟩
  · cases hs : (linkFolds (repairPass doc).1).stack with
    | nil => rfl
    | cons a l =>
        exfalso
        have ha : a ∈ (linkFolds (repairPass doc).1).stack := by
          rw [hs]
          exact List.mem_cons_self _ _
        obtain ⟨p, hp, hpo, hopen⟩ := inv.hstk_mem a ha
        have h2 := hopen.2
        have h3 := (hPm p hp).2
        omega
  · intro o c hf
    obtain ⟨hop, hcl⟩ := valid_row_to_pair hPm hchar
    obtain ⟨p, hp, rfl⟩ := hop o hf.2.1
    obtain ⟨q, hq, rfl⟩ := hcl c hf.2.2.1
    have hpq : p = q := by
      refine repair_pairs_unique hPw hp hq ?_
      have h1 := (hPm p hp).1.2.2.2.1
      have h2 := (hPm q hq).1.2.2.2.2.2.2.2.1
      rw [← h1, ← h2]
      exact hf.2.2.2
    subst hpq
    exact inv.hcp p hp (by have := (hPm p hp).2; omega)

/-- C8: after the Link pass on repaired input, a row is visible exactly
when no fold reachable through `parent` pointers is collapsed, and over
the visible rows `visibleRow` counts the visible rows before each (so it
starts at 0 and increases by exactly 1 from one visible row to the next,
and is strictly increasing over visible rows). -/
theorem link_visibility_consistent (doc : List Line) :
    ∀ r, r < doc.length →
      (((nth (linkFolds (repairPass doc).1).doc r).fold.visible = true ↔
        hasCollapsedAncestor (linkFolds (repairPass doc).1).doc r r = false) ∧
      ((nth (linkFolds (repairPass doc).1).doc r).fold.visible = true →
        (nth (linkFolds (repairPass doc).1).doc r).fold.visibleRow =
          (countVisibleBefore (linkFolds (repairPass doc).1).doc r : Int)) ∧
      (∀ r', r < r' → r' < doc.length →
        (nth (linkFolds (repairPass doc).1).doc r).fold.visible = true →
        (nth (linkFolds (repairPass doc).1).doc r').fold.visible = true →
        (nth (linkFolds (repairPass doc).1).doc r).fold.visibleRow <
          (nth (linkFolds (repairPass doc).1).doc r').fold.visibleRow)) := by
  obtain ⟨P, hPm, hPw, hchar, inv⟩ := link_repaired doc
  have hlenR := length_repairPass doc
  set L := linkFolds (repairPass doc).1 with hLdef
  have hpar_tot : ∀ u : Nat,
      ((nth L.doc u).fold.parent = none ∧ ∀ p ∈ P, ¬ openAt p u) ∨
      (∃ p ∈ P, openAt p u ∧ (nth L.doc u).fold.parent = some p.o ∧
        ∀ q ∈ P, openAt q u → q.o ≤ p.o) := by
    intro u
    by_cases hu : u < (repairPass doc).1.length
    · exact inv.hpar u hu
    · left
      constructor
      · rw [nth_ge_length (by rw [inv.hlen]; omega)]
        rfl
      · intro p hp hopen
        have h1 := (hPm p hp).2
        have h2 := hopen.2
        omega
  have hcolm : ∀ p ∈ P, (nth L.doc p.o).fold.collapsed = p.col := by
    intro p hp
    have hc := (inv.hcore p.o).2.2.2.1
    rw [hc]
    exact (hPm p hp).1.2.2.2.2.1
  have hca := hasCollapsedAncestor_iff (fun p hp => (hPm p hp).1.1) hPw hcolm hpar_tot
  intro r hr
  have hrR : r < (repairPass doc).1.length := by omega
  have hvis := inv.hvis r hrR
  refine ⟨?_, ?_, ?_⟩
  · have hbool : (hasCollapsedAncestor L.doc r r = false) ↔
        ¬ (hasCollapsedAncestor L.doc r r = true) := by
      cases hasCollapsedAncestor L.doc r r <;> simp
    rw [hvis, hbool, hca r r le_rfl]
    constructor
    · rintro h ⟨p, hp, hopen, hcol⟩
      have h2 := h p hp hopen
      rw [h2] at hcol
      cases hcol
    · intro h p hp hopen
      cases hc : p.col
      · rfl
      · exact absurd ⟨p, hp, hopen, hc⟩ h
  · intro _
    exact inv.hvrow r hrR
  · intro r' hrr hr'len hv hv'
    have h1 := inv.hvrow r hrR
    have h2 := inv.hvrow r' (by omega)
    rw [h1, h2]
    have h3 := countVisibleBefore_succ L.doc r
    rw [hv] at h3
    simp only [if_pos] at h3
    have h4 := countVisibleBefore_mono L.doc (show r + 1 ≤ r' by omega)
    push_cast
    omega

/-- C10: after `UpdateFoldInfo` (Repair then Link), every row's
`visibleRow` equals the number of visible rows strictly before it; it is
therefore non-decreasing in the row, and a hidden row shares its value
with the next visible row after it. -/
theorem link_visibleRow_counts (doc : List Line) :
    (∀ r, r < doc.length →
      (nth (updateFoldInfo doc).1.doc r).fold.visibleRow =
        (countVisibleBefore (updateFoldInfo doc).1.doc r : Int)) ∧
    (∀ r r', r ≤ r' → r' < doc.length →
      (nth (updateFoldInfo doc).1.doc r).fold.visibleRow ≤
        (nth (updateFoldInfo doc).1.doc r').fold.visibleRow) ∧
    (∀ r v, r < v → v < doc.length →
      (nth (updateFoldInfo doc).1.doc v).fold.visible = true →
      (∀ u, r ≤ u → u < v → (nth (updateFoldInfo doc).1.doc u).fold.visible = false) →
      (nth (updateFoldInfo doc).1.doc r).fold.visibleRow =
        (nth (updateFoldInfo doc).1.doc v).fold.visibleRow) := by
  obtain ⟨P, hPm, hPw, hchar, inv⟩ := link_repaired doc
  have hlenR := length_repairPass doc
  have hU : (updateFoldInfo doc).1 = linkFolds (repairPass doc).1 := rfl
  rw [hU]
  set L := linkFolds (repairPass doc).1 with hLdef
  have hvr : ∀ r, r < doc.length →
      (nth L.doc r).fold.visibleRow = (countVisibleBefore L.doc r : Int) := by
    intro r hr
    exact inv.hvrow r (by omega)
  refine ⟨hvr, ?_, ?_⟩
  · intro r r' hrr hr'
    rw [hvr r (by omega), hvr r' hr']
    have := countVisibleBefore_mono L.doc hrr
    push_cast
    omega
  · intro r v hrv hv hvvis hhid
    rw [hvr r (by omega), hvr v hv,
      countVisibleBefore_const_of_hidden L.doc (show r ≤ v by omega) hhid]

/-- Witness for C9 on a concrete document with a nested and a disjoint
fold. -/
theorem link_pass_stack_safe_witness :
    let docW : List Line :=
      [⟨some ⟨false, false, 1⟩, FoldInfo.init⟩, ⟨some ⟨false, true, 2⟩, FoldInfo.init⟩,
       ⟨some ⟨true, true, 2⟩, FoldInfo.init⟩, ⟨some ⟨true, false, 1⟩, FoldInfo.init⟩,
       ⟨some ⟨false, false, 7⟩, FoldInfo.init⟩, ⟨some ⟨true, false, 7⟩, FoldInfo.init⟩]
    ((linkFolds (repairPass docW).1).emptyPops = 0 ∧
      (linkFolds (repairPass docW).1).stack = []) ∧
    (nth (linkFolds (repairPass docW).1).doc 0).fold.counterpart = some 3 ∧
    (nth (linkFolds (repairPass docW).1).doc 3).fold.counterpart = some 0 := by
  intro docW
  obtain ⟨h1, h2, h3⟩ := link_pass_stack_safe docW
  exact ⟨⟨h1, h2⟩, h3 0 3 ⟨by decide, ⟨by decide, by decide⟩, ⟨by decide, by decide⟩,
    by decide⟩⟩

/-- Witness for C8 on a concrete document: the closer row of the
collapsed fold is hidden with a collapsed ancestor, visible rows carry
their visible-predecessor count and `visibleRow` grows strictly over
visible rows. -/
theorem link_visibility_consistent_witness :
    let docW : List Line :=
      [⟨some ⟨false, false, 1⟩, FoldInfo.init⟩, ⟨some ⟨false, true, 2⟩, FoldInfo.init⟩,
       ⟨some ⟨true, true, 2⟩, FoldInfo.init⟩, ⟨some ⟨true, false, 1⟩, FoldInfo.init⟩,
       ⟨some ⟨false, false, 7⟩, FoldInfo.init⟩, ⟨some ⟨true, false, 7⟩, FoldInfo.init⟩]
    ((nth (linkFolds (repairPass docW).1).doc 2).fold.visible = true ↔
      hasCollapsedAncestor (linkFolds (repairPass docW).1).doc 2 2 = false) ∧
    (nth (linkFolds (repairPass docW).1).doc 1).fold.visibleRow =
      (countVisibleBefore (linkFolds (repairPass docW).1).doc 1 : Int) ∧
    (nth (linkFolds (repairPass docW).1).doc 1).fold.visibleRow <
      (nth (linkFolds (repairPass docW).1).doc 3).fold.visibleRow := by
  intro docW
  exact ⟨(link_visibility_consistent docW 2 (by decide)).1,
    (link_visibility_consistent docW 1 (by decide)).2.1 (by decide),
    (link_visibility_consistent docW 1 (by decide)).2.2 3 (by decide) (by decide)
      (by decide) (by decide)⟩

/-- Witness for C10 on a concrete document: the count law at a visible
row, monotonicity across rows, and a hidden row sharing its
`visibleRow` with the next visible row. -/
theorem link_visibleRow_counts_witness :
    let docW : List Line :=
      [⟨some ⟨false, false, 1⟩, FoldInfo.init⟩, ⟨some ⟨false, true, 2⟩, FoldInfo.init⟩,
       ⟨some ⟨true, true, 2⟩, FoldInfo.init⟩, ⟨some ⟨true, false, 1⟩, FoldInfo.init⟩,
       ⟨some ⟨false, false, 7⟩, FoldInfo.init⟩, ⟨some ⟨true, false, 7⟩, FoldInfo.init⟩]
    (nth (updateFoldInfo docW).1.doc 3).fold.visibleRow =
      (countVisibleBefore (updateFoldInfo docW).1.doc 3 : Int) ∧
    (nth (updateFoldInfo docW).1.doc 1).fold.visibleRow ≤
      (nth (updateFoldInfo docW).1.doc 4).fold.visibleRow ∧
    (nth (updateFoldInfo docW).1.doc 2).fold.visibleRow =
      (nth (updateFoldInfo docW).1.doc 3).fold.visibleRow := by
  intro docW
  exact ⟨(link_visibleRow_counts docW).1 3 (by decide),
    (link_visibleRow_counts docW).2.1 1 4 (by decide) (by decide),
    (link_visibleRow_counts docW).2.2 2 3 (by decide) (by decide) (by decide)
      (by intro u h1 h2; interval_cases u; decide)⟩

theorem nth_eq_getElem {doc : List Line} {i : Nat} (h : i < doc.length) :
    nth doc i = doc[i] := by
  simp [nth, List.getD_eq_getElem?_getD, List.getElem?_eq_getElem h]

theorem modifyLine_same {doc : List Line} {i : Nat} {f : Line → Line}
    (h : f (nth doc i) = nth doc i) : modifyLine doc i f = doc := by
  unfold modifyLine
  rw [h]
  by_cases hi : i < doc.length
  · refine List.ext_getElem (List.length_set ..) ?_
    intro j hj hj2
    by_cases hij : j = i
    · subst hij
      rw [List.getElem_set_self]
      exact nth_eq_getElem hj2
    · rw [List.getElem_set_ne (fun e => hij e.symm)]
  · exact List.set_eq_of_length_le (by omega)

theorem lineSync_readLine (l : Line) : lineSync (readLine l) := by
  unfold lineSync readLine
  cases hx : l.extra with
  | some d => simp
  | none => simp

theorem lineSync_update {l : Line}
    (h : l.fold.extraExists = false → l.fold.valid = false) :
    lineSync (updateLineExtradata l) := by
  unfold lineSync updateLineExtradata
  by_cases he : l.fold.extraExists = true
  · simp [he]
  · have hf : l.fold.extraExists = false := by
      revert he
      cases l.fold.extraExists <;> simp
    simp [hf, h hf]

theorem lineSync_invalidate {l : Line} (hs : lineSync l) :
    lineSync (invalidateLineFold l) := by
  simp only [invalidateLineFold]
  split
  · exact lineSync_update (by intro _; rfl)
  · obtain ⟨h1, h2, h3⟩ := hs
    refine ⟨?_, ?_, ?_⟩
    · intro d hd
      exact ⟨(h1 d hd).1, by intro h; cases h⟩
    · intro hn
      exact ⟨(h2 hn).1, rfl⟩
    · intro h
      cases h

theorem lineSync_default : lineSync (⟨none, FoldInfo.init⟩ : Line) := by
  unfold lineSync
  refine ⟨?_, ?_, ?_⟩
  · intro d hd
    cases hd
  · intro _
    exact ⟨rfl, rfl⟩
  · intro h
    cases h

theorem modifyLine_oob {doc : List Line} {i : Nat} (h : doc.length ≤ i)
    (f : Line → Line) : modifyLine doc i f = doc :=
  List.set_eq_of_length_le h

theorem sync_modify {d : List Line} {i : Nat} {f : Line → Line}
    (hd : ∀ r, lineSync (nth d r)) (hf : lineSync (f (nth d i))) :
    ∀ r, lineSync (nth (modifyLine d i f) r) := by
  intro r
  rcases nth_modifyLine d i f r with h | ⟨rfl, h⟩
  · rw [h]
    exact hd r
  · rw [h]
    exact hf

theorem sync_foldl_invalidate {rs : List Nat} {d : List Line}
    (hd : ∀ r, lineSync (nth d r)) :
    ∀ r, lineSync (nth (rs.foldl (fun d r => modifyLine d r invalidateLineFold) d) r) := by
  induction rs generalizing d with
  | nil => exact hd
  | cons a rs ih =>
      rw [List.foldl_cons]
      exact ih (sync_modify hd (lineSync_invalidate (hd a)))

theorem lineSync_invalidate_id {l : Line} (hs : lineSync l) (id2 : Int) :
    lineSync (invalidateLineFold { l with fold := { l.fold with id := id2 } }) := by
  simp only [invalidateLineFold]
  split
  · exact lineSync_update (fun _ => rfl)
  · obtain ⟨h1, h2, h3⟩ := hs
    refine ⟨?_, ?_, ?_⟩
    · intro d hd
      refine ⟨(h1 d hd).1, ?_⟩
      intro h
      cases h
    · intro hn
      exact ⟨(h2 hn).1, rfl⟩
    · intro h
      cases h

theorem lineSync_update_of_sync {l : Line} (hs : lineSync l) :
    lineSync (updateLineExtradata l) := by
  refine lineSync_update ?_
  intro hf
  cases hv : l.fold.valid with
  | false => rfl
  | true =>
      have := hs.2.2 hv
      rw [hf] at this
      cases this

theorem sync_write_update {d : List Line} {i : Nat} {W : Line} {u : Bool}
    (hd : ∀ r, lineSync (nth d r))
    (hWs : u = false → lineSync W)
    (hWx : W.fold.extraExists = false → W.fold.valid = false) :
    ∀ r, lineSync (nth (if u then modifyLine (modifyLine d i fun _ => W) i
      updateLineExtradata else modifyLine d i fun _ => W) r) := by
  by_cases hib : i < d.length
  · by_cases hu : u = true
    · rw [if_pos hu]
      intro r
      by_cases hri : r = i
      · subst hri
        rw [nth_modifyLine_self _ (by rw [length_modifyLine]; exact hib),
          nth_modifyLine_self _ hib]
        exact lineSync_update hWx
      · rw [nth_modifyLine_ne _ (fun e => hri e.symm),
          nth_modifyLine_ne _ (fun e => hri e.symm)]
        exact hd r
    · rw [if_neg hu]
      intro r
      by_cases hri : r = i
      · subst hri
        rw [nth_modifyLine_self _ hib]
        exact hWs (by revert hu; cases u <;> simp)
      · rw [nth_modifyLine_ne _ (fun e => hri e.symm)]
        exact hd r
  · have hob : d.length ≤ i := by omega
    by_cases hu : u = true
    · rw [if_pos hu, modifyLine_oob (by rw [length_modifyLine]; exact hob) _,
        modifyLine_oob hob _]
      exact hd
    · rw [if_neg hu, modifyLine_oob hob _]
      exact hd

theorem fixBranch_doc_shape (s : FixState) (i : Nat) (id2 maxId2 : Int)
    (remap2 : List (Int × Int)) (u2 : Bool) :
    ∃ (d0 : List Line) (W : Line) (u : Bool),
      (fixBranch s i id2 maxId2 remap2 u2).doc =
        (if u then modifyLine (modifyLine d0 i fun _ => W) i updateLineExtradata
         else modifyLine d0 i fun _ => W) ∧
      (d0 = s.doc ∨ ∃ rs : List Nat,
        d0 = rs.foldl (fun d r => modifyLine d r invalidateLineFold) s.doc) ∧
      (W = invalidateLineFold
          { nth s.doc i with fold := { (nth s.doc i).fold with id := id2 } } ∨
       (W = { nth s.doc i with fold := { (nth s.doc i).fold with id := id2 } } ∧
         (u = false → u2 = false)) ∨
       (∃ c : Bool, W = { nth s.doc i with fold :=
           { (nth s.doc i).fold with id := id2, collapsed := c } } ∧
         (u = false → u2 = false ∧ c = (nth s.doc i).fold.collapsed))) := by
  simp only [fixBranch]
  by_cases hside : (nth s.doc i).fold.side = false
  · rw [if_pos hside]
    by_cases hlk : (List.lookup id2 s.heads).isSome = true
    · rw [if_pos hlk]
      exact ⟨s.doc, _, u2, rfl, Or.inl rfl, Or.inl rfl⟩
    · rw [if_neg hlk]
      exact ⟨s.doc, _, u2, rfl, Or.inl rfl, Or.inr (Or.inl ⟨rfl, fun h => h⟩)⟩
  · rw [if_neg hside]
    by_cases hlk2 : (List.lookup id2 s.heads).isSome = false
    · rw [if_pos hlk2]
      exact ⟨s.doc, _, u2, rfl, Or.inl rfl, Or.inl rfl⟩
    · rw [if_neg hlk2]
      rcases hfi : s.stack.findIdx? (fun r => (nth s.doc r).fold.id == id2) with _ | k
      · exact ⟨s.doc, _, u2, rfl, Or.inl rfl, Or.inl rfl⟩
      · refine ⟨(s.stack.take k).foldl (fun d r => modifyLine d r invalidateLineFold) s.doc,
          _, _, rfl, Or.inr ⟨s.stack.take k, rfl⟩, Or.inr (Or.inr ⟨_, rfl, ?_⟩)⟩
        intro h3
        rw [Bool.or_eq_false_iff] at h3
        refine ⟨h3.1, ?_⟩
        have hb := h3.2
        rw [bne_eq_false_iff_eq] at hb
        exact hb.symm

theorem applyRemap_no_lookup {remap : List (Int × Int)} {v : Int}
    (h : List.lookup v remap = none) : ∀ fuel, applyRemap remap fuel v = v := by
  intro fuel
  cases fuel with
  | zero => rfl
  | succ n => simp [applyRemap, h]

theorem sync_fixStep {s : FixState} (i : Nat) (hd : ∀ r, lineSync (nth s.doc r)) :
    ∀ r, lineSync (nth (fixStep s i).doc r) := by
  by_cases hex : (nth s.doc i).fold.extraExists = true
  · rw [fixStep_eq_fixBranch s i hex]
    set A := applyRemap s.remap s.remap.length (nth s.doc i).fold.id with hA
    set hit := s.completed.contains A with hhit
    set u1 := (List.lookup (nth s.doc i).fold.id s.remap).isSome with hu1
    obtain ⟨d0, W, u, heq, hd0, hW⟩ := fixBranch_doc_shape s i
      (if hit then s.maxId + 1 else A)
      (if hit then s.maxId + 1 else s.maxId)
      (if hit then (A, s.maxId + 1) :: s.remap else s.remap)
      (u1 || hit)
    have hu : (u1 || hit) = false →
        (if hit then s.maxId + 1 else A) = (nth s.doc i).fold.id := by
      intro h
      rw [Bool.or_eq_false_iff] at h
      rw [if_neg (by rw [h.2]; exact Bool.false_ne_true)]
      rw [hA]
      cases hlk : List.lookup (nth s.doc i).fold.id s.remap with
      | none => exact applyRemap_no_lookup hlk _
      | some w =>
          exfalso
          have h1 := h.1
          rw [hu1, hlk] at h1
          cases h1
    intro r
    rw [heq]
    have hd0s : ∀ r, lineSync (nth d0 r) := by
      rcases hd0 with rfl | ⟨rs, rfl⟩
      · exact hd
      · exact sync_foldl_invalidate hd
    refine sync_write_update hd0s ?_ ?_ r
    · intro hufalse
      rcases hW with rfl | ⟨rfl, himp⟩ | ⟨c, rfl, himp⟩
      · exact lineSync_invalidate_id (hd i) _
      · have h3 := hu (himp hufalse)
        rw [h3]
        exact hd i
      · obtain ⟨h2, h4⟩ := himp hufalse
        have h3 := hu h2
        rw [h3, h4]
        exact hd i
    · rcases hW with rfl | ⟨rfl, _⟩ | ⟨c, rfl, _⟩
      · intro _
        exact valid_invalidateLineFold _
      · intro hf
        have hf2 : (nth s.doc i).fold.extraExists = false := hf
        rw [hex] at hf2
        cases hf2
      · intro hf
        have hf2 : (nth s.doc i).fold.extraExists = false := hf
        rw [hex] at hf2
        cases hf2
  · have hex2 : (nth s.doc i).fold.extraExists = false := by
      revert hex
      cases (nth s.doc i).fold.extraExists <;> simp
    rw [fixStep_nonmarker s i hex2]
    exact hd

/-- Every line of the Repair output satisfies the extradata/field
agreement `lineSync`. -/
theorem sync_repairPass (doc : List Line) :
    ∀ r, lineSync (nth (repairPass doc).1 r) := by
  have hinit : ∀ r, lineSync (nth (readFromExtradata doc) r) := by
    intro r
    by_cases hr : r < doc.length
    · rw [nth_readFromExtradata hr]
      exact lineSync_readLine _
    · rw [nth_ge_length (by rw [length_readFromExtradata]; omega)]
      exact lineSync_default
  have hscan : ∀ r, lineSync (nth (fixScan (readFromExtradata doc) (readMaxId doc)).doc r) := by
    unfold fixScan
    rw [List.range_eq_range']
    have := foldl_range'_inv fixStep (fun _ s => ∀ r, lineSync (nth s.doc r))
      (readFromExtradata doc).length 0
      (initFixState (readFromExtradata doc) (readMaxId doc))
      hinit
      (fun i t _ _ ht => sync_fixStep i ht)
    simpa using this
  show ∀ r, lineSync (nth (fixFolds (readFromExtradata doc) (readMaxId doc)).1 r)
  rw [fixFolds]
  exact sync_foldl_invalidate hscan

theorem lineSync_of_sameCore {a b : Line} (h : sameCore a b) (hs : lineSync b) :
    lineSync a := by
  obtain ⟨he, hv, hsd, hc, hid, hx, hic⟩ := h
  obtain ⟨h1, h2, h3⟩ := hs
  refine ⟨?_, ?_, ?_⟩
  · intro d hd
    rw [he] at hd
    have hb := h1 d hd
    rw [hx, hv, hsd, hc, hid]
    exact hb
  · intro hn
    rw [he] at hn
    rw [hx, hv]
    exact h2 hn
  · intro hvv
    rw [hv] at hvv
    rw [hx]
    exact h3 hvv

theorem linkStep_core (s : LinkState) (i : Nat) :
    ∀ r, sameCore (nth (linkStep s i).doc r) (nth s.doc r) := by
  intro r
  simp only [linkStep]
  repeat' split
  all_goals
    first
    | exact (linkDoc2_core s i r).1
    | exact sameCore_trans (nth_cpWrite _ _ _ r).1
        (sameCore_trans (nth_cpWrite _ _ _ r).1 (linkDoc2_core s i r).1)

theorem linkFolds_core (D : List Line) :
    ∀ r, sameCore (nth (linkFolds D).doc r) (nth D r) := by
  unfold linkFolds
  rw [List.range_eq_range']
  have := foldl_range'_inv linkStep (fun _ s => ∀ r, sameCore (nth s.doc r) (nth D r))
    D.length 0 (initLinkState D) (fun r => sameCore_refl _)
    (fun i t _ _ ht r => sameCore_trans (linkStep_core t i r) (ht r))
  simpa using this

theorem readLine_eq_self {l : Line} (hs : lineSync l)
    (hvx : l.fold.extraExists = true → l.fold.valid = true) :
    readLine l = l := by
  obtain ⟨e, f⟩ := l
  obtain ⟨fx, fv, fid, fc, fs2, fvs, fcp, fp, fnv, fic, fvr⟩ := f
  obtain ⟨h1, h2, h3⟩ := hs
  cases e with
  | some d =>
      obtain ⟨hex, hfields⟩ := h1 d rfl
      have hv := hvx hex
      obtain ⟨hsd, hc, hid⟩ := hfields hv
      simp only [readLine]
      simp_all
  | none =>
      obtain ⟨hex, hv⟩ := h2 rfl
      simp only [readLine]
      simp_all

theorem readFromExtradata_eq_self {D : List Line}
    (hs : ∀ r, lineSync (nth D r))
    (hvx : ∀ r, (nth D r).fold.extraExists = true → (nth D r).fold.valid = true) :
    readFromExtradata D = D := by
  unfold readFromExtradata
  refine List.ext_getElem (by simp) ?_
  intro j hj hj2
  rw [List.getElem_map]
  have h1 : nth D j = D[j] := nth_eq_getElem hj2
  rw [← h1]
  exact readLine_eq_self (hs j) (hvx j)

theorem IdScanInv.advanceScan {D : List Line} {P : List FoldPair} {M : Int} {i : Nat}
    {s : FixState}
    (hm : ∀ p ∈ P, pairMatches D p) (hPw : P.Pairwise pairRel)
    (hchar : ∀ r, (nth D r).fold.valid = true → ∃ p ∈ P, r = p.o ∨ r = p.c)
    (hsync : ∀ r, lineSync (nth D r))
    (H : ∀ r, (nth D r).fold.extraExists = true → (nth D r).fold.valid = true)
    (hinv : IdScanInv D P M i s) :
    IdScanInv D P M (i + 1) (fixStep s i) := by
  have hoc : ∀ p ∈ P, p.o < p.c := fun p hp => (hm p hp).1
  have hdoc := hinv.hdoc
  by_cases hex : (nth D i).fold.extraExists = true
  · have hval := H i hex
    obtain ⟨p0, hp0, hp0e⟩ := hchar i hval
    have hexs : (nth s.doc i).fold.extraExists = true := by rw [hdoc]; exact hex
    rw [fixStep_eq_fixBranch s i hexs]
    have hA : applyRemap s.remap s.remap.length (nth s.doc i).fold.id =
        (nth s.doc i).fold.id := by
      rw [hinv.hremap]
      exact applyRemap_nil _ _
    have hlid : (nth s.doc i).fold.id = p0.id := by
      rw [hdoc]
      rcases hp0e with h | h
      · rw [h]
        exact (hm p0 hp0).2.2.2.1
      · rw [h]
        exact (hm p0 hp0).2.2.2.2.2.2.2.1
    have hnotc : p0.id ∉ s.completed := by
      intro hmem
      obtain ⟨q, hq, hqid, hqc⟩ := (hinv.hcomp p0.id).mp hmem
      have hqp : q = p0 := repair_pairs_unique hPw hq hp0 hqid
      subst hqp
      have h2 := hoc q hq
      rcases hp0e with h | h <;> omega
    have hA2 : applyRemap s.remap s.remap.length p0.id = p0.id := by
      rw [hinv.hremap]
      exact applyRemap_nil _ _
    have hhit : s.completed.contains p0.id = false := by
      cases hcc : s.completed.contains p0.id with
      | false => rfl
      | true => exact absurd (List.mem_of_elem_eq_true hcc) hnotc
    have hu1 : (List.lookup p0.id s.remap).isSome = false := by
      rw [hinv.hremap]
      rfl
    simp only [hlid, hA2, hhit, Bool.false_eq_true, if_false, hu1, Bool.false_or]
    rcases hp0e with hio | hic
    · -- opener at row i
      have hsd : (nth s.doc i).fold.side = false := by
        rw [hdoc, hio]
        exact (hm p0 hp0).2.2.1
      have hsdD : (nth D i).fold.side = false := by rw [← hdoc]; exact hsd
      have hlknone : List.lookup p0.id s.heads = none := by
        cases hlk : List.lookup p0.id s.heads with
        | none => rfl
        | some r =>
            exfalso
            obtain ⟨q, hq, hqid, hqo, hqlt⟩ := hinv.hheads p0.id r hlk
            have hqp : q = p0 := repair_pairs_unique hPw hq hp0 hqid
            subst hqp
            omega
      simp only [fixBranch]
      rw [if_pos hsd, if_neg (show ¬ ((List.lookup p0.id s.heads).isSome = true) by
        rw [hlknone]; simp)]
      have hl2 : ({ nth s.doc i with fold :=
          { (nth s.doc i).fold with id := p0.id } } : Line) = nth s.doc i := by
        rw [← hlid]
      have hopen_new : ∀ p ∈ P, (openAt p (i + 1) ↔ p = p0 ∨ openAt p i) := by
        intro p hp
        rw [openAt_succ (hoc p hp)]
        constructor
        · rintro (h | ⟨ho, _⟩)
          · exact Or.inl (pairs_same_o hPw hoc hp hp0 (by rw [h, hio]))
          · exact Or.inr ho
        · rintro (rfl | ho)
          · exact Or.inl hio.symm
          · refine Or.inr ⟨ho, ?_⟩
            intro hpc
            have hs2 := (hm p hp).2.2.2.2.2.2.1
            rw [hpc, hsdD] at hs2
            cases hs2
      refine ⟨?_, hinv.hmax, hinv.hremap, ?_, ?_, ?_, ?_, ?_, ?_⟩
      · simp only [Bool.false_eq_true, if_false]
        have hdoc3 : modifyLine s.doc i (fun _ =>
            { nth s.doc i with fold := { (nth s.doc i).fold with id := p0.id } }) =
            s.doc := by
          apply modifyLine_same
          exact hl2
        rw [hdoc3]
        exact hdoc
      · intro v
        rw [hinv.hcomp v]
        constructor
        · rintro ⟨p, hp, h1, h2⟩
          exact ⟨p, hp, h1, by omega⟩
        · rintro ⟨p, hp, h1, h2⟩
          refine ⟨p, hp, h1, ?_⟩
          by_cases hpc : p.c = i
          · exfalso
            have hs2 := (hm p hp).2.2.2.2.2.2.1
            rw [hpc, hsdD] at hs2
            cases hs2
          · omega
      · intro r hr
        rcases List.mem_cons.mp hr with rfl | hr
        · exact ⟨p0, hp0, hio.symm, (hopen_new p0 hp0).mpr (Or.inl rfl)⟩
        · obtain ⟨p, hp, h1, h2⟩ := hinv.hstk_mem r hr
          exact ⟨p, hp, h1, (hopen_new p hp).mpr (Or.inr h2)⟩
      · intro p hp ho
        rcases (hopen_new p hp).mp ho with rfl | ho
        · rw [← hio]
          exact List.mem_cons_self _ _
        · exact List.mem_cons_of_mem _ (hinv.hstk_full p hp ho)
      · refine List.pairwise_cons.mpr ⟨?_, hinv.hstk_sort⟩
        intro r hr
        obtain ⟨p, hp, h1, h2⟩ := hinv.hstk_mem r hr
        have := h2.1
        omega
      · intro v r hlk
        rw [List.lookup_cons] at hlk
        split at hlk
        · rename_i hbe
          have hri : i = r := by injection hlk
          subst hri
          exact ⟨p0, hp0, (eq_of_beq hbe).symm, hio.symm, by omega⟩
        · obtain ⟨q, hq, h1, h2, h3⟩ := hinv.hheads v r hlk
          exact ⟨q, hq, h1, h2, by omega⟩
      · intro p hp hpo
        rw [List.lookup_cons]
        by_cases hpe : p = p0
        · subst hpe
          have hbe : (p.id == p.id) = true := beq_self_eq_true _
          split
          · show some i = some p.o
            rw [hio]
          · rename_i hbf
            rw [hbe] at hbf
            cases hbf
        · have hidne : p.id ≠ p0.id := fun he => hpe (repair_pairs_unique hPw hp hp0 he)
          have hone : p.o ≠ i := by
            intro he
            exact hpe (pairs_same_o hPw hoc hp hp0 (by rw [he, hio]))
          split
          · rename_i hbt
            exact absurd (eq_of_beq hbt) hidne
          · exact hinv.hheads_full p hp (by omega)
    · -- closer at row i
      have hsdT : (nth s.doc i).fold.side = true := by
        rw [hdoc, hic]
        exact (hm p0 hp0).2.2.2.2.2.2.1
      have hsdD : (nth D i).fold.side = true := by rw [← hdoc]; exact hsdT
      have hp0open : openAt p0 i := by
        unfold openAt
        have := hoc p0 hp0
        omega
      have hp0mem : p0.o ∈ s.stack := hinv.hstk_full p0 hp0 hp0open
      obtain ⟨top, rest, hstk⟩ : ∃ top rest, s.stack = top :: rest := by
        cases hs2 : s.stack with
        | nil =>
            rw [hs2] at hp0mem
            cases hp0mem
        | cons a l => exact ⟨a, l, rfl⟩
      have htop : top = p0.o := by
        by_contra hne
        obtain ⟨q, hq, hqo, hqopen⟩ := hinv.hstk_mem top
          (by rw [hstk]; exact List.mem_cons_self _ _)
        have hqne : q ≠ p0 := fun he => hne (by rw [← hqo, he])
        have hrel := hPw.forall (fun a b h => pairRel_symm h) hq hp0 hqne
        have hmax2 := head_max_of_sorted hinv.hstk_sort (by rw [hstk]; rfl) p0.o hp0mem
        have h1 := hqopen.1
        have h2 := hqopen.2
        have h3 := hoc q hq
        have h4 := hoc p0 hp0
        rcases hrel.2 with h | h | h | h <;> omega
      have hlksome : List.lookup p0.id s.heads = some p0.o :=
        hinv.hheads_full p0 hp0 (by have := hoc p0 hp0; omega)
      simp only [fixBranch]
      rw [if_neg (show ¬ (nth s.doc i).fold.side = false by rw [hsdT]; simp),
        if_neg (show ¬ (List.lookup p0.id s.heads).isSome = false by
          rw [hlksome]; simp),
        hstk]
      have hpred : ((nth s.doc top).fold.id == p0.id) = true := by
        rw [htop, hdoc, (hm p0 hp0).2.2.2.1]
        exact beq_self_eq_true _
      rw [List.findIdx?_cons, if_pos hpred]
      simp only [List.take_zero, List.foldl_nil, List.map_nil, List.nil_append,
        List.getD_cons_zero, List.drop_succ_cons, List.drop_zero]
      have hocol : (nth s.doc top).fold.collapsed = (nth s.doc i).fold.collapsed := by
        rw [htop, hdoc, hic, (hm p0 hp0).2.2.2.2.1, (hm p0 hp0).2.2.2.2.2.2.2.2]
      rw [hocol]
      simp only [bne_self_eq_false, Bool.or_self, Bool.false_eq_true, if_false]
      have hl3 : ({ { nth s.doc i with fold := { (nth s.doc i).fold with id := p0.id } }
          with fold := { { (nth s.doc i).fold with id := p0.id } with
            collapsed := (nth s.doc i).fold.collapsed } } : Line) = nth s.doc i := by
        rw [← hlid]
      have htopnrest : top ∉ rest := by
        intro hmem
        have hps := hinv.hstk_sort
        rw [hstk] at hps
        exact absurd ((List.pairwise_cons.mp hps).1 top hmem) (lt_irrefl _)
      have hclose_unique : ∀ p ∈ P, p.c = i → p = p0 := fun p hp hpc =>
        pairs_same_c hPw hoc hp hp0 (by rw [hpc, hic])
      have hopen_new : ∀ p ∈ P, (openAt p (i + 1) ↔ (openAt p i ∧ p ≠ p0)) := by
        intro p hp
        rw [openAt_succ (hoc p hp)]
        constructor
        · rintro (h | ⟨ho, hcne⟩)
          · exfalso
            have hs2 := (hm p hp).2.2.1
            rw [h, hsdD] at hs2
            cases hs2
          · refine ⟨ho, ?_⟩
            rintro rfl
            exact hcne hic.symm
        · rintro ⟨ho, hne⟩
          exact Or.inr ⟨ho, fun hpc => hne (hclose_unique p hp hpc)⟩
      refine ⟨?_, hinv.hmax, hinv.hremap, ?_, ?_, ?_, ?_, ?_, ?_⟩
      · rw [modifyLine_same hl3]
        exact hdoc
      · intro v
        constructor
        · intro hv
          rcases List.mem_cons.mp hv with rfl | hv
          · exact ⟨p0, hp0, rfl, by omega⟩
          · obtain ⟨p, hp, h1, h2⟩ := (hinv.hcomp v).mp hv
            exact ⟨p, hp, h1, by omega⟩
        · rintro ⟨p, hp, h1, h2⟩
          by_cases hpc : p.c = i
          · have := hclose_unique p hp hpc
            subst this
            rw [← h1]
            exact List.mem_cons_self _ _
          · exact List.mem_cons_of_mem _ ((hinv.hcomp v).mpr ⟨p, hp, h1, by omega⟩)
      · intro r hr
        have hrs : r ∈ s.stack := by
          rw [hstk]
          exact List.mem_cons_of_mem _ hr
        obtain ⟨p, hp, h1, h2⟩ := hinv.hstk_mem r hrs
        refine ⟨p, hp, h1, (hopen_new p hp).mpr ⟨h2, ?_⟩⟩
        rintro rfl
        rw [← htop] at h1
        rw [← h1] at hr
        exact htopnrest hr
      · intro p hp ho
        obtain ⟨h2, hne⟩ := (hopen_new p hp).mp ho
        have hmem := hinv.hstk_full p hp h2
        rw [hstk] at hmem
        rcases List.mem_cons.mp hmem with he | hmem
        · exfalso
          exact hne (pairs_same_o hPw hoc hp hp0 (by rw [he, htop]))
        · exact hmem
      · have hps := hinv.hstk_sort
        rw [hstk] at hps
        exact (List.pairwise_cons.mp hps).2
      · intro v r hlk
        obtain ⟨q, hq, h1, h2, h3⟩ := hinv.hheads v r hlk
        exact ⟨q, hq, h1, h2, by omega⟩
      · intro p hp hpo
        have hone : p.o ≠ i := by
          intro he
          have hs2 := (hm p hp).2.2.1
          rw [he, hsdD] at hs2
          cases hs2
        exact hinv.hheads_full p hp (by omega)
  · have hex2 : (nth s.doc i).fold.extraExists = false := by
      rw [hdoc]
      revert hex
      cases (nth D i).fold.extraExists <;> simp
    rw [fixStep_nonmarker s i hex2]
    have hnoo : ∀ p ∈ P, p.o ≠ i ∧ p.c ≠ i := by
      intro p hp
      constructor <;> intro he
      · have hv := (hm p hp).2.1
        rw [he] at hv
        exact hex ((hsync i).2.2 hv)
      · have hv := (hm p hp).2.2.2.2.2.1
        rw [he] at hv
        exact hex ((hsync i).2.2 hv)
    have hopen_iff : ∀ p ∈ P, (openAt p (i + 1) ↔ openAt p i) := by
      intro p hp
      have := hnoo p hp
      unfold openAt
      omega
    refine ⟨hinv.hdoc, hinv.hmax, hinv.hremap, ?_, ?_, ?_, hinv.hstk_sort, ?_, ?_⟩
    · intro v
      rw [hinv.hcomp v]
      constructor
      · rintro ⟨p, hp, h1, h2⟩
        exact ⟨p, hp, h1, by omega⟩
      · rintro ⟨p, hp, h1, h2⟩
        refine ⟨p, hp, h1, ?_⟩
        have := (hnoo p hp).2
        omega
    · intro r hr
      obtain ⟨p, hp, h1, h2⟩ := hinv.hstk_mem r hr
      exact ⟨p, hp, h1, (hopen_iff p hp).mpr h2⟩
    · intro p hp ho
      exact hinv.hstk_full p hp ((hopen_iff p hp).mp ho)
    · intro v r hlk
      obtain ⟨q, hq, h1, h2, h3⟩ := hinv.hheads v r hlk
      exact ⟨q, hq, h1, h2, by omega⟩
    · intro p hp hpo
      refine hinv.hheads_full p hp ?_
      have := (hnoo p hp).1
      omega

theorem IdScanInv.initState (D : List Line) (P : List FoldPair) (M : Int) :
    IdScanInv D P M 0 (initFixState D M) := by
  refine ⟨rfl, rfl, rfl, ?_, ?_, ?_, List.Pairwise.nil, ?_, ?_⟩
  · intro v
    constructor
    · intro hv
      cases hv
    · rintro ⟨p, hp, h1, h2⟩
      omega
  · intro r hr
    cases hr
  · intro p hp ho
    have := ho.1
    omega
  · intro v r hlk
    cases hlk
  · intro p hp hpo
    omega

/-- A scan over a document whose markers already form a well-nested,
distinct-id pair structure changes nothing: no doc writes, no remaps,
no invalidations, and the trailing stack is empty. -/
theorem idScan_fixFolds {D : List Line} {P : List FoldPair}
    (hm : ∀ p ∈ P, pairMatches D p) (hPw : P.Pairwise pairRel)
    (hchar : ∀ r, (nth D r).fold.valid = true → ∃ p ∈ P, r = p.o ∨ r = p.c)
    (hsync : ∀ r, lineSync (nth D r))
    (H : ∀ r, (nth D r).fold.extraExists = true → (nth D r).fold.valid = true)
    (hplen : ∀ p ∈ P, p.c < D.length) :
    fixFolds D (readMaxId D) = (D, readMaxId D) ∧
    (fixScan D (readMaxId D)).remap = [] := by
  have hfinal : IdScanInv D P (readMaxId D) D.length (fixScan D (readMaxId D)) := by
    unfold fixScan
    rw [List.range_eq_range']
    have := foldl_range'_inv fixStep (fun i s => IdScanInv D P (readMaxId D) i s)
      D.length 0 (initFixState D (readMaxId D)) (IdScanInv.initState D P (readMaxId D))
      (fun i t _ _ ht => ht.advanceScan hm hPw hchar hsync H)
    simpa using this
  have hstk : (fixScan D (readMaxId D)).stack = [] := by
    cases hs : (fixScan D (readMaxId D)).stack with
    | nil => rfl
    | cons a l =>
        exfalso
        have ha : a ∈ (fixScan D (readMaxId D)).stack := by
          rw [hs]
          exact List.mem_cons_self _ _
        obtain ⟨p, hp, h1, h2⟩ := hfinal.hstk_mem a ha
        have h3 := h2.2
        have h4 := hplen p hp
        omega
  refine ⟨?_, hfinal.hremap⟩
  rw [fixFolds]
  rw [hstk]
  simp only [List.reverse_nil, List.foldl_nil, hfinal.hdoc, hfinal.hmax]

theorem bool_eq_of_iff {a b : Bool} (h : a = true ↔ b = true) : a = b := by
  cases a <;> cases b <;> simp_all

theorem pairMatches_of_core {D D' : List Line}
    (hc : ∀ r, sameCore (nth D' r) (nth D r)) {p : FoldPair}
    (h : pairMatches D p) : pairMatches D' p := by
  obtain ⟨h1, h2, h3, h4, h5, h6, h7, h8, h9⟩ := h
  obtain ⟨_, vo, so, co2, io, _, _⟩ := hc p.o
  obtain ⟨_, vc, sc, cc2, ic, _, _⟩ := hc p.c
  exact ⟨h1, by rw [vo]; exact h2, by rw [so]; exact h3, by rw [io]; exact h4,
    by rw [co2]; exact h5, by rw [vc]; exact h6, by rw [sc]; exact h7,
    by rw [ic]; exact h8, by rw [cc2]; exact h9⟩

/-- C2 (amended): the Repair+Link cycle run a second time on its own
output reproduces the first run exactly — no doc writes in Repair, no id
remaps, unchanged `max_fold_id`, and identical core fields and
visible/visibleRow/parent/counterpart/nextVisible caches from Link —
provided the
first Repair pass left no invalidated marker stored (every line with a
stored annotation is valid).  Without that proviso the second run can
delete an annotation whose `invalidCount` reached the threshold, as the
counterexample shows. -/
theorem repair_link_second_run (doc : List Line)
    (H : ∀ r, (nth (repairPass doc).1 r).fold.extraExists = true →
      (nth (repairPass doc).1 r).fold.valid = true) :
    let L1 := (linkFolds (repairPass doc).1).doc
    let L2 := (linkFolds (repairPass L1).1).doc
    repairPass L1 = (L1, readMaxId L1) ∧
    (fixScan (readFromExtradata L1) (readMaxId L1)).remap = [] ∧
    (∀ r, sameCore (nth L2 r) (nth L1 r)) ∧
    (∀ r, (nth L2 r).fold.visible = (nth L1 r).fold.visible ∧
      (nth L2 r).fold.visibleRow = (nth L1 r).fold.visibleRow ∧
      (nth L2 r).fold.parent = (nth L1 r).fold.parent ∧
      (nth L2 r).fold.counterpart = (nth L1 r).fold.counterpart ∧
      (nth L2 r).fold.nextVisible = (nth L1 r).fold.nextVisible) := by
  intro L1 L2
  obtain ⟨P, hPm, hPw, hchar, inv1⟩ := link_repaired doc
  have hcore1 : ∀ r, sameCore (nth L1 r) (nth (repairPass doc).1 r) := inv1.hcore
  have hsyncR : ∀ r, lineSync (nth (repairPass doc).1 r) := sync_repairPass doc
  have hsyncL1 : ∀ r, lineSync (nth L1 r) := fun r =>
    lineSync_of_sameCore (hcore1 r) (hsyncR r)
  have HL1 : ∀ r, (nth L1 r).fold.extraExists = true →
      (nth L1 r).fold.valid = true := by
    intro r hx
    obtain ⟨_, hv, _, _, _, hxx, _⟩ := hcore1 r
    rw [hv]
    exact H r (by rw [← hxx]; exact hx)
  have hmL1 : ∀ p ∈ P, pairMatches L1 p := fun p hp =>
    pairMatches_of_core hcore1 (hPm p hp).1
  have hcharL1 : ∀ r, (nth L1 r).fold.valid = true →
      ∃ p ∈ P, r = p.o ∨ r = p.c := by
    intro r hv
    obtain ⟨_, hvv, _, _, _, _, _⟩ := hcore1 r
    exact hchar r (by rw [← hvv]; exact hv)
  have hread : readFromExtradata L1 = L1 := readFromExtradata_eq_self hsyncL1 HL1
  have hlen1 : L1.length = (repairPass doc).1.length := inv1.hlen
  have hplenL1 : ∀ p ∈ P, p.c < L1.length := by
    intro p hp
    have h1 := (hPm p hp).2
    rw [hlen1, length_repairPass]
    exact h1
  obtain ⟨hfix, hremap⟩ := idScan_fixFolds hmL1 hPw hcharL1 hsyncL1 HL1 hplenL1
  have hrepL1 : repairPass L1 = (L1, readMaxId L1) := by
    show fixFolds (readFromExtradata L1) (readMaxId L1) = _
    rw [hread]
    exact hfix
  have hremap2 : (fixScan (readFromExtradata L1) (readMaxId L1)).remap = [] := by
    rw [hread]
    exact hremap
  have hL2eq : L2 = (linkFolds L1).doc := by
    show (linkFolds (repairPass L1).1).doc = _
    rw [hrepL1]
  have inv2 : LinkInv L1 P L1.length (linkFolds L1) := linkInv_final hmL1 hPw hcharL1
  have hviseq : ∀ j, (nth (linkFolds L1).doc j).fold.visible =
      (nth L1 j).fold.visible := by
    intro j
    by_cases hj : j < L1.length
    · have h2 : ((nth (linkFolds L1).doc j).fold.visible = true ↔
          ∀ p ∈ P, openAt p j → p.col = false) := inv2.hvis j hj
      have h1 : ((nth L1 j).fold.visible = true ↔
          ∀ p ∈ P, openAt p j → p.col = false) := inv1.hvis j (by omega)
      exact bool_eq_of_iff (h2.trans h1.symm)
    · rw [inv2.hun j (by omega)]
  refine ⟨hrepL1, hremap2, ?_, ?_⟩
  · intro r
    have hc : sameCore (nth (linkFolds L1).doc r) (nth L1 r) := inv2.hcore r
    rw [hL2eq]
    exact hc
  · intro r
    rw [hL2eq]
    by_cases hr : r < L1.length
    · refine ⟨hviseq r, ?_, ?_, ?_, ?_⟩
      · have h2 : (nth (linkFolds L1).doc r).fold.visibleRow =
            (countVisibleBefore (linkFolds L1).doc r : Int) := inv2.hvrow r hr
        have h1 : (nth L1 r).fold.visibleRow =
            (countVisibleBefore L1 r : Int) := inv1.hvrow r (by omega)
        rw [h2, h1, countVisibleBefore_congr (fun j _ => hviseq j)]
      · rcases inv2.hpar r hr with ⟨hn2, hno2⟩ | ⟨p, hp, hop, hpp, hmax⟩
        · rcases inv1.hpar r (by omega) with ⟨hn1, hno1⟩ | ⟨q, hq, hoq, hqq, hqmax⟩
          · rw [hn2]
            exact hn1.symm
          · exact absurd hoq (hno2 q hq)
        · rcases inv1.hpar r (by omega) with ⟨hn1, hno1⟩ | ⟨q, hq, hoq, hqq, hqmax⟩
          · exact absurd hop (hno1 p hp)
          · rw [hpp, hqq]
            have h1 := hmax q hq hoq
            have h2 := hqmax p hp hop
            have h3 : p.o = q.o := by omega
            rw [h3]
      · by_cases hpair : ∃ p ∈ P, r = p.o ∨ r = p.c
        · obtain ⟨p, hp, hr2⟩ := hpair
          have hcR : p.c < (repairPass doc).1.length := by
            have := hplenL1 p hp
            omega
          have hc2 := inv2.hcp p hp (hplenL1 p hp)
          have hc1 := inv1.hcp p hp hcR
          rcases hr2 with rfl | rfl
          · rw [hc2.1]
            exact hc1.1.symm
          · rw [hc2.2]
            exact hc1.2.symm
        · push_neg at hpair
          have hpair2 : ∀ p ∈ P, r ≠ p.o ∧ r ≠ p.c := by
            intro p hp
            exact ⟨(hpair p hp).1, (hpair p hp).2⟩
          exact inv2.hcpu r hpair2
      · cases hvr : (nth L1 r).fold.visible with
        | false =>
          have hvr2 : (nth (linkFolds L1).doc r).fold.visible = false := by
            rw [hviseq r]
            exact hvr
          have e2 := (inv2.hnv r hr).1 hvr2
          have e1 := (inv1.hnv r (by omega)).1 hvr
          rw [e2, e1]
        | true =>
          have hvr2 : (nth (linkFolds L1).doc r).fold.visible = true := by
            rw [hviseq r]
            exact hvr
          by_cases hex : ∃ v, r < v ∧ v < L1.length ∧
              (nth L1 v).fold.visible = true
          · obtain ⟨ha, hb, hc⟩ := Nat.find_spec hex
            have hmin : ∀ u, r < u → u < Nat.find hex →
                (nth L1 u).fold.visible = false := by
              intro u hu1 hu2
              have hnot := Nat.find_min hex hu2
              cases h : (nth L1 u).fold.visible with
              | false => rfl
              | true => exact absurd ⟨hu1, by omega, h⟩ hnot
            have e1 := ((inv1.hnv r (by omega)).2 hvr).2 (Nat.find hex) ha
              (by omega) hc hmin
            have e2 := ((inv2.hnv r hr).2 hvr2).2 (Nat.find hex) ha hb
              (by rw [hviseq]; exact hc)
              (fun u hu1 hu2 => by rw [hviseq]; exact hmin u hu1 hu2)
            rw [e2, e1]
          · push_neg at hex
            have hallf : ∀ u, r < u → u < L1.length →
                (nth L1 u).fold.visible = false := by
              intro u hu1 hu2
              cases h : (nth L1 u).fold.visible with
              | false => rfl
              | true => exact absurd h (hex u hu1 hu2)
            have e1 := ((inv1.hnv r (by omega)).2 hvr).1
              (fun u hu1 hu2 => hallf u hu1 (by omega))
            have e2 := ((inv2.hnv r hr).2 hvr2).1
              (fun u hu1 hu2 => by rw [hviseq]; exact hallf u hu1 hu2)
            rw [e2, e1]
    · rw [inv2.hun r (by omega)]
      exact ⟨rfl, rfl, rfl, rfl, rfl⟩

set_option maxHeartbeats 4000000 in
/-- Witness for the amended C2 on a concrete document whose Repair pass
leaves no invalid markers. -/
theorem repair_link_second_run_witness :
    repairPass (linkFolds (repairPass docW6).1).doc =
      ((linkFolds (repairPass docW6).1).doc,
        readMaxId (linkFolds (repairPass docW6).1).doc) ∧
    (fixScan (readFromExtradata (linkFolds (repairPass docW6).1).doc)
      (readMaxId (linkFolds (repairPass docW6).1).doc)).remap = [] ∧
    sameCore
      (nth (linkFolds (repairPass (linkFolds (repairPass docW6).1).doc).1).doc 0)
      (nth (linkFolds (repairPass docW6).1).doc 0) ∧
    (nth (linkFolds (repairPass (linkFolds (repairPass docW6).1).doc).1).doc
        2).fold.visible =
      (nth (linkFolds (repairPass docW6).1).doc 2).fold.visible ∧
    (nth (linkFolds (repairPass (linkFolds (repairPass docW6).1).doc).1).doc
        2).fold.nextVisible =
      (nth (linkFolds (repairPass docW6).1).doc 2).fold.nextVisible := by
  have hlen : (repairPass docW6).1.length = 6 := by
    rw [length_repairPass]
    rfl
  have hall : ∀ r, r < 6 → ((nth (repairPass docW6).1 r).fold.extraExists = true →
      (nth (repairPass docW6).1 r).fold.valid = true) := by
    decide
  have H : ∀ r, (nth (repairPass docW6).1 r).fold.extraExists = true →
      (nth (repairPass docW6).1 r).fold.valid = true := by
    intro r hx
    by_cases hr : r < 6
    · exact hall r hr hx
    · rw [nth_ge_length (by rw [hlen]; omega)] at hx
      cases hx
  obtain ⟨h1, h2, h3, h4⟩ := repair_link_second_run docW6 H
  exact ⟨h1, h2, h3 0, (h4 2).1, (h4 2).2.2.2.2⟩

end FoldModel
